import Mathlib

/-!
# timoni-io/go-utils: containers and bounded buffers

A shallow embedding of the container family of the repository (packages
`slice`, `set`, `maps`, `types`, and what these use of `utils` and `channel`)
together with theorems about it.

Conventions of the embedding

* A Go slice is a `List`; the nil slice and the empty slice are both `[]`.
* A value of an unsigned size type `S` of width `bits` is a `Nat` below
  `2 ^ bits`; conversions `S(n)` and arithmetic in `S` reduce modulo `2 ^ bits`.
* A run-time panic (slice bounds out of range, close of a nil channel) is `none`, or
  `Fault.panic` where a run can also block for ever.
* The type `int` has 64 bits.
* Methods are embedded for a non-nil receiver and return the new state of the
  receiver next to their result; a call through a pointer that may be nil is
  embedded apart, on an `Option` (namespaces `MapPtr`, `WeightedMapPtr`).
* The methods of the maps release every lock they take before they take another
  one, so on a run of one goroutine that starts with the lock free each lock step
  succeeds at once and the lock is free again at return: these methods are embedded
  without their lock steps. `Set.unmarshal` calls `Set.Add` while it holds the
  lock, so the methods of `Set` on that path are embedded with their lock steps.
-/

/-! ## Machine integers and slices -/

/-- Conversion `S(n)` of a non-negative integer to the unsigned type of width `bits`. -/
def toS (bits n : Nat) : Nat := n % 2 ^ bits

/-- Subtraction `a - b` in the unsigned type of width `bits` (wraps around). -/
def subS (bits a b : Nat) : Nat := (a + 2 ^ bits - b % 2 ^ bits) % 2 ^ bits

/-- Conversion `S(n)` of a signed integer to the unsigned type of width `bits`. -/
def toSOfInt (bits : Nat) (n : Int) : Nat := (n % (2 ^ bits : Int)).toNat

/-- Slice expression `xs[:n]`; panics when `n` exceeds the length. -/
def sliceTo {T : Type} (xs : List T) (n : Nat) : Option (List T) :=
  if n ≤ xs.length then some (xs.take n) else none

/-- Slice expression `xs[n:]`; panics when `n` exceeds the length. -/
def sliceFrom {T : Type} (xs : List T) (n : Nat) : Option (List T) :=
  if n ≤ xs.length then some (xs.drop n) else none

/-! ## Package `slice`: the bounded buffer `Rigid` -/

namespace slice

/-- The struct `Rigid[T, S]`; `bits` is the width of the size type `S`. -/
structure Rigid (T : Type) where
  bits : Nat
  data : List T
  size : Nat

variable {T : Type}

/-- The constructor `NewRigid[T, S](size)`. -/
def NewRigid (bits size : Nat) : Rigid T :=
  let size := if size = 0 then 1 else size
  { bits := bits, data := [], size := size }

/-- The method `Rigid.Add(x...)`: result `(removed, receiver afterwards)`. -/
def Rigid.Add (r : Rigid T) (x : List T) : Option (List T × Rigid T) :=
  let data := r.data ++ x
  if toS r.bits data.length > r.size then
    let cut := subS r.bits (toS r.bits data.length) r.size
    match sliceTo data cut, sliceFrom data cut with
    | some removed, some rest => some (removed, { r with data := rest })
    | _, _ => none
  else
    some ([], { r with data := data })

/-- The method `Rigid.GetAll()`. -/
def Rigid.GetAll (r : Rigid T) : List T := r.data

/-- The method `Rigid.GetLast(amount)`. -/
def Rigid.GetLast (r : Rigid T) (amount : Nat) : Option (List T) :=
  let amount := if amount > r.size then r.size else amount
  sliceFrom r.data (subS r.bits (toS r.bits r.data.length) amount)

/-- The method `Rigid.Get(idx)` on a non-nil receiver; `idx` is a value of the size type. The
pointer `&r.data[i]` is the index `i` together with the element it refers to; an index out
of range panics. -/
def Rigid.Get (r : Rigid T) (idx : Nat) : Option (Nat × T) :=
  let idx := if idx > toS r.bits r.data.length then toSOfInt r.bits ((r.data.length : Int) - 1)
    else idx
  match r.data[idx]? with
  | some x => some (idx, x)
  | none => none

/-- The method `Rigid.Take()` on a non-nil receiver: the result and the receiver afterwards. -/
def Rigid.Take (r : Rigid T) : List T × Rigid T := (r.data, { r with data := [] })

/-- Calling `Add` once per value, in order; the results of the calls are concatenated. -/
def Rigid.addEach (r : Rigid T) : List T → Option (List T × Rigid T)
  | [] => some ([], r)
  | v :: vs =>
    match r.Add [v] with
    | none => none
    | some (e, r') =>
      match Rigid.addEach r' vs with
      | none => none
      | some (es, r'') => some (e ++ es, r'')

end slice

/-! ## Go maps

A Go map is an association list without repeated keys. The order in which a
`range` statement visits a map is not fixed by the language, so every
operation that ranges over a map takes the order as an argument. -/

/-- A Go map `map[K]V`. -/
structure GoMap (K V : Type) where
  entries : List (K × V)
  nodup : (entries.map Prod.fst).Nodup

/-- The order of one `range` loop over a map: some rearrangement of its entries. -/
structure RangeOrder where
  perm : {α : Type} → List α → List α
  isPerm : ∀ {α : Type} (l : List α), (perm l).Perm l

/-- The `range` order that follows the association list. -/
def RangeOrder.asStored : RangeOrder := ⟨fun l => l, fun l => List.Perm.refl l⟩

/-- The `range` order that follows the association list backwards. -/
def RangeOrder.backwards : RangeOrder := ⟨fun l => l.reverse, fun l => List.reverse_perm l⟩

namespace GoMap

variable {K V : Type} [DecidableEq K]

/-- Lookup of a key in an association list. -/
def lookupEntry (k : K) : List (K × V) → Option V
  | [] => none
  | p :: rest => if p.1 = k then some p.2 else lookupEntry k rest

/-- Assignment to a key in an association list: in place, or as a new last entry. -/
def setEntry (k : K) (v : V) : List (K × V) → List (K × V)
  | [] => [(k, v)]
  | p :: rest => if p.1 = k then (k, v) :: rest else p :: setEntry k v rest

/-- Removal of a key from an association list. -/
def deleteEntry (k : K) (l : List (K × V)) : List (K × V) :=
  l.filter (fun p => decide (p.1 ≠ k))

theorem mem_keys_setEntry (k : K) (v : V) (l : List (K × V)) (a : K) :
    a ∈ (setEntry k v l).map Prod.fst ↔ a = k ∨ a ∈ l.map Prod.fst := by
  induction l with
  | nil => simp [setEntry]
  | cons p rest ih =>
    unfold setEntry
    split
    · rename_i h
      simp only [List.map_cons, List.mem_cons, h]
      tauto
    · simp only [List.map_cons, List.mem_cons, ih]
      tauto

theorem nodup_keys_setEntry (k : K) (v : V) (l : List (K × V))
    (h : (l.map Prod.fst).Nodup) : ((setEntry k v l).map Prod.fst).Nodup := by
  induction l with
  | nil => simp [setEntry]
  | cons p rest ih =>
    rw [List.map_cons, List.nodup_cons] at h
    unfold setEntry
    split
    · rename_i hp
      rw [List.map_cons, List.nodup_cons]
      exact ⟨hp ▸ h.1, h.2⟩
    · rename_i hp
      rw [List.map_cons, List.nodup_cons]
      refine ⟨?_, ih h.2⟩
      rw [mem_keys_setEntry]
      rintro (h1 | h1)
      · exact hp h1
      · exact h.1 h1

theorem keys_deleteEntry (k : K) (l : List (K × V)) :
    (deleteEntry k l).map Prod.fst = (l.map Prod.fst).filter (fun a => decide (a ≠ k)) := by
  induction l with
  | nil => rfl
  | cons p rest ih =>
    by_cases hp : p.1 = k
    · simp [deleteEntry, List.filter_cons, hp] at ih ⊢
      exact ih
    · simp [deleteEntry, List.filter_cons, hp] at ih ⊢
      exact ih

theorem nodup_keys_deleteEntry (k : K) (l : List (K × V))
    (h : (l.map Prod.fst).Nodup) : ((deleteEntry k l).map Prod.fst).Nodup := by
  rw [keys_deleteEntry]
  exact h.filter _

/-- The map literal `map[K]V{}`. -/
def empty : GoMap K V := ⟨[], List.nodup_nil⟩

/-- The expression `len(m)`. -/
def len (m : GoMap K V) : Nat := m.entries.length

/-- The lookup `v, ok := m[k]`. -/
def get? (m : GoMap K V) (k : K) : Option V := lookupEntry k m.entries

/-- The index expression `m[k]`: the zero value when `k` is absent. -/
def get [Inhabited V] (m : GoMap K V) (k : K) : V := (m.get? k).getD default

/-- The assignment `m[k] = v`. -/
def set (m : GoMap K V) (k : K) (v : V) : GoMap K V :=
  ⟨setEntry k v m.entries, nodup_keys_setEntry k v m.entries m.nodup⟩

/-- The statement `delete(m, k)`. -/
def delete (m : GoMap K V) (k : K) : GoMap K V :=
  ⟨deleteEntry k m.entries, nodup_keys_deleteEntry k m.entries m.nodup⟩

/-- The keys of a map, in storage order. -/
def keys (m : GoMap K V) : List K := m.entries.map Prod.fst

/-- The entries a `range` loop over `m` visits, in the order of the visit. -/
def range (ro : RangeOrder) (m : GoMap K V) : List (K × V) := ro.perm m.entries

/-- A map built by assigning the given pairs in order to an empty map. -/
def ofList (l : List (K × V)) : GoMap K V := l.foldl (fun m p => m.set p.1 p.2) empty

end GoMap

/-- A map variable that may be nil: reads see a nil map as an empty one. -/
def GoMap.orEmpty {K V : Type} (d : Option (GoMap K V)) : GoMap K V :=
  match d with
  | some m => m
  | none => ⟨[], List.nodup_nil⟩

/-! ## Package `types` -/

namespace types

/-- The struct `Weighted[V]`; `Weight` is a `uint32`. -/
structure Weighted (V : Type) where
  Value : V
  Weight : Nat
  deriving DecidableEq

/-- The zero value of `Weighted[V]`. -/
instance {V : Type} [Inhabited V] : Inhabited (Weighted V) := ⟨⟨default, 0⟩⟩

/-- The struct `Item[K, V]`. -/
structure Item (K V : Type) where
  Key : K
  Value : V
  deriving DecidableEq

/-- The error values of the package, and the errors `E` of a codec. -/
inductive Error (E : Type) where
  | ErrNilSet
  | ErrNilMap
  | ErrReadOnlyMap
  | codec (e : E)
  deriving DecidableEq

/-- The type `MarshalFunc`, at the payload type `α` it is called with; `B` are the bytes. -/
abbrev MarshalFunc (E B α : Type) := α → Except E B

/-- The type `UnmarshalFunc`, at the destination type `α` it is called with: from the bytes
and the destination's content to an error or the destination's new content. -/
abbrev UnmarshalFunc (E B α : Type) := B → α → Except E α

/-- The type `UnmarshalFunc` for a call whose destination outlives the call: from the bytes
and the destination's content to the error (`none` for nil) and the destination's content
afterwards, which a decoder that fails may have changed as well. -/
abbrev UnmarshalInto (E B α : Type) := B → α → Option E × α

/-- The type `EventType`. -/
abbrev EventType := String

/-- The constant `PutEvent`. -/
def PutEvent : EventType := "PUT"

/-- The constant `DeleteEvent`. -/
def DeleteEvent : EventType := "DELETE"

/-- The struct `WatchMsg[K, V]`: an event and the embedded `Item`. -/
structure WatchMsg (K V : Type) extends Item K V where
  Event : EventType
  deriving DecidableEq

end types

/-! ## Faults and channels

A channel records its buffer size, everything sent on it so far, in order, and whether it
is closed. A producer that finds the buffer full waits for the consumer, which is no fault,
so sends are recorded whatever the buffer size. A goroutine is run to completion and what
it leaves in its channels is the result of the call that started it. -/

/-- How a run can fail: a panic, or a goroutine that is blocked for ever. -/
inductive Fault where
  | panic
  | blocked
  deriving DecidableEq, Repr

/-- A channel. -/
structure Chan (α : Type) where
  cap : Nat
  sent : List α
  closed : Bool
  deriving DecidableEq

/-- The expression `make(chan α, cap)`. -/
def Chan.make {α : Type} (cap : Nat) : Chan α := { cap := cap, sent := [], closed := false }

/-- The statement `c <- x`; a closed channel panics. -/
def Chan.send {α : Type} (c : Chan α) (x : α) : Except Fault (Chan α) :=
  if c.closed then .error .panic else .ok { c with sent := c.sent ++ [x] }

/-- The statement `close(c)`; a closed channel panics. -/
def Chan.close {α : Type} (c : Chan α) : Except Fault (Chan α) :=
  if c.closed then .error .panic else .ok { c with closed := true }

/-- The statement `m[k] = v` on a map value that may be nil: an assignment to an entry of a
nil map panics. -/
def GoMap.assign {K V : Type} [DecidableEq K] (m : Option (GoMap K V)) (k : K) (v : V) :
    Except Fault (Option (GoMap K V)) :=
  match m with
  | none => .error .panic
  | some d => .ok (some (d.set k v))

/-! ## Package `utils` -/

namespace utils

/-- Modelled library type: the state of a `sync.RWMutex` of the Go library on a run of one
goroutine, which is how many read locks and whether the write lock are held. -/
structure RWMutex where
  readers : Nat
  writer : Bool
  deriving DecidableEq, Repr

/-- The struct `Lock`. -/
structure Lock where
  lock : RWMutex
  deriving DecidableEq, Repr

/-- The literal `&utils.Lock{}`: a mutex that nobody holds. -/
def Lock.new : Lock := { lock := { readers := 0, writer := false } }

/-- The method `Lock.Lock()` on a pointer `*Lock` that may be nil. On a run of one goroutine a
mutex that is held is never released by anyone else, so waiting for it is waiting for ever. -/
def LockPtr.Lock (l : Option utils.Lock) : Except Fault (Option utils.Lock) :=
  match l with
  | none => .ok none
  | some l =>
    if l.lock.writer || decide (l.lock.readers > 0) then .error .blocked
    else .ok (some { lock := { l.lock with writer := true } })

/-- The method `Lock.Unlock()` on a pointer that may be nil; unlocking a mutex whose write
lock is not held is a fatal error. -/
def LockPtr.Unlock (l : Option utils.Lock) : Except Fault (Option utils.Lock) :=
  match l with
  | none => .ok none
  | some l =>
    if l.lock.writer then .ok (some { lock := { l.lock with writer := false } })
    else .error .panic

/-- The method `Lock.RLock()` on a pointer that may be nil. -/
def LockPtr.RLock (l : Option utils.Lock) : Except Fault (Option utils.Lock) :=
  match l with
  | none => .ok none
  | some l =>
    if l.lock.writer then .error .blocked
    else .ok (some { lock := { l.lock with readers := l.lock.readers + 1 } })

/-- The method `Lock.RUnlock()` on a pointer that may be nil; unlocking a mutex of which no
read lock is held is a fatal error. -/
def LockPtr.RUnlock (l : Option utils.Lock) : Except Fault (Option utils.Lock) :=
  match l with
  | none => .ok none
  | some l =>
    if l.lock.readers = 0 then .error .panic
    else .ok (some { lock := { l.lock with readers := l.lock.readers - 1 } })

/-- The function `DeepCopy[T](src)`: nil (`none`) when encoding or decoding fails. The
library routines `json.Marshal` and `json.Unmarshal` are arguments; `zero` is the zero
value `*new(T)` the decoder writes into. -/
def DeepCopy {E B T : Type} (jsonMarshal : T → Except E B) (jsonUnmarshal : B → T → Except E T)
    (zero : T) (src : T) : Option T :=
  match jsonMarshal src with
  | .error _ => none
  | .ok data =>
    match jsonUnmarshal data zero with
    | .error _ => none
    | .ok dst => some dst

end utils

/-! ## Package `channel` -/

namespace channel

/-- The struct `Hub[T]` as a caller of `Broadcast` sees it: the registered clients (by
number), and the messages sent on the channel `broadcast` so far, oldest first. The control
loop `run`, which takes the messages off that channel, is not part of this state. -/
structure Hub (T : Type) where
  clients : List Nat
  broadcast : List T

/-- The constructor `NewHub[T](ctx, buffer)`: no client, nothing sent. -/
def NewHub {T : Type} : Hub T := { clients := [], broadcast := [] }

/-- The method `Hub.Broadcast(data)`: a send on `broadcast` when there is a client. The send
is recorded as done, as for every channel here: the control loop is taken to be running, so
a sender that finds the buffer full waits for it and goes on. -/
def Hub.Broadcast {T : Type} (h : Hub T) (data : T) : Hub T :=
  if h.clients.length > 0 then { h with broadcast := h.broadcast ++ [data] } else h

/-! ### The control loop

The client channels live in `chans`, and a `Client` value is a reference to one of them, an
index into `chans`; a reference that is no index is a nil channel. -/

/-- What the control loop `run` receives in one round of its `select`: a client on
`register`, a client on `unregister`, or a message on `broadcast`. -/
inductive Event (T : Type) where
  | register (client : Nat)
  | unregister (client : Nat)
  | broadcast (message : T)

/-- The state the control loop `run` works on: the map `clients` and the client channels. -/
structure Loop (T : Type) where
  clients : GoMap Nat Unit
  chans : List (Chan T)

/-- The statement `client <- message`; a nil channel blocks for ever. -/
def sendClient {T : Type} (chans : List (Chan T)) (client : Nat) (message : T) :
    Except Fault (List (Chan T)) :=
  match chans[client]? with
  | none => .error .blocked
  | some c =>
    match c.send message with
    | .error f => .error f
    | .ok c' => .ok (chans.set client c')

/-- The statement `close(client)`; a nil channel panics. -/
def closeClient {T : Type} (chans : List (Chan T)) (client : Nat) :
    Except Fault (List (Chan T)) :=
  match chans[client]? with
  | none => .error .panic
  | some c =>
    match c.close with
    | .error f => .error f
    | .ok c' => .ok (chans.set client c')

/-- The loop `for client := range h.clients { client <- message }`, over the clients in
the order of the visit. -/
def deliver {T : Type} (message : T) : List (Chan T) → List Nat → Except Fault (List (Chan T))
  | chans, [] => .ok chans
  | chans, client :: rest =>
    match sendClient chans client message with
    | .error f => .error f
    | .ok chans' => deliver message chans' rest

/-- One round of the loop of `run` in which the context is not done; `ro` is the order of
the `range` over `h.clients`. -/
def Loop.step {T : Type} (ro : RangeOrder) (st : Loop T) : Event T → Except Fault (Loop T)
  | .register client => .ok { st with clients := st.clients.set client () }
  | .unregister client =>
    match closeClient st.chans client with
    | .error f => .error f
    | .ok chans => .ok { clients := st.clients.delete client, chans := chans }
  | .broadcast message =>
    match deliver message st.chans ((st.clients.range ro).map Prod.fst) with
    | .error f => .error f
    | .ok chans => .ok { st with chans := chans }

/-- The rounds of the loop of `run`, one per received event. -/
def Loop.run {T : Type} : Loop T → List (RangeOrder × Event T) → Except Fault (Loop T)
  | st, [] => .ok st
  | st, (ro, e) :: rest =>
    match st.step ro e with
    | .error f => .error f
    | .ok st' => Loop.run st' rest

/-- The state of the loop of a Hub made by `NewHub`, next to `n` client channels as
`Register` makes them (`make(Client[T])`), none of them received by the loop yet. -/
def Loop.start {T : Type} (n : Nat) : Loop T :=
  { clients := GoMap.empty, chans := List.replicate n (Chan.make 0) }

/-- The Hub as a caller of `Broadcast` sees it, for a state of the loop and the messages
sent on `broadcast` so far. -/
def Loop.hub {T : Type} (st : Loop T) (sent : List T) : Hub T :=
  { clients := st.clients.keys, broadcast := sent }

/-! ### Specification of the control loop

The definitions below are not taken from the code: they say, client by client, what the
loop is compared with. -/

/-- Specification: what is known of one client, whether it is in the subscriber set, what
has been delivered to it, and whether its channel is closed. -/
structure ClientView (T : Type) where
  subscribed : Bool
  delivered : List T
  closed : Bool
  deriving DecidableEq

/-- Specification: the view of a client nothing has happened to. -/
def ClientView.fresh {T : Type} : ClientView T :=
  { subscribed := false, delivered := [], closed := false }

/-- Specification: the view of client `c` after one more event. `register(c)` puts `c` in
the subscriber set, `unregister(c)` takes it out and closes its channel, and a broadcast
value is appended to what `c` got exactly when `c` is in the subscriber set. -/
def specStep {T : Type} (c : Nat) (view : ClientView T) : Event T → ClientView T
  | .register c' => if c' = c then { view with subscribed := true } else view
  | .unregister c' => if c' = c then { view with subscribed := false, closed := true } else view
  | .broadcast v => if view.subscribed then { view with delivered := view.delivered ++ [v] } else view

/-- Specification: the view of client `c` after a sequence of events. -/
def specClient {T : Type} (c : Nat) (view : ClientView T) (evs : List (Event T)) : ClientView T :=
  evs.foldl (specStep c) view

/-- Specification: an event the public methods can cause, given the views of the clients.
A client that is registered or unregistered is one of the `n` client channels, and it has
not been unregistered before. -/
def admissible {T : Type} (n : Nat) (views : Nat → ClientView T) : Event T → Bool
  | .register c => decide (c < n) && !(views c).closed
  | .unregister c => decide (c < n) && !(views c).closed
  | .broadcast _ => true

/-- Specification: a sequence of events of which each is admissible when it is received. -/
def validEvents {T : Type} (n : Nat) : (Nat → ClientView T) → List (Event T) → Bool
  | _, [] => true
  | views, e :: rest =>
    admissible n views e && validEvents n (fun c => specStep c (views c) e) rest

/-- Specification: the state of the loop agrees with the views of the `n` clients. The
subscriber set holds exactly the clients whose view says so; the channel of each client
has buffer size 0, has received what the view says was delivered, and is closed exactly
when the view says so; and a client in the subscriber set is one of the `n` clients and
its channel is open. -/
def Matches {T : Type} (n : Nat) (st : Loop T) (views : Nat → ClientView T) : Prop :=
  st.chans.length = n ∧
    (∀ c, c ∈ st.clients.keys ↔ (views c).subscribed = true) ∧
    (∀ c, c < n → st.chans[c]? =
      some { cap := 0, sent := (views c).delivered, closed := (views c).closed }) ∧
    (∀ c, (views c).subscribed = true → c < n ∧ (views c).closed = false)

end channel

/-! ## Library routine `strings.HasPrefix`

A Go string is a `String`, and `a + b` on strings is `a ++ b`. -/

namespace strings

/-- Modelled library routine: `strings.HasPrefix(s, p)` of the Go library, whether `s`
begins with `p`. -/
def HasPrefix (s p : String) : Bool := p.data.isPrefixOf s.data

end strings

/-! ## Library routine `sort.Slice` -/

/-- The swap function of `sort.Slice`: exchanges the elements at `i` and `j`. -/
def swapAt {α : Type} (xs : List α) (i j : Nat) : List α :=
  match xs[i]?, xs[j]? with
  | some a, some b => (xs.set i b).set j a
  | _, _ => xs

/-- The inner loop `for j := i; j > 0 && less(j, j-1); j-- { swap(j, j-1) }` of the
insertion sort of package `sort`; `less` reads the slice in its current state. -/
def insertionInner {α : Type} (less : List α → Nat → Nat → Bool) : Nat → List α → List α
  | 0, xs => xs
  | j + 1, xs =>
    if less xs (j + 1) j then insertionInner less j (swapAt xs (j + 1) j) else xs

/-- The outer loop `for i := a + 1; i < b; i++` of the insertion sort, `n` rounds from `i`. -/
def insertionOuter {α : Type} (less : List α → Nat → Nat → Bool) : Nat → Nat → List α → List α
  | 0, _, xs => xs
  | n + 1, i, xs => insertionOuter less n (i + 1) (insertionInner less i xs)

/-- Modelled library routine: `sort.Slice(xs, less)` of the Go library, which is not part
of the repository. It sorts in place and is not stable; the model is the insertion sort
the library runs on slices of fewer than 12 elements. -/
def sortSlice {α : Type} (less : List α → Nat → Nat → Bool) (xs : List α) : List α :=
  insertionOuter less (xs.length - 1) 1 xs

/-- The call `sort.Slice(xs, func(i, j int) bool { return less(xs, i, j) })` for a func
value `less` that may be nil: the call of a nil func panics, and the routine calls its
comparator as soon as the slice has two elements. -/
def sortSliceBy {α : Type} (less : Option (List α → Nat → Nat → Bool)) (xs : List α) :
    Except Fault (List α) :=
  match less with
  | some f => .ok (sortSlice f xs)
  | none => if xs.length < 2 then .ok xs else .error .panic

/-! ## Package `set` -/

namespace set

variable {T : Type} [DecidableEq T]

/-- The struct `Set[T]`: `data` is a `map[T]void`, nil until first used; `lock` is nil
unless the set is made by `NewSafe`. -/
structure Set (T : Type) where
  data : Option (GoMap T Unit)
  lock : Option utils.Lock := none

/-- The method `Set.init()` on a non-nil receiver. -/
def Set.init (s : Set T) : Set T :=
  match s.data with
  | some _ => s
  | none => { s with data := some GoMap.empty }

/-- The method `Set.Add(values...)` on a receiver whose lock is nil or free: the lock is
free again at return (`Set.lockedAdd` has the lock steps). -/
def Set.Add (s : Set T) (values : List T) : Set T :=
  let s := s.init
  { s with data := some (values.foldl (fun d value => d.set value ()) (GoMap.orEmpty s.data)) }

/-- The constructor `New(data...)`. -/
def New (data : List T) : Set T := ({ data := none } : Set T).Add data

/-- The method `Set.Remove(values...)`. -/
def Set.Remove (s : Set T) (values : List T) : Set T :=
  let s := s.init
  { s with data := some (values.foldl (fun d value => d.delete value) (GoMap.orEmpty s.data)) }

/-- The method `Set.Delete(values...)` on a non-nil receiver whose lock is nil or free; it
does not call `init`, and `delete` on a nil map does nothing. -/
def Set.Delete (s : Set T) (values : List T) : Set T :=
  { s with data := s.data.map (fun d => values.foldl (fun d v => d.delete v) d) }

/-- The method `Set.Contains(value)`. -/
def Set.Contains (s : Set T) (value : T) : Bool :=
  ((GoMap.orEmpty s.data).get? value).isSome

/-- The method `Set.Length()`. -/
def Set.Length (s : Set T) : Nat := (GoMap.orEmpty s.data).len

/-- The loop `for _, value := range values { set.data[value] = void{} }`. -/
def Set.assignAll : Option (GoMap T Unit) → List T → Except Fault (Option (GoMap T Unit))
  | data, [] => .ok data
  | data, value :: rest =>
    match GoMap.assign data value () with
    | .error f => .error f
    | .ok data' => Set.assignAll data' rest

/-- The method `Set.Add(values...)` with its lock steps and the faults of its statements;
a panic in the loop leaves the method through the deferred `Unlock`. -/
def Set.lockedAdd (s : Set T) (values : List T) : Except Fault (Set T) :=
  let s := s.init
  match utils.LockPtr.Lock s.lock with
  | .error f => .error f
  | .ok lock =>
    match Set.assignAll s.data values with
    | .error f => .error f
    | .ok data =>
      match utils.LockPtr.Unlock lock with
      | .error f => .error f
      | .ok lock => .ok { data := data, lock := lock }

/-- The constructor `NewSafe(data...)`. -/
def NewSafe (data : List T) : Except Fault (Set T) :=
  ({ data := none, lock := some utils.Lock.new } : Set T).lockedAdd data

/-- The method `Set.List()` with its lock steps: the members in the order `ro` of its
`range` over the map, and the receiver afterwards. -/
def Set.lockedList (ro : RangeOrder) (s : Set T) : Except Fault (List T × Set T) :=
  match utils.LockPtr.RLock s.lock with
  | .error f => .error f
  | .ok lock =>
    let list := ((GoMap.orEmpty s.data).range ro).map Prod.fst
    match utils.LockPtr.RUnlock lock with
    | .error f => .error f
    | .ok lock => .ok (list, { s with lock := lock })

/-- The method `Set.marshal(m)` on a non-nil receiver, with its lock steps: the result of
the codec, which gets the member list, and the receiver afterwards. -/
def Set.marshal {E B : Type} (ro : RangeOrder) (s : Set T)
    (m : types.MarshalFunc E B (List T)) : Except Fault (Except (types.Error E) B × Set T) :=
  match utils.LockPtr.RLock s.lock with
  | .error f => .error f
  | .ok lock =>
    match Set.lockedList ro { s with lock := lock } with
    | .error f => .error f
    | .ok (list, s) =>
      let result : Except (types.Error E) B :=
        match m list with
        | .error e => .error (.codec e)
        | .ok bytes => .ok bytes
      match utils.LockPtr.RUnlock s.lock with
      | .error f => .error f
      | .ok lock => .ok (result, { s with lock := lock })

/-- The method `Set.unmarshal(um, data)` on a non-nil receiver, with its lock steps: the
error (`none` for nil) and the receiver afterwards; the codec decodes into a nil slice. The
write lock is held from the first statement to the return, and `Add` is called in
between. -/
def Set.unmarshal {E B : Type} (s : Set T) (um : types.UnmarshalFunc E B (List T)) (data : B) :
    Except Fault (Option (types.Error E) × Set T) :=
  match utils.LockPtr.Lock s.lock with
  | .error f => .error f
  | .ok lock =>
    let s : Set T := { s with lock := lock }
    match um data [] with
    | .error e =>
      match utils.LockPtr.Unlock s.lock with
      | .error f => .error f
      | .ok lock => .ok (some (.codec e), { s with lock := lock })
    | .ok values =>
      let s : Set T := { s with data := none }
      match s.lockedAdd values with
      | .error f => .error f
      | .ok s =>
        match utils.LockPtr.Unlock s.lock with
        | .error f => .error f
        | .ok lock => .ok (none, { s with lock := lock })

/-- The struct `set.Rigid[T, S]`: an embedded `slice.Rigid` and a companion `Set`. -/
structure Rigid (T : Type) extends slice.Rigid T where
  set : Set T

/-- The constructor `set.NewRigid[T, S](size)`. -/
def NewRigid (bits size : Nat) : Rigid T :=
  { toRigid := slice.NewRigid bits size, set := New [] }

/-- The method `set.Rigid.Add(x...)`. -/
def Rigid.Add (r : Rigid T) (x : List T) : Option (Rigid T) :=
  let toAdd := x.filter (fun v => !r.set.Contains v)
  match r.toRigid.Add toAdd with
  | none => none
  | some (removed, rigid) => some { toRigid := rigid, set := r.set.Remove removed }

/-- The promoted method `GetAll()` of the embedded `slice.Rigid`. -/
def Rigid.GetAll (r : Rigid T) : List T := r.toRigid.GetAll

/-- A sequence of `Add` calls, one per argument list. -/
def Rigid.addCalls (r : Rigid T) : List (List T) → Option (Rigid T)
  | [] => some r
  | x :: xs =>
    match r.Add x with
    | none => none
    | some r' => Rigid.addCalls r' xs

end set

/-! ## Package `maps` -/

namespace maps

open types

variable {K V : Type}

/-- The struct `Map[K, V]`: the backing map (nil until first used), the read-only flag, the
lock (nil unless the map is made synchronized by `Safe`) and the embedded Hub (nil unless
the map is made eventful by `Eventfull`). -/
structure Map (K V : Type) where
  data : Option (GoMap K V)
  readonly : Bool
  lock : Option utils.Lock := none
  Hub : Option (channel.Hub (WatchMsg K V)) := none

/-! ### Map -/

/-- The constructor `New(data)`. -/
def New (data : Option (GoMap K V)) : Map K V := { data := data, readonly := false }

/-- The statements `for _, x := range xs { c <- x }`. -/
def sendAll {α : Type} : Chan α → List α → Except Fault (Chan α)
  | c, [] => .ok c
  | c, x :: xs =>
    match c.send x with
    | .error f => .error f
    | .ok c' => sendAll c' xs

namespace Map

variable [DecidableEq K] [Inhabited V]

/-- The method `Map.init()` on a non-nil receiver. -/
def init (m : Map K V) : Map K V :=
  match m.data with
  | some _ => m
  | none => { m with data := some GoMap.empty }

/-- The method `Map.Eventfull(ctx, buf)`. -/
def Eventfull (m : Map K V) : Map K V := { m with Hub := some channel.NewHub }

/-- The method `Map.ReadOnly()`. -/
def ReadOnly (m : Map K V) : Map K V := { m with readonly := true }

/-- The method `Map.Safe()`. -/
def Safe (m : Map K V) : Map K V := { m with lock := some utils.Lock.new }

/-- The method `Map.Exists(k)`. -/
def Exists (m : Map K V) (k : K) : Bool := ((GoMap.orEmpty m.data).get? k).isSome

/-- The method `Map.Get(k)`. -/
def Get (m : Map K V) (k : K) : V := (GoMap.orEmpty m.data).get k

/-- The method `Map.GetFull(k)`. -/
def GetFull (m : Map K V) (k : K) : V × Bool :=
  match (GoMap.orEmpty m.data).get? k with
  | some obj => (obj, true)
  | none => (default, false)

/-- The statement `if m.Hub != nil { m.Hub.Broadcast(msg) }`. -/
def publish (m : Map K V) (msg : WatchMsg K V) : Map K V :=
  match m.Hub with
  | some hub => { m with Hub := some (hub.Broadcast msg) }
  | none => m

/-- The method `Map.Set(k, v)`. -/
def Set (m : Map K V) (k : K) (v : V) : Map K V :=
  if m.readonly then m
  else
    let m := m.init
    let m := m.publish { Event := PutEvent, Key := k, Value := v }
    { m with data := some ((GoMap.orEmpty m.data).set k v) }

/-- The method `Map.Delete(k)`. -/
def Delete (m : Map K V) (k : K) : Map K V :=
  if m.readonly then m
  else
    let m := m.publish { Event := DeleteEvent, Key := k, Value := m.Get k }
    { m with data := m.data.map (fun d => d.delete k) }

/-- The states of the receiver along `Map.Set(k, v)`, statement by statement: a read-only
map returns at once; otherwise the state after `m.init()`, after the Hub statement, and
after `m.data[k] = v`. -/
def SetSteps (m : Map K V) (k : K) (v : V) : List (Map K V) :=
  if m.readonly then [m]
  else
    let m1 := m.init
    let m2 := m1.publish { Event := PutEvent, Key := k, Value := v }
    let m3 : Map K V := { m2 with data := some ((GoMap.orEmpty m2.data).set k v) }
    [m1, m2, m3]

/-- The method `Map.Set(k, v)` with its lock steps and the faults of its statements: the
receiver afterwards. -/
def lockedSet (m : Map K V) (k : K) (v : V) : Except Fault (Map K V) :=
  if m.readonly then .ok m
  else
    let m := m.init
    let m := m.publish { Event := PutEvent, Key := k, Value := v }
    match utils.LockPtr.Lock m.lock with
    | .error f => .error f
    | .ok lock =>
      match GoMap.assign m.data k v with
      | .error f => .error f
      | .ok data =>
        match utils.LockPtr.Unlock lock with
        | .error f => .error f
        | .ok lock => .ok { m with data := data, lock := lock }

/-- The states of the receiver along `Map.Delete(k)`, statement by statement: a read-only
map returns at once; otherwise the state after the Hub statement, and after
`delete(m.data, k)`. -/
def DeleteSteps (m : Map K V) (k : K) : List (Map K V) :=
  if m.readonly then [m]
  else
    let m1 := m.publish { Event := DeleteEvent, Key := k, Value := m.Get k }
    let m2 : Map K V := { m1 with data := m1.data.map (fun d => d.delete k) }
    [m1, m2]

/-- The method `Map.Commit(fn)`; the callback rewrites the backing map. -/
def Commit (m : Map K V) (fn : GoMap K V → GoMap K V) : Map K V :=
  if m.readonly then m
  else
    let m := m.init
    { m with data := some (fn (GoMap.orEmpty m.data)) }

/-- The method `Map.Iter()` with its goroutine run to completion: the channel in the state
the goroutine leaves it in; `ro` is the order of its `range` over the map. -/
def Iter (ro : RangeOrder) (m : Map K V) : Except Fault (Chan (Item K V)) :=
  let iter : Chan (Item K V) := Chan.make (GoMap.orEmpty m.data).len
  match sendAll iter (((GoMap.orEmpty m.data).range ro).map (fun p => ⟨p.1, p.2⟩)) with
  | .error f => .error f
  | .ok iter => iter.close

/-- The method `Map.ForEach(fn)`: the callback acts on a state `σ` of the caller; the
result is that state after the last call. -/
def ForEach {σ : Type} (ro : RangeOrder) (m : Map K V) (fn : K → V → σ → σ) (s : σ) : σ :=
  ((GoMap.orEmpty m.data).range ro).foldl (fun acc p => fn p.1 p.2 acc) s

/-- The method `Map.Keys()`. -/
def Keys (ro : RangeOrder) (m : Map K V) : List K :=
  ((GoMap.orEmpty m.data).range ro).map Prod.fst

/-- The method `Map.Values()`. -/
def Values (ro : RangeOrder) (m : Map K V) : List V :=
  ((GoMap.orEmpty m.data).range ro).map Prod.snd

/-- The method `Map.Len()` on a non-nil receiver. -/
def Len (m : Map K V) : Nat := (GoMap.orEmpty m.data).len

/-- The method `Map.Copy()` on a non-nil receiver; the library routines `json.Marshal` and
`json.Unmarshal` that `DeepCopy` calls are arguments. -/
def Copy {E B : Type} (jsonMarshal : Option (GoMap K V) → Except E B)
    (jsonUnmarshal : B → Option (GoMap K V) → Except E (Option (GoMap K V)))
    (m : Map K V) : Option (Map K V) :=
  match utils.DeepCopy jsonMarshal jsonUnmarshal none m.data with
  | none => none
  | some copy => some (New copy)

/-- The method `Map.marshal(marsh)` on a non-nil receiver: the result of the codec and the
receiver afterwards. -/
def marshal {E B : Type} (m : Map K V) (marsh : MarshalFunc E B (GoMap K V)) :
    Except (Error E) B × Map K V :=
  let m := m.init
  match marsh (GoMap.orEmpty m.data) with
  | .error e => (.error (.codec e), m)
  | .ok bytes => (.ok bytes, m)

/-- The method `Map.unmarshal(unmarsh, data)` on a non-nil receiver: the error (`none` for
nil) and the receiver afterwards; the codec decodes into the backing map. -/
def unmarshal {E B : Type} (m : Map K V) (unmarsh : UnmarshalInto E B (Option (GoMap K V)))
    (data : B) : Option (Error E) × Map K V :=
  if m.readonly then (some .ErrReadOnlyMap, m)
  else
    let m := m.init
    let decoded := unmarsh data m.data
    (decoded.1.map (fun e => .codec e), { m with data := decoded.2 })

end Map

/-! ### Calls on a `*Map` that may be nil

The pointer is an `Option`. A method that checks `m == nil` first returns its default; a
method that reads a field of the receiver first (`m.readonly`, `m.lock`) panics on nil. -/

namespace MapPtr

variable [DecidableEq K] [Inhabited V]

/-- The method `Map.Exists(k)`. -/
def Exists (m : Option (Map K V)) (k : K) : Bool :=
  match m with
  | none => false
  | some m => m.Exists k

/-- The method `Map.Get(k)`. -/
def Get (m : Option (Map K V)) (k : K) : V :=
  match m with
  | none => default
  | some m => m.Get k

/-- The method `Map.GetFull(k)`. -/
def GetFull (m : Option (Map K V)) (k : K) : V × Bool :=
  match m with
  | none => (default, false)
  | some m => m.GetFull k

/-- The method `Map.Set(k, v)`: its first step is the read `m.readonly`. -/
def Set (m : Option (Map K V)) (k : K) (v : V) : Except Fault (Option (Map K V)) :=
  match m with
  | none => .error .panic
  | some m => .ok (some (m.Set k v))

/-- The method `Map.Delete(k)`. -/
def Delete (m : Option (Map K V)) (k : K) : Option (Map K V) :=
  match m with
  | none => none
  | some m => some (m.Delete k)

/-- The method `Map.Commit(fn)`: its first step is the read `m.readonly`. -/
def Commit (m : Option (Map K V)) (fn : GoMap K V → GoMap K V) :
    Except Fault (Option (Map K V)) :=
  match m with
  | none => .error .panic
  | some m => .ok (some (m.Commit fn))

/-- The method `Map.Iter()`: a nil channel (`none`) on a nil receiver. -/
def Iter (ro : RangeOrder) (m : Option (Map K V)) : Except Fault (Option (Chan (Item K V))) :=
  match m with
  | none => .ok none
  | some m =>
    match m.Iter ro with
    | .error f => .error f
    | .ok iter => .ok (some iter)

/-- The method `Map.ForEach(fn)`. -/
def ForEach {σ : Type} (ro : RangeOrder) (m : Option (Map K V)) (fn : K → V → σ → σ)
    (s : σ) : σ :=
  match m with
  | none => s
  | some m => m.ForEach ro fn s

/-- The method `Map.Keys()`. -/
def Keys (ro : RangeOrder) (m : Option (Map K V)) : List K :=
  match m with
  | none => []
  | some m => m.Keys ro

/-- The method `Map.Values()`. -/
def Values (ro : RangeOrder) (m : Option (Map K V)) : List V :=
  match m with
  | none => []
  | some m => m.Values ro

/-- The method `Map.Len()`: its first step is the read `m.lock`. -/
def Len (m : Option (Map K V)) : Except Fault Nat :=
  match m with
  | none => .error .panic
  | some m => .ok m.Len

/-- The method `Map.Copy()`. -/
def Copy {E B : Type} (jsonMarshal : Option (GoMap K V) → Except E B)
    (jsonUnmarshal : B → Option (GoMap K V) → Except E (Option (GoMap K V)))
    (m : Option (Map K V)) : Option (Map K V) :=
  match m with
  | none => none
  | some m => m.Copy jsonMarshal jsonUnmarshal

/-- The method `Map.marshal(marsh)`. -/
def marshal {E B : Type} (m : Option (Map K V)) (marsh : MarshalFunc E B (GoMap K V)) :
    Except (Error E) B × Option (Map K V) :=
  match m with
  | none => (.error .ErrNilMap, none)
  | some m => ((m.marshal marsh).1, some (m.marshal marsh).2)

/-- The method `Map.unmarshal(unmarsh, data)`. -/
def unmarshal {E B : Type} (m : Option (Map K V))
    (unmarsh : UnmarshalInto E B (Option (GoMap K V))) (data : B) :
    Option (Error E) × Option (Map K V) :=
  match m with
  | none => (some .ErrNilMap, none)
  | some m => ((m.unmarshal unmarsh data).1, some (m.unmarshal unmarsh data).2)

end MapPtr

/-! ### Maps as references

A Go map value is a reference: two variables can hold the same map, and a write through one
of them is seen through the other. Here the maps live in a heap and a map value is nil or
the address of a cell of the heap; `Map.Copy` and the calls around it are embedded on this
heap. Lock steps are left out, as in the methods above. -/

/-- The heap of maps: the cell at an address holds the content of the map there. -/
structure MapHeap (K V : Type) where
  cells : List (GoMap K V)

namespace MapHeap

/-- A new map with the content `d` (`map[K]V{}`, or the map a decoder builds): the heap
with one more cell, and the address of that cell. -/
def alloc (h : MapHeap K V) (d : GoMap K V) : MapHeap K V × Nat :=
  ({ cells := h.cells ++ [d] }, h.cells.length)

/-- The map behind a reference as a reader has it: nil, or the content of the cell. -/
def content (h : MapHeap K V) (ref : Option Nat) : Option (GoMap K V) :=
  ref.map (fun a => h.cells.getD a GoMap.empty)

/-- The statement `m[k] = v` through a reference: an assignment to an entry of a nil map
panics, and otherwise the cell behind the reference gets the entry. -/
def assign [DecidableEq K] (h : MapHeap K V) (ref : Option Nat) (k : K) (v : V) :
    Except Fault (MapHeap K V) :=
  match ref with
  | none => .error .panic
  | some a => .ok { cells := h.cells.set a ((h.cells.getD a GoMap.empty).set k v) }

end MapHeap

/-- The struct `Map[K, V]` with its field `data` as the reference it is. -/
structure MapRef (K V : Type) where
  data : Option Nat
  readonly : Bool
  lock : Option utils.Lock := none
  Hub : Option (channel.Hub (WatchMsg K V)) := none

namespace MapRef

variable [DecidableEq K] [Inhabited V]

/-- The constructor `New(data)`: the struct holds the reference it is given. -/
def New (data : Option Nat) : MapRef K V := { data := data, readonly := false }

/-- The struct as the methods above have it: the reference replaced by the map behind it. -/
def toMap (m : MapRef K V) (h : MapHeap K V) : Map K V :=
  { data := h.content m.data, readonly := m.readonly, lock := m.lock, Hub := m.Hub }

/-- The method `Map.init()` on a non-nil receiver: a nil `data` gets a new empty map. -/
def init (m : MapRef K V) (h : MapHeap K V) : MapHeap K V × MapRef K V :=
  match m.data with
  | some _ => (h, m)
  | none => ((h.alloc GoMap.empty).1, { m with data := some (h.alloc GoMap.empty).2 })

/-- The method `Map.Exists(k)`. -/
def Exists (m : MapRef K V) (h : MapHeap K V) (k : K) : Bool :=
  ((GoMap.orEmpty (h.content m.data)).get? k).isSome

/-- The method `Map.Get(k)`. -/
def Get (m : MapRef K V) (h : MapHeap K V) (k : K) : V :=
  (GoMap.orEmpty (h.content m.data)).get k

/-- The method `Map.GetFull(k)`. -/
def GetFull (m : MapRef K V) (h : MapHeap K V) (k : K) : V × Bool :=
  match (GoMap.orEmpty (h.content m.data)).get? k with
  | some obj => (obj, true)
  | none => (default, false)

/-- The method `Map.Len()`. -/
def Len (m : MapRef K V) (h : MapHeap K V) : Nat := (GoMap.orEmpty (h.content m.data)).len

/-- The statement `if m.Hub != nil { m.Hub.Broadcast(msg) }`. -/
def publish (m : MapRef K V) (msg : WatchMsg K V) : MapRef K V :=
  match m.Hub with
  | some hub => { m with Hub := some (hub.Broadcast msg) }
  | none => m

/-- The method `Map.Set(k, v)`: the heap and the receiver afterwards. -/
def Set (m : MapRef K V) (h : MapHeap K V) (k : K) (v : V) :
    Except Fault (MapHeap K V × MapRef K V) :=
  if m.readonly then .ok (h, m)
  else
    let r := m.init h
    let m := r.2.publish { Event := PutEvent, Key := k, Value := v }
    match r.1.assign m.data k v with
    | .error f => .error f
    | .ok h' => .ok (h', m)

/-- A sequence of `Set` calls, one per pair. -/
def setAll (m : MapRef K V) (h : MapHeap K V) :
    List (K × V) → Except Fault (MapHeap K V × MapRef K V)
  | [] => .ok (h, m)
  | p :: rest =>
    match m.Set h p.1 p.2 with
    | .error f => .error f
    | .ok r => setAll r.2 r.1 rest

/-- The method `Map.Copy()` on a non-nil receiver: the heap afterwards and the pointer it
returns. `DeepCopy` encodes the map behind `m.data` and decodes into `new(T)`, a nil map
variable: the decoder leaves it nil or builds a new map, and `New(*copy)` holds that map. -/
def Copy {E B : Type} (jsonMarshal : Option (GoMap K V) → Except E B)
    (jsonUnmarshal : B → Option (GoMap K V) → Except E (Option (GoMap K V)))
    (m : MapRef K V) (h : MapHeap K V) : MapHeap K V × Option (MapRef K V) :=
  match utils.DeepCopy jsonMarshal jsonUnmarshal none (h.content m.data) with
  | none => (h, none)
  | some none => (h, some (New none))
  | some (some d) => ((h.alloc d).1, some (New (some (h.alloc d).2)))

end MapRef

/-! ### Bucket

The bucket holds a pointer to its parent map; here it holds the parent as the pointer
reaches it, and a method that changes the parent returns the bucket over the changed
parent. -/

/-- The struct `Bucket[V]`: the pointer to the parent, which may be nil, and the prefix. -/
structure Bucket (V : Type) where
  m : Option (Map String V)
  pfx : String

/-- The constructor `NewBucket(m, pfx)`. -/
def NewBucket {V : Type} (m : Option (Map String V)) (pfx : String) : Bucket V :=
  { m := m, pfx := pfx }

/-- The statements `for item := range c` on a channel whose producer has finished: all that
was sent, once the channel is closed; a nil channel and a channel that is never closed
block for ever. -/
def recvAll {α : Type} (c : Option (Chan α)) : Except Fault (List α) :=
  match c with
  | none => .error .blocked
  | some c => if c.closed then .ok c.sent else .error .blocked

/-- The loop of the goroutine of `Bucket.Iter`: each received item whose key begins with
the prefix is sent on. -/
def relay {V : Type} (pfx : String) :
    Chan (Item String V) → List (Item String V) → Except Fault (Chan (Item String V))
  | out, [] => .ok out
  | out, item :: rest =>
    if strings.HasPrefix item.Key pfx then
      match out.send { Value := item.Value, Key := item.Key } with
      | .error f => .error f
      | .ok out' => relay pfx out' rest
    else relay pfx out rest

/-- The method `Bucket.Exists(k)`. -/
def Bucket.Exists {V : Type} [Inhabited V] (b : Bucket V) (k : String) : Bool :=
  MapPtr.Exists b.m (b.pfx ++ k)

/-- The method `Bucket.Get(k)`. -/
def Bucket.Get {V : Type} [Inhabited V] (b : Bucket V) (k : String) : V :=
  MapPtr.Get b.m (b.pfx ++ k)

/-- The method `Bucket.GetFull(k)`. -/
def Bucket.GetFull {V : Type} [Inhabited V] (b : Bucket V) (k : String) : V × Bool :=
  MapPtr.GetFull b.m (b.pfx ++ k)

/-- The method `Bucket.Set(k, v)`. -/
def Bucket.Set {V : Type} [Inhabited V] (b : Bucket V) (k : String) (v : V) :
    Except Fault (Bucket V) :=
  match MapPtr.Set b.m (b.pfx ++ k) v with
  | .error f => .error f
  | .ok m => .ok { b with m := m }

/-- The method `Bucket.Delete(k)`. -/
def Bucket.Delete {V : Type} [Inhabited V] (b : Bucket V) (k : String) : Bucket V :=
  { b with m := MapPtr.Delete b.m (b.pfx ++ k) }

/-- The method `Bucket.Iter()` with its goroutine run to completion: the channel in the
state the goroutine leaves it in; `ro` is the order of the `range` of the parent. -/
def Bucket.Iter {V : Type} [Inhabited V] (ro : RangeOrder) (b : Bucket V) :
    Except Fault (Chan (Item String V)) :=
  match MapPtr.Len b.m with
  | .error f => .error f
  | .ok n =>
    let out : Chan (Item String V) := Chan.make n
    match MapPtr.Iter ro b.m with
    | .error f => .error f
    | .ok iter =>
      match recvAll iter with
      | .error f => .error f
      | .ok items =>
        match relay b.pfx out items with
        | .error f => .error f
        | .ok out' => out'.close

/-- The method `Bucket.ForEach(fn)`: the callback acts on a state `σ` of the caller; the
result is that state after the last call. -/
def Bucket.ForEach {V σ : Type} [Inhabited V] (ro : RangeOrder) (b : Bucket V)
    (fn : String → V → σ → σ) (s : σ) : Except Fault σ :=
  match b.Iter ro with
  | .error f => .error f
  | .ok iter =>
    match recvAll (some iter) with
    | .error f => .error f
    | .ok items => .ok (items.foldl (fun acc item => fn item.Key item.Value acc) s)

/-- The method `Bucket.Keys()`. -/
def Bucket.Keys {V : Type} [Inhabited V] (ro : RangeOrder) (b : Bucket V) :
    Except Fault (List String) :=
  match MapPtr.Len b.m with
  | .error f => .error f
  | .ok _ =>
    match b.Iter ro with
    | .error f => .error f
    | .ok iter =>
      match recvAll (some iter) with
      | .error f => .error f
      | .ok items => .ok (items.foldl (fun keys item => keys ++ [item.Key]) [])

/-- The method `Bucket.Values()`. -/
def Bucket.Values {V : Type} [Inhabited V] (ro : RangeOrder) (b : Bucket V) :
    Except Fault (List V) :=
  match MapPtr.Len b.m with
  | .error f => .error f
  | .ok _ =>
    match b.Iter ro with
    | .error f => .error f
    | .ok iter =>
      match recvAll (some iter) with
      | .error f => .error f
      | .ok items => .ok (items.foldl (fun values item => values ++ [item.Value]) [])

/-- The method `Bucket.Len()`. -/
def Bucket.Len {V : Type} [Inhabited V] (ro : RangeOrder) (b : Bucket V) : Except Fault Nat :=
  match b.Keys ro with
  | .error f => .error f
  | .ok keys => .ok keys.length

set_option linter.dupNamespace false in
/-- The method `Bucket.Bucket(pfx)`. -/
def Bucket.Bucket {V : Type} (b : maps.Bucket V) (pfx : String) : maps.Bucket V :=
  { m := b.m, pfx := b.pfx ++ pfx }

/-! ### Functions -/

/-- The loop `for k, v := range a { if b[k] != v { return true } }` of `Compare`, followed
by `return false`. -/
def compareLoop {K T : Type} [DecidableEq K] [DecidableEq T] [Inhabited T] (b : GoMap K T) :
    List (K × T) → Bool
  | [] => false
  | p :: rest => if b.get p.1 ≠ p.2 then true else compareLoop b rest

/-- The function `Compare(a, b)` on maps that may be nil; `ro` is the order of its `range`
over `a`. -/
def Compare {K T : Type} [DecidableEq K] [DecidableEq T] [Inhabited T] (ro : RangeOrder)
    (a b : Option (GoMap K T)) : Bool :=
  if (GoMap.orEmpty a).len ≠ (GoMap.orEmpty b).len then true
  else compareLoop (GoMap.orEmpty b) ((GoMap.orEmpty a).range ro)

/-! ### OrderedMap -/

/-- The struct `OrderedMap[K, V]`; a comparator gets the slice and two indices. -/
structure OrderedMap (K V : Type) extends Map K V where
  lessFunc : Option (List K → Nat → Nat → Bool)
  sorted : Bool
  sortedKeys : List K

/-- The comparator `init` installs: `data[i] <= data[j]`. -/
def defaultLess [LinearOrder K] (data : List K) (i j : Nat) : Bool :=
  match data[i]?, data[j]? with
  | some a, some b => decide (a ≤ b)
  | _, _ => false

/-- The constructor `NewOrdered(data, lessFunc)`. -/
def NewOrdered (data : Option (GoMap K V)) (lessFunc : Option (List K → Nat → Nat → Bool)) :
    OrderedMap K V :=
  { data := data, readonly := false, lessFunc := lessFunc, sorted := false, sortedKeys := [] }

namespace OrderedMap

variable [LinearOrder K]

/-- The method `OrderedMap.init()` on a non-nil receiver. -/
def init (m : OrderedMap K V) : OrderedMap K V :=
  let m := match m.data with
    | some _ => m
    | none => { m with data := some GoMap.empty }
  match m.lessFunc with
  | some _ => m
  | none => { m with lessFunc := some defaultLess }

/-- The comparator in force once `init` has run. -/
def less (m : OrderedMap K V) : List K → Nat → Nat → Bool :=
  match m.lessFunc with
  | some f => f
  | none => defaultLess

/-- The method `OrderedMap.ReadOnly()`. -/
def ReadOnly (m : OrderedMap K V) : OrderedMap K V := { m with readonly := true }

/-- The method `OrderedMap.sort()`; `ro` is the order of its `range` over the map. -/
def sort (ro : RangeOrder) (m : OrderedMap K V) : OrderedMap K V :=
  if m.sorted then m
  else
    let m := m.init
    let keys := ((GoMap.orEmpty m.data).range ro).map Prod.fst
    { m with sortedKeys := sortSlice m.less keys, sorted := true }

/-- The method `OrderedMap.Set(k, v)`. -/
def Set (m : OrderedMap K V) (k : K) (v : V) : OrderedMap K V :=
  if m.readonly then m
  else
    let m := m.init
    { m with data := some ((GoMap.orEmpty m.data).set k v), sorted := false }

/-- The method `OrderedMap.Delete(k)`. -/
def Delete (m : OrderedMap K V) (k : K) : OrderedMap K V :=
  if m.readonly then m
  else { m with data := m.data.map (fun d => d.delete k), sorted := false }

/-- The method `OrderedMap.Commit(fn)`; the callback rewrites the backing map. -/
def Commit (m : OrderedMap K V) (fn : GoMap K V → GoMap K V) : OrderedMap K V :=
  if m.readonly then m
  else
    let m := m.init
    { m with data := some (fn (GoMap.orEmpty m.data)), sorted := false }

/-- The method `OrderedMap.Keys()`: the result and the receiver afterwards. -/
def Keys (ro : RangeOrder) (m : OrderedMap K V) : List K × OrderedMap K V :=
  let m := m.sort ro
  (m.sortedKeys, m)

/-- The method `OrderedMap.Values()`: the result and the receiver afterwards. -/
def Values [Inhabited V] (ro : RangeOrder) (m : OrderedMap K V) : List V × OrderedMap K V :=
  let m := m.sort ro
  (m.sortedKeys.map (fun k => (GoMap.orEmpty m.data).get k), m)

/-- The method `OrderedMap.ForEach(fn)`: the callback acts on a state `σ` of the caller;
the result is that state after the last call, and the receiver afterwards. -/
def ForEach [Inhabited V] {σ : Type} (ro : RangeOrder) (m : OrderedMap K V)
    (fn : K → V → σ → σ) (s : σ) : σ × OrderedMap K V :=
  let m := m.sort ro
  (m.sortedKeys.foldl (fun acc k => fn k ((GoMap.orEmpty m.data).get k) acc) s, m)

/-- The method `OrderedMap.Iter()` with its goroutine run to completion: the channel in the
state the goroutine leaves it in, and the receiver afterwards. -/
def Iter [Inhabited V] (ro : RangeOrder) (m : OrderedMap K V) :
    Except Fault (Chan (Item K V)) × OrderedMap K V :=
  let m := m.sort ro
  let iter : Chan (Item K V) := Chan.make m.sortedKeys.length
  let result : Except Fault (Chan (Item K V)) :=
    match sendAll iter (m.sortedKeys.map (fun k => ⟨k, (GoMap.orEmpty m.data).get k⟩)) with
    | .error f => .error f
    | .ok iter' => iter'.close
  (result, m)

/-- The method `unmarshal(unmarsh, data)` that `OrderedMap` has from the embedded `Map`
(`UnmarshalJSON` and `UnmarshalCBOR` call it): it runs on the embedded `Map` and knows
nothing of the other fields. -/
def unmarshal [Inhabited V] {E B : Type} (m : OrderedMap K V)
    (unmarsh : UnmarshalInto E B (Option (GoMap K V))) (data : B) :
    Option (Error E) × OrderedMap K V :=
  let r := m.toMap.unmarshal unmarsh data
  (r.1, { m with toMap := r.2 })

/-- The method `OrderedMap.Copy()` on a non-nil receiver; the library routines
`json.Marshal` and `json.Unmarshal` that `DeepCopy` calls are arguments. -/
def Copy {E B : Type} (jsonMarshal : Option (GoMap K V) → Except E B)
    (jsonUnmarshal : B → Option (GoMap K V) → Except E (Option (GoMap K V)))
    (m : OrderedMap K V) : Option (OrderedMap K V) :=
  match utils.DeepCopy jsonMarshal jsonUnmarshal none m.data with
  | none => none
  | some copy => some (NewOrdered copy none)

/-- The method `OrderedMap.Set(k, v)` with its lock steps and the faults of its
statements: the receiver afterwards. -/
def lockedSet (m : OrderedMap K V) (k : K) (v : V) : Except Fault (OrderedMap K V) :=
  if m.readonly then .ok m
  else
    let m := m.init
    match utils.LockPtr.Lock m.lock with
    | .error f => .error f
    | .ok lock =>
      match GoMap.assign m.data k v with
      | .error f => .error f
      | .ok data =>
        match utils.LockPtr.Unlock lock with
        | .error f => .error f
        | .ok lock => .ok { m with data := data, lock := lock, sorted := false }

/-- The method `OrderedMap.sort()` with its lock steps and the faults of its statements;
`ro` is the order of its `range` over the map. The comparator handed to `sort.Slice` calls
`m.lessFunc`. -/
def lockedSort (ro : RangeOrder) (m : OrderedMap K V) : Except Fault (OrderedMap K V) :=
  match utils.LockPtr.RLock m.lock with
  | .error f => .error f
  | .ok lock =>
    let m : OrderedMap K V := { m with lock := lock }
    let body : Except Fault (OrderedMap K V) :=
      if m.sorted then .ok m
      else
        let m := m.init
        let keys := ((GoMap.orEmpty m.data).range ro).map Prod.fst
        match sortSliceBy m.lessFunc keys with
        | .error f => .error f
        | .ok sortedKeys => .ok { m with sortedKeys := sortedKeys, sorted := true }
    match body with
    | .error f => .error f
    | .ok m =>
      match utils.LockPtr.RUnlock m.lock with
      | .error f => .error f
      | .ok lock => .ok { m with lock := lock }

/-- The method `OrderedMap.Keys()` with its lock steps and the faults of its statements:
the result and the receiver afterwards. -/
def lockedKeys (ro : RangeOrder) (m : OrderedMap K V) :
    Except Fault (List K × OrderedMap K V) :=
  match m.lockedSort ro with
  | .error f => .error f
  | .ok m =>
    match utils.LockPtr.Lock m.lock with
    | .error f => .error f
    | .ok lock =>
      match utils.LockPtr.Unlock lock with
      | .error f => .error f
      | .ok lock => .ok (m.sortedKeys, { m with lock := lock })

/-- A sequence of `Set` calls, one per pair, each with its lock steps and faults. -/
def lockedSetAll (m : OrderedMap K V) : List (K × V) → Except Fault (OrderedMap K V)
  | [] => .ok m
  | p :: rest =>
    match m.lockedSet p.1 p.2 with
    | .error f => .error f
    | .ok m' => lockedSetAll m' rest

end OrderedMap

/-- The calls of the cache discipline of an `OrderedMap`. -/
inductive OrderedOp (K V : Type) where
  | Set (k : K) (v : V)
  | Delete (k : K)
  | Commit (fn : GoMap K V → GoMap K V)
  | Keys (ro : RangeOrder)
  | Values (ro : RangeOrder)
  | ForEach (ro : RangeOrder)

/-- Whether a call is one of the mutations `Set`, `Delete`, `Commit`. -/
def OrderedOp.isMutation : OrderedOp K V → Bool
  | .Set _ _ => true
  | .Delete _ => true
  | .Commit _ => true
  | _ => false

/-- The `range` order of a call that is one of the reads `Keys`, `Values`, `ForEach`. -/
def OrderedOp.readOrder : OrderedOp K V → Option RangeOrder
  | .Keys ro => some ro
  | .Values ro => some ro
  | .ForEach ro => some ro
  | _ => none

/-- The receiver after one call. -/
def OrderedMap.step [LinearOrder K] [Inhabited V] (m : OrderedMap K V) :
    OrderedOp K V → OrderedMap K V
  | .Set k v => m.Set k v
  | .Delete k => m.Delete k
  | .Commit fn => m.Commit fn
  | .Keys ro => (m.Keys ro).2
  | .Values ro => (m.Values ro).2
  | .ForEach ro => (m.ForEach ro (fun _ _ (u : Unit) => u) ()).2

/-- The receiver after a sequence of calls. -/
def OrderedMap.run [LinearOrder K] [Inhabited V] (m : OrderedMap K V)
    (ops : List (OrderedOp K V)) : OrderedMap K V :=
  ops.foldl OrderedMap.step m

/-- The receiver after a sequence of `Set` calls, one per pair. -/
def OrderedMap.setAll [LinearOrder K] (m : OrderedMap K V) (sets : List (K × V)) :
    OrderedMap K V :=
  sets.foldl (fun m p => m.Set p.1 p.2) m

/-- The comparator handed to `NewOrdered` orders the keys by `lt`: either none is supplied
(nil) and `lt` is the order of the key type, or the supplied comparator compares the
elements at its two indices by `lt`, and `lt` is a strict total order of the keys. -/
def ComparesBy [LinearOrder K] (lessFunc : Option (List K → Nat → Nat → Bool))
    (lt : K → K → Prop) : Prop :=
  match lessFunc with
  | none => ∀ a b, lt a b ↔ a < b
  | some f =>
    (∀ a, ¬ lt a a) ∧ (∀ a b c, lt a b → lt b c → lt a c) ∧ (∀ a b, a ≠ b → lt a b ∨ lt b a) ∧
      ∀ (xs : List K) (i j : Nat) (a b : K), xs[i]? = some a → xs[j]? = some b →
        (f xs i j = true ↔ lt a b)

/-- The comparator `less`, as `sort.Slice` calls it, arranges distinct keys by `lt`: it
compares the elements at its two indices by some relation `r` that, on distinct keys,
holds only where `lt` does and fails only where the converse of `lt` holds. -/
def ArrangesBy (less : List K → Nat → Nat → Bool) (lt : K → K → Prop) : Prop :=
  (∀ a b c, lt a b → lt b c → lt a c) ∧
    ∃ r : K → K → Prop,
      (∀ (xs : List K) (i j : Nat) (a b : K), xs[i]? = some a → xs[j]? = some b →
        (less xs i j = true ↔ r a b)) ∧
      (∀ a b, a ≠ b → r a b → lt a b) ∧ (∀ a b, a ≠ b → ¬ r a b → lt b a)

/-! ### WeightedMap -/

/-- The struct `WeightedMap[K, V]`. -/
structure WeightedMap (K V : Type) extends Map K (Weighted V) where
  sorted : Bool
  sortedKeys : List K
  weightCount : Nat

/-- The constructor `NewWeighted(data)`. -/
def NewWeighted (data : Option (GoMap K (Weighted V))) : WeightedMap K V :=
  { data := data, readonly := false, sorted := false, sortedKeys := [], weightCount := 0 }

/-- The state of the goroutine of `WeightIter`. A channel variable holds a reference: the
group channels made so far are in `heap`, and a reference is an index into it. -/
structure WeightIterState (K V : Type) where
  heap : List (Chan (Item K V))
  weightChan : Chan Nat
  iter : Option Nat
  lastWeight : Int

namespace WeightedMap

variable [DecidableEq K] [Inhabited V]

/-- The method `WeightedMap.init()` on a non-nil receiver. -/
def init (m : WeightedMap K V) : WeightedMap K V :=
  match m.data with
  | some _ => m
  | none => { m with data := some GoMap.empty }

/-- The weight stored under a key: `m.data[k].Weight`. -/
def weightOf (m : WeightedMap K V) (k : K) : Nat := ((GoMap.orEmpty m.data).get k).Weight

/-- The comparator `sort` hands to `sort.Slice`: the weight at `i` exceeds the weight at `j`. -/
def weightLess (m : WeightedMap K V) (keys : List K) (i j : Nat) : Bool :=
  match keys[i]?, keys[j]? with
  | some a, some b => decide (m.weightOf a > m.weightOf b)
  | _, _ => false

/-- The method `WeightedMap.ReadOnly()`. -/
def ReadOnly (m : WeightedMap K V) : WeightedMap K V := { m with readonly := true }

/-- The method `WeightedMap.sort()`; `ro` is the order of its `range` over the map. -/
def sort (ro : RangeOrder) (m : WeightedMap K V) : WeightedMap K V :=
  if m.sorted then m
  else
    let visited := (GoMap.orEmpty m.data).range ro
    let weights := visited.foldl (fun (w : set.Set Nat) p => w.Add [p.2.Weight]) (set.New [])
    let keys := visited.map Prod.fst
    { m with
      sortedKeys := sortSlice m.weightLess keys
      weightCount := weights.Length
      sorted := true }

/-- The method `WeightedMap.Get(k)`. -/
def Get (m : WeightedMap K V) (k : K) : V := ((GoMap.orEmpty m.data).get k).Value

/-- The method `WeightedMap.GetFull(k)`. -/
def GetFull (m : WeightedMap K V) (k : K) : V × Bool :=
  match (GoMap.orEmpty m.data).get? k with
  | some weight => (weight.Value, true)
  | none => (default, false)

/-- The method `WeightedMap.Set(k, v)`. -/
def Set (m : WeightedMap K V) (k : K) (v : V) : WeightedMap K V :=
  if m.readonly then m
  else
    let m := m.init
    { m with data := some ((GoMap.orEmpty m.data).set k ⟨v, 0⟩), sorted := false }

/-- The method `WeightedMap.SetWeighted(k, v)`. -/
def SetWeighted (m : WeightedMap K V) (k : K) (v : Weighted V) : WeightedMap K V :=
  if m.readonly then m
  else
    let m := m.init
    { m with data := some ((GoMap.orEmpty m.data).set k v), sorted := false }

/-- The method `WeightedMap.Delete(k)`. -/
def Delete (m : WeightedMap K V) (k : K) : WeightedMap K V :=
  if m.readonly then m
  else { m with data := m.data.map (fun d => d.delete k), sorted := false }

/-- The method `WeightedMap.Commit(fn)`; the callback rewrites the backing map. -/
def Commit (m : WeightedMap K V) (fn : GoMap K (Weighted V) → GoMap K (Weighted V)) :
    WeightedMap K V :=
  if m.readonly then m
  else
    let m := m.init
    { m with data := some (fn (GoMap.orEmpty m.data)), sorted := false }

/-- The method `WeightedMap.Keys()`: the result and the receiver afterwards. -/
def Keys (ro : RangeOrder) (m : WeightedMap K V) : List K × WeightedMap K V :=
  let m := m.sort ro
  (m.sortedKeys, m)

/-- The method `WeightedMap.Values()`: the result and the receiver afterwards. The result
slice has `len(m.data)` places and is filled along `sortedKeys`: writing past its end
panics, and places that are not reached keep the zero value. -/
def Values (ro : RangeOrder) (m : WeightedMap K V) : Option (List V) × WeightedMap K V :=
  let m := m.sort ro
  let n := (GoMap.orEmpty m.data).len
  if m.sortedKeys.length ≤ n then
    (some (m.sortedKeys.map (fun k => m.Get k) ++
      List.replicate (n - m.sortedKeys.length) default), m)
  else (none, m)

/-- The statement `close(iter)` on a channel variable; a nil channel panics. -/
def closeRef (heap : List (Chan (Item K V))) (ref : Option Nat) :
    Except Fault (List (Chan (Item K V))) :=
  match ref with
  | none => .error .panic
  | some i =>
    match heap[i]? with
    | none => .error .panic
    | some c =>
      match c.close with
      | .error f => .error f
      | .ok c' => .ok (heap.set i c')

/-- The statement `iter <- item` on a channel variable; a nil channel blocks for ever. -/
def sendRef (heap : List (Chan (Item K V))) (ref : Option Nat) (item : Item K V) :
    Except Fault (List (Chan (Item K V))) :=
  match ref with
  | none => .error .blocked
  | some i =>
    match heap[i]? with
    | none => .error .panic
    | some c =>
      match c.send item with
      | .error f => .error f
      | .ok c' => .ok (heap.set i c')

/-- One round of the loop `for _, k := range m.sortedKeys` of the goroutine of `WeightIter`.
The conversion `int(v.Weight)` of a `uint32` keeps its value (`int` has 64 bits). -/
def weightIterStep (m : WeightedMap K V) (st : WeightIterState K V) (k : K) :
    Except Fault (WeightIterState K V) :=
  let v := (GoMap.orEmpty m.data).get k
  let opened : Except Fault (WeightIterState K V) :=
    if st.lastWeight ≠ Int.ofNat v.Weight then
      let closedPrev : Except Fault (List (Chan (Item K V))) :=
        match st.iter with
        | some i => closeRef st.heap (some i)
        | none => .ok st.heap
      match closedPrev with
      | .error f => .error f
      | .ok heap =>
        let iter := heap.length
        let heap := heap ++ [Chan.make (GoMap.orEmpty m.data).len]
        match st.weightChan.send iter with
        | .error f => .error f
        | .ok weightChan =>
          .ok { heap := heap, weightChan := weightChan, iter := some iter,
                lastWeight := Int.ofNat v.Weight }
    else .ok st
  match opened with
  | .error f => .error f
  | .ok st =>
    match sendRef st.heap st.iter ⟨k, v.Value⟩ with
    | .error f => .error f
    | .ok heap => .ok { st with heap := heap }

/-- The loop `for _, k := range m.sortedKeys` of the goroutine of `WeightIter`. -/
def weightIterLoop (m : WeightedMap K V) :
    List K → WeightIterState K V → Except Fault (WeightIterState K V)
  | [], st => .ok st
  | k :: ks, st =>
    match weightIterStep m st k with
    | .error f => .error f
    | .ok st' => weightIterLoop m ks st'

/-- The method `WeightedMap.WeightIter()` with its goroutine run to completion: the outer
channel, each group channel in the state the goroutine left it in, and the receiver
afterwards. -/
def WeightIter (ro : RangeOrder) (m : WeightedMap K V) :
    Except Fault (Chan (Chan (Item K V))) × WeightedMap K V :=
  let m := m.sort ro
  let start : WeightIterState K V :=
    { heap := [], weightChan := Chan.make m.weightCount, iter := none, lastWeight := -1 }
  let result : Except Fault (Chan (Chan (Item K V))) :=
    match weightIterLoop m m.sortedKeys start with
    | .error f => .error f
    | .ok st =>
      match closeRef st.heap st.iter with
      | .error f => .error f
      | .ok heap =>
        match st.weightChan.close with
        | .error f => .error f
        | .ok weightChan =>
          .ok { cap := weightChan.cap
                sent := weightChan.sent.map (fun i => heap.getD i (Chan.make 0))
                closed := weightChan.closed }
  (result, m)

/-- The method `WeightedMap.marshal(marsh)` on a non-nil receiver: the result of the codec
and the receiver afterwards; `ro` is the order of its `range` over the map. -/
def marshal {E B : Type} (ro : RangeOrder) (m : WeightedMap K V)
    (marsh : MarshalFunc E B (GoMap K V)) : Except (Error E) B × WeightedMap K V :=
  let m := m.init
  let rawMap : GoMap K V :=
    ((GoMap.orEmpty m.data).range ro).foldl (fun raw p => raw.set p.1 p.2.Value) GoMap.empty
  match marsh rawMap with
  | .error e => (.error (.codec e), m)
  | .ok bytes => (.ok bytes, m)

/-- The method `WeightedMap.unmarshal(unmarsh, data)` on a non-nil receiver: the error
(`none` for nil) and the receiver afterwards; the codec decodes into a nil map variable. -/
def unmarshal {E B : Type} (ro : RangeOrder) (m : WeightedMap K V)
    (unmarsh : UnmarshalFunc E B (Option (GoMap K V))) (data : B) :
    Option (Error E) × WeightedMap K V :=
  let m := m.init
  if m.readonly then (some .ErrReadOnlyMap, m)
  else
    match unmarsh data none with
    | .error e => (some (.codec e), m)
    | .ok rawMap =>
      let finalMap : GoMap K (Weighted V) :=
        ((GoMap.orEmpty rawMap).range ro).foldl
          (fun fin p =>
            let weight :=
              match (GoMap.orEmpty m.data).get? p.1 with
              | some x => x.Weight
              | none => 0
            fin.set p.1 ⟨p.2, weight⟩)
          GoMap.empty
      (none, { m with data := some finalMap })

end WeightedMap

/-! ### Calls on a `*WeightedMap` that may be nil -/

namespace WeightedMapPtr

variable [DecidableEq K] [Inhabited V]

/-- The method `WeightedMap.marshal(marsh)`: `init` reports a nil receiver. -/
def marshal {E B : Type} (ro : RangeOrder) (m : Option (WeightedMap K V))
    (marsh : MarshalFunc E B (GoMap K V)) : Except (Error E) B × Option (WeightedMap K V) :=
  match m with
  | none => (.error .ErrNilMap, none)
  | some m => ((m.marshal ro marsh).1, some (m.marshal ro marsh).2)

/-- The method `WeightedMap.unmarshal(unmarsh, data)`: `init` reports a nil receiver. -/
def unmarshal {E B : Type} (ro : RangeOrder) (m : Option (WeightedMap K V))
    (unmarsh : UnmarshalFunc E B (Option (GoMap K V))) (data : B) :
    Option (Error E) × Option (WeightedMap K V) :=
  match m with
  | none => (some .ErrNilMap, none)
  | some m => ((m.unmarshal ro unmarsh data).1, some (m.unmarshal ro unmarsh data).2)

end WeightedMapPtr

namespace WeightedMap

variable [DecidableEq K] [Inhabited V]

/-! ### Specification of the grouping of `WeightIter`

The definitions below are not taken from the code: they say what the goroutine of
`WeightIter` is compared with. -/

/-- Specification: the groups after one more key. Groups are kept latest first; a key joins
the latest group when it has the weight of that group's first key, and opens a new group
otherwise. -/
def specGroupStep (m : WeightedMap K V) : List (List K) → K → List (List K)
  | [], k => [[k]]
  | [] :: rest, k => [k] :: rest
  | (a :: g) :: rest, k =>
    if m.weightOf a = m.weightOf k then ((a :: g) ++ [k]) :: rest else [k] :: (a :: g) :: rest

/-- Specification: the groups of a key sequence, latest first. -/
def specGroupsRev (m : WeightedMap K V) (keys : List K) : List (List K) :=
  keys.foldl m.specGroupStep []

/-- Specification: the channel of a group of keys, holding the pair of each key and its
plain value. -/
def groupChan (m : WeightedMap K V) (closed : Bool) (g : List K) : Chan (Item K V) :=
  { cap := (GoMap.orEmpty m.data).len
    sent := g.map (fun k => ⟨k, m.Get k⟩)
    closed := closed }

/-- Specification: the state of the goroutine once it has formed the groups `rgs` (latest
first): all groups but the latest are closed, `iter` refers to the latest. -/
def stateOfGroups (m : WeightedMap K V) (cap : Nat) : List (List K) → WeightIterState K V
  | [] => { heap := [], weightChan := Chan.make cap, iter := none, lastWeight := -1 }
  | g :: rest =>
    { heap := rest.reverse.map (m.groupChan true) ++ [m.groupChan false g]
      weightChan := { cap := cap, sent := List.range (rest.length + 1), closed := false }
      iter := some rest.length
      lastWeight := Int.ofNat (match g with
        | a :: _ => m.weightOf a
        | [] => 0) }

end WeightedMap

end maps

/-! # Theorems -/

set_option linter.unusedSectionVars false

/-! ## The bounded buffer `slice.Rigid` -/

namespace slice

variable {T : Type}

theorem toS_of_lt {bits n : Nat} (h : n < 2 ^ bits) : toS bits n = n :=
  Nat.mod_eq_of_lt h

theorem subS_of_le {bits a b : Nat} (hba : b ≤ a) (ha : a < 2 ^ bits) :
    subS bits a b = a - b := by
  unfold subS
  have hb : b % 2 ^ bits = b := Nat.mod_eq_of_lt (by omega)
  rw [hb]
  have h2 : a + 2 ^ bits - b = (a - b) + 2 ^ bits := by omega
  rw [h2, Nat.add_mod_right, Nat.mod_eq_of_lt (by omega)]

/-- `Add` when the new length is representable in the size type: the length comparison is
exact, and the excess over the capacity is cut off the front. -/
theorem Rigid.Add_eq_of_fits (r : Rigid T) (x : List T)
    (hS : r.data.length + x.length < 2 ^ r.bits) :
    r.Add x =
      if r.size < r.data.length + x.length then
        some ((r.data ++ x).take (r.data.length + x.length - r.size),
          { r with data := (r.data ++ x).drop (r.data.length + x.length - r.size) })
      else some ([], { r with data := r.data ++ x }) := by
  unfold Rigid.Add
  simp only [List.length_append, toS_of_lt hS, gt_iff_lt]
  split
  · rename_i h
    rw [subS_of_le (Nat.le_of_lt h) hS]
    simp [sliceTo, sliceFrom]
  · rfl

theorem Rigid.Add_spec (r : Rigid T) (x : List T)
    (hS : r.data.length + x.length < 2 ^ r.bits) :
    ∃ e r', r.Add x = some (e, r') ∧ e ++ r'.data = r.data ++ x ∧
      r'.data.length = min r.size (r.data.length + x.length) ∧
      (e = [] ↔ r.data.length + x.length ≤ r.size) ∧
      r'.size = r.size ∧ r'.bits = r.bits := by
  rw [Rigid.Add_eq_of_fits r x hS]
  split
  · rename_i h
    refine ⟨_, _, rfl, List.take_append_drop _ _, ?_, ?_, rfl, rfl⟩
    · simp only [List.length_drop, List.length_append]; omega
    · simp only [List.take_eq_nil_iff, List.append_eq_nil]
      constructor
      · rintro (h0 | ⟨h1, h2⟩)
        · omega
        · simp [h1, h2] at h
      · intro h'; omega
  · rename_i h
    refine ⟨_, _, rfl, by simp, ?_, ?_, rfl, rfl⟩
    · simp only [List.length_append]; omega
    · simp; omega

/-- One `Add` call per value, on a buffer whose capacity is below the largest value of the
size type: nothing is lost, and the buffer keeps the newest values up to its capacity. -/
theorem Rigid.addEach_spec (vs : List T) :
    ∀ (r : Rigid T), r.data.length ≤ r.size → r.size + 1 < 2 ^ r.bits →
      ∃ e r', r.addEach vs = some (e, r') ∧ e ++ r'.data = r.data ++ vs ∧
        r'.data.length = min r.size (r.data.length + vs.length) ∧
        r'.size = r.size ∧ r'.bits = r.bits := by
  induction vs with
  | nil =>
    intro r hd _
    exact ⟨[], r, rfl, by simp, by simp; omega, rfl, rfl⟩
  | cons v vs ih =>
    intro r hd hS
    obtain ⟨e, r1, h1, h2, h3, _, h5, h6⟩ := Rigid.Add_spec r [v] (by simp; omega)
    have hd1 : r1.data.length ≤ r1.size := by rw [h3, h5]; exact Nat.min_le_left _ _
    obtain ⟨es, r2, g1, g2, g3, g4, g5⟩ := ih r1 hd1 (by rw [h5, h6]; exact hS)
    refine ⟨e ++ es, r2, ?_, ?_, ?_, by rw [g4, h5], by rw [g5, h6]⟩
    · simp [Rigid.addEach, h1, g1]
    · rw [List.append_assoc, g2, ← List.append_assoc, h2]; simp
    · rw [g3, h3, h5]
      have hv : [v].length = 1 := rfl
      rw [hv, List.length_cons]
      omega

/-- On a fresh buffer of a capacity `N` below the largest value of the size type, one `Add`
call per value of `v` returns, together, all of `v` but its last `N` values, and these last
`N` values are what `GetAll` then returns. -/
theorem Rigid.addEach_fresh (bits N : Nat) (v : List T) (hN : 1 ≤ N) (hS : N + 1 < 2 ^ bits) :
    ∃ r', (NewRigid bits N : Rigid T).addEach v = some (v.take (v.length - N), r') ∧
      r'.GetAll = v.drop (v.length - N) := by
  have hsize : (NewRigid bits N : Rigid T).size = N := by
    unfold NewRigid
    simp only
    rw [if_neg (by omega)]
  obtain ⟨e, r', h1, h2, h3, _, _⟩ := Rigid.addEach_spec v (NewRigid bits N : Rigid T)
    (by simp [NewRigid]) (by rw [hsize]; exact hS)
  have hdata : (NewRigid bits N : Rigid T).data = [] := rfl
  rw [hdata, List.nil_append] at h2
  rw [hdata, hsize, List.length_nil, Nat.zero_add] at h3
  have hlen : e.length = (v.take (v.length - N)).length := by
    have := congrArg List.length h2
    simp only [List.length_append] at this
    simp only [List.length_take]
    omega
  have hsplit := List.append_inj (h2.trans (List.take_append_drop (v.length - N) v).symm) hlen
  refine ⟨r', ?_, hsplit.2⟩
  rw [h1, hsplit.1]

/-- `GetLast` on a buffer that holds at least as many elements as are asked for. -/
theorem Rigid.GetLast_of_enough (r : Rigid T) (amount : Nat)
    (hlen : r.data.length < 2 ^ r.bits) (h : min amount r.size ≤ r.data.length) :
    r.GetLast amount = some (r.data.drop (r.data.length - min amount r.size)) := by
  unfold Rigid.GetLast
  have hmin : (if amount > r.size then r.size else amount) = min amount r.size := by
    split <;> omega
  simp only [hmin, toS_of_lt hlen]
  rw [subS_of_le h hlen]
  simp [sliceFrom]

/-- `GetLast` on a buffer that holds fewer elements than are asked for (after the request is
capped at the capacity): the subtraction in the size type wraps around and the slice
expression panics. -/
theorem Rigid.GetLast_of_short (r : Rigid T) (amount : Nat)
    (hlen : r.data.length < 2 ^ r.bits) (hsize : r.size < 2 ^ r.bits)
    (h : r.data.length < min amount r.size) :
    r.GetLast amount = none := by
  unfold Rigid.GetLast
  have hmin : (if amount > r.size then r.size else amount) = min amount r.size := by
    split <;> omega
  simp only [hmin, toS_of_lt hlen]
  have hm : min amount r.size % 2 ^ r.bits = min amount r.size :=
    Nat.mod_eq_of_lt (by omega)
  have hsub : subS r.bits r.data.length (min amount r.size) =
      r.data.length + 2 ^ r.bits - min amount r.size := by
    unfold subS
    rw [hm]
    exact Nat.mod_eq_of_lt (by omega)
  rw [hsub]
  unfold sliceFrom
  rw [if_neg (by omega)]

end slice

/-- C1: `slice.Rigid.Add` conserves elements and evicts oldest-first. For a buffer of capacity
`r.size` at least 1 that holds `r.data` (at most `r.size` elements) and items `x` such
that the new length is representable in the size type, `Add(x)` returns some `e` and leaves
contents `d'` with `e ++ d' = r.data ++ x`, `len d' = min(capacity, len r.data + len x)`,
and `e` is empty exactly when `len r.data + len x` does not exceed the capacity. -/
theorem Rigid_Add_conserves {T : Type} (r : slice.Rigid T) (x : List T) (hN : 1 ≤ r.size)
    (hd : r.data.length ≤ r.size) (hS : r.data.length + x.length < 2 ^ r.bits) :
    ∃ e r', r.Add x = some (e, r') ∧ e ++ r'.GetAll = r.GetAll ++ x ∧
      r'.GetAll.length = min r.size (r.GetAll.length + x.length) ∧
      (e = [] ↔ r.GetAll.length + x.length ≤ r.size) ∧
      r'.size = r.size ∧ r'.bits = r.bits := by
  have _ := hN
  have _ := hd
  exact slice.Rigid.Add_spec r x hS

/-- Witness of C1: a buffer of capacity 3 with a 64-bit size type that holds `a, b`, and the
items `c, d`. -/
theorem Rigid_Add_conserves_witness :
    ∃ e r', (slice.Rigid.mk 64 ["a", "b"] 3).Add ["c", "d"] = some (e, r') ∧
      e ++ r'.GetAll = (slice.Rigid.mk 64 ["a", "b"] 3).GetAll ++ ["c", "d"] ∧
      r'.GetAll.length = min 3 ((slice.Rigid.mk 64 ["a", "b"] 3).GetAll.length + 2) ∧
      (e = [] ↔ (slice.Rigid.mk 64 ["a", "b"] 3).GetAll.length + 2 ≤ 3) ∧
      r'.size = 3 ∧ r'.bits = 64 :=
  Rigid_Add_conserves (slice.Rigid.mk 64 ["a", "b"] 3) ["c", "d"] (by decide) (by decide)
    (by decide)

/-- C2 (fails on the code): with the size type `uint8` and capacity 255, 256 calls of `Add`,
one per value of `0, 1, ..., 255`, evict nothing and leave all 256 values in the buffer,
where the claim has `GetAll()` return the last 255 values and the calls return the
value `0`: the length 256 converted to `uint8` is 0, which does not exceed the capacity. -/
theorem Rigid_addEach_uint8_keeps_256 :
    ((slice.NewRigid 8 255 : slice.Rigid Nat).addEach (List.range 256)).map
      (fun p => (p.1, p.2.GetAll)) = some ([], List.range 256) := by
  set_option maxRecDepth 100000 in decide

/-- C4 (fails on the code): `GetLast` panics on a buffer that holds fewer elements than the
capped request: on a fresh buffer of capacity 3 (64-bit size type) `GetLast(1)` panics, and
so does `GetLast(2)` once one element has been added. -/
theorem Rigid_GetLast_panics_when_short :
    (slice.NewRigid 64 3 : slice.Rigid String).GetLast 1 = none ∧
      ((slice.NewRigid 64 3 : slice.Rigid String).Add ["a"]).map
        (fun p => (p.2.GetAll, p.2.GetLast 2, p.2.GetLast 1)) =
        some (["a"], none, some ["a"]) := by
  decide

/-! ## Go maps -/

namespace GoMap

variable {K V : Type} [DecidableEq K]

theorem lookupEntry_setEntry (k : K) (v : V) (l : List (K × V)) (a : K) :
    lookupEntry a (setEntry k v l) = if a = k then some v else lookupEntry a l := by
  induction l with
  | nil =>
    simp only [setEntry, lookupEntry]
    by_cases h : a = k
    · simp [h]
    · simp [h, Ne.symm h]
  | cons p rest ih =>
    unfold setEntry
    by_cases hp : p.1 = k
    · rw [if_pos hp]
      by_cases h : a = k
      · simp [lookupEntry, h]
      · have hpa : ¬ p.1 = a := fun e => h (e ▸ hp)
        simp [lookupEntry, h, Ne.symm h, hpa]
    · rw [if_neg hp]
      by_cases hpa : p.1 = a
      · have h : ¬ a = k := fun e => hp (hpa.trans e)
        simp [lookupEntry, hpa, h]
      · simp only [lookupEntry, if_neg hpa]
        exact ih

theorem lookupEntry_deleteEntry (k : K) (l : List (K × V)) (a : K) :
    lookupEntry a (deleteEntry k l) = if a = k then none else lookupEntry a l := by
  induction l with
  | nil => simp [deleteEntry, lookupEntry]
  | cons p rest ih =>
    unfold deleteEntry at ih ⊢
    by_cases hp : p.1 = k
    · have hd : decide (p.1 ≠ k) = false := by simp [hp]
      rw [List.filter_cons_of_neg (by simp [hp]), ih]
      by_cases h : a = k
      · simp [h]
      · have hpa : ¬ p.1 = a := fun e => h (e ▸ hp)
        simp [lookupEntry, h, hpa]
    · rw [List.filter_cons_of_pos (by simp [hp])]
      by_cases hpa : p.1 = a
      · have h : ¬ a = k := fun e => hp (hpa.trans e)
        simp [lookupEntry, hpa, h]
      · simp only [lookupEntry, if_neg hpa]
        exact ih

theorem lookupEntry_isSome (l : List (K × V)) (a : K) :
    (lookupEntry a l).isSome = true ↔ a ∈ l.map Prod.fst := by
  induction l with
  | nil => simp [lookupEntry]
  | cons p rest ih =>
    by_cases hpa : p.1 = a
    · simp [lookupEntry, hpa]
    · simp only [lookupEntry, if_neg hpa, List.map_cons, List.mem_cons, ih]
      constructor
      · exact fun h => Or.inr h
      · rintro (h | h)
        · exact absurd h.symm hpa
        · exact h

theorem lookupEntry_eq_none (l : List (K × V)) (a : K) :
    lookupEntry a l = none ↔ a ∉ l.map Prod.fst := by
  rw [← lookupEntry_isSome]
  cases lookupEntry a l <;> simp

theorem lookupEntry_eq_some (l : List (K × V)) (hnd : (l.map Prod.fst).Nodup) (a : K) (v : V) :
    lookupEntry a l = some v ↔ (a, v) ∈ l := by
  induction l with
  | nil => simp [lookupEntry]
  | cons p rest ih =>
    rw [List.map_cons, List.nodup_cons] at hnd
    by_cases hpa : p.1 = a
    · simp only [lookupEntry, if_pos hpa, Option.some.injEq, List.mem_cons]
      constructor
      · intro h
        left
        rw [← hpa, ← h]
      · rintro (h | h)
        · rw [← h]
        · exfalso
          apply hnd.1
          rw [hpa]
          exact List.mem_map.mpr ⟨(a, v), h, rfl⟩
    · simp only [lookupEntry, if_neg hpa, List.mem_cons, ih hnd.2]
      constructor
      · exact fun h => Or.inr h
      · rintro (h | h)
        · exact absurd (by rw [← h]) hpa
        · exact h

/-- Two association lists with the same entries, in any order, answer lookups alike. -/
theorem lookupEntry_perm {l₁ l₂ : List (K × V)} (h : l₁.Perm l₂)
    (hnd : (l₁.map Prod.fst).Nodup) (a : K) : lookupEntry a l₁ = lookupEntry a l₂ := by
  have hnd₂ : (l₂.map Prod.fst).Nodup := (List.Perm.nodup_iff (h.map _)).mp hnd
  cases h₁ : lookupEntry a l₁ with
  | none =>
    symm
    rw [lookupEntry_eq_none] at h₁ ⊢
    exact fun hm => h₁ ((h.map _).mem_iff.mpr hm)
  | some v =>
    symm
    rw [lookupEntry_eq_some _ hnd] at h₁
    rw [lookupEntry_eq_some _ hnd₂]
    exact h.mem_iff.mp h₁

theorem get?_set (m : GoMap K V) (k : K) (v : V) (a : K) :
    (m.set k v).get? a = if a = k then some v else m.get? a :=
  lookupEntry_setEntry k v m.entries a

theorem get?_delete (m : GoMap K V) (k a : K) :
    (m.delete k).get? a = if a = k then none else m.get? a :=
  lookupEntry_deleteEntry k m.entries a

theorem get?_empty (a : K) : (empty : GoMap K V).get? a = none := rfl

theorem mem_keys (m : GoMap K V) (a : K) : a ∈ m.keys ↔ (m.get? a).isSome = true :=
  (lookupEntry_isSome m.entries a).symm

theorem nodup_keys (m : GoMap K V) : m.keys.Nodup := m.nodup

theorem range_perm (ro : RangeOrder) (m : GoMap K V) : (m.range ro).Perm m.entries :=
  ro.isPerm m.entries

theorem range_keys_perm (ro : RangeOrder) (m : GoMap K V) :
    ((m.range ro).map Prod.fst).Perm m.keys :=
  (range_perm ro m).map _

theorem range_keys_nodup (ro : RangeOrder) (m : GoMap K V) :
    ((m.range ro).map Prod.fst).Nodup :=
  (List.Perm.nodup_iff (range_keys_perm ro m)).mpr m.nodup

theorem lookupEntry_range (ro : RangeOrder) (m : GoMap K V) (a : K) :
    lookupEntry a (m.range ro) = m.get? a :=
  lookupEntry_perm (range_perm ro m) (range_keys_nodup ro m) a

theorem get?_foldl_delete (values : List K) (m : GoMap K V) (a : K) :
    (values.foldl (fun d value => d.delete value) m).get? a =
      if a ∈ values then none else m.get? a := by
  induction values generalizing m with
  | nil => simp
  | cons x xs ih =>
    rw [List.foldl_cons, ih, get?_delete]
    by_cases h1 : a ∈ xs
    · simp [h1]
    · by_cases h2 : a = x
      · simp [h2]
      · simp [h1, h2]

theorem get?_foldl_set (values : List K) (f : K → V) (m : GoMap K V) (a : K) :
    (values.foldl (fun d value => d.set value (f value)) m).get? a =
      if a ∈ values then some (f a) else m.get? a := by
  induction values generalizing m with
  | nil => simp
  | cons x xs ih =>
    rw [List.foldl_cons, ih, get?_set]
    by_cases h1 : a ∈ xs
    · simp [h1]
    · by_cases h2 : a = x
      · simp [h2]
      · simp [h1, h2]

theorem orEmpty_get?_none (a : K) : (orEmpty (none : Option (GoMap K V))).get? a = none := rfl

end GoMap

/-! ## The buffer `set.Rigid` -/

namespace set

variable {T : Type} [DecidableEq T]

theorem New_nil_Contains (v : T) : (New ([] : List T)).Contains v = false := rfl

theorem Set.Remove_Contains (s : Set T) (values : List T) (v : T) :
    (s.Remove values).Contains v = (decide (v ∉ values) && s.Contains v) := by
  have hinit : GoMap.orEmpty s.init.data = GoMap.orEmpty s.data := by
    cases s with
    | mk d l => cases d <;> rfl
  simp only [Set.Remove, Set.Contains, GoMap.orEmpty, GoMap.get?_foldl_delete]
  have h' := hinit
  simp only [GoMap.orEmpty] at h'
  by_cases hv : v ∈ values
  · simp [hv]
  · simp only [hv, if_false, not_false_eq_true, decide_True, Bool.true_and]
    rw [h']

/-- While the companion set has no member, `set.Rigid.Add` filters nothing out: it is the
`Add` of the embedded buffer on all of `x`, and the companion set still has no member
afterwards. The code never adds a value to the companion set. -/
theorem Rigid.Add_of_no_member (r : Rigid T) (x : List T)
    (h : ∀ v, r.set.Contains v = false) :
    r.Add x = (r.toRigid.Add x).map (fun p => { toRigid := p.2, set := r.set.Remove p.1 }) ∧
      ∀ r', r.Add x = some r' → ∀ v, r'.set.Contains v = false := by
  have hfilter : x.filter (fun v => !r.set.Contains v) = x := by
    rw [List.filter_eq_self]
    intro a _
    simp [h a]
  have hAdd : r.Add x =
      (r.toRigid.Add x).map (fun p => { toRigid := p.2, set := r.set.Remove p.1 }) := by
    unfold Rigid.Add
    simp only [hfilter]
    cases r.toRigid.Add x with
    | none => rfl
    | some p => rfl
  refine ⟨hAdd, ?_⟩
  intro r' hr' v
  rw [hAdd] at hr'
  cases hp : r.toRigid.Add x with
  | none => rw [hp] at hr'; simp at hr'
  | some p =>
    rw [hp] at hr'
    simp only [Option.map_some', Option.some.injEq] at hr'
    rw [← hr']
    simp [Set.Remove_Contains, h v]

/-- Along any sequence of `Add` calls on a fresh `set.Rigid` the companion set never has a
member, so no call ever filters a value out. -/
theorem Rigid.addCalls_no_member (calls : List (List T)) :
    ∀ (r r' : Rigid T), (∀ v, r.set.Contains v = false) → r.addCalls calls = some r' →
      ∀ v, r'.set.Contains v = false := by
  induction calls with
  | nil =>
    intro r r' h hr v
    simp only [Rigid.addCalls, Option.some.injEq] at hr
    rw [← hr]; exact h v
  | cons x xs ih =>
    intro r r' h hr v
    unfold Rigid.addCalls at hr
    cases h1 : r.Add x with
    | none => rw [h1] at hr; simp at hr
    | some r1 =>
      rw [h1] at hr
      exact ih r1 r' ((Rigid.Add_of_no_member r x h).2 r1 h1) hr v

end set

/-- C3 (fails on the code): the Set-backed buffer holds a value twice. On a fresh buffer of
capacity 3 (64-bit size type), `Add("a")` followed by `Add("a")` leaves `GetAll()` equal to
`["a", "a"]`, and so does the single call `Add("a", "a")`; in both runs the companion set
does not contain `"a"` afterwards. -/
theorem set_Rigid_holds_value_twice :
    ((set.NewRigid 64 3 : set.Rigid String).addCalls [["a"], ["a"]]).map
        (fun r => (r.GetAll, r.set.Contains "a")) = some (["a", "a"], false) ∧
      ((set.NewRigid 64 3 : set.Rigid String).Add ["a", "a"]).map
        (fun r => (r.GetAll, r.set.Contains "a")) = some (["a", "a"], false) := by
  decide

/-! ## The insertion sort behind `sort.Slice` -/

section SortSlice

variable {α : Type}

theorem getElem?_append_two (A : List α) (y x : α) (C : List α) :
    (A ++ y :: x :: C)[A.length]? = some y ∧ (A ++ y :: x :: C)[A.length + 1]? = some x := by
  constructor
  · rw [List.getElem?_append_right (Nat.le_refl _)]
    simp
  · rw [List.getElem?_append_right (by omega)]
    simp

theorem swapAt_append_two (A : List α) (y x : α) (C : List α) :
    swapAt (A ++ y :: x :: C) (A.length + 1) A.length = A ++ x :: y :: C := by
  unfold swapAt
  rw [(getElem?_append_two A y x C).1, (getElem?_append_two A y x C).2]
  simp only
  rw [List.set_append_right _ _ (by omega), List.set_append_right _ _ (by simp)]
  simp

/-- What one run of the inner loop does to a slice whose first `j` places are sorted:
the element at place `j` moves down to its place, nothing after it is touched. -/
theorem insertionInner_spec (less : List α → Nat → Nat → Bool) (r : α → α → Prop)
    (s : α → α → Prop)
    (hless : ∀ xs i j a b, xs[i]? = some a → xs[j]? = some b → (less xs i j = true ↔ r a b))
    (hlt : ∀ a b, a ≠ b → r a b → s a b)
    (hge : ∀ a b, a ≠ b → ¬ r a b → s b a)
    (htrans : ∀ a b c, s a b → s b c → s a c) :
    ∀ (j : Nat) (A : List α) (x : α) (B C : List α), A.length = j →
      A.Pairwise s → B.Pairwise s → (∀ a ∈ A, ∀ b ∈ B, s a b) → (∀ b ∈ B, s x b) →
      (A ++ x :: (B ++ C)).Nodup →
      ∃ P, insertionInner less j (A ++ x :: (B ++ C)) = P ++ C ∧ P.Pairwise s ∧
        P.Perm (A ++ x :: B) := by
  intro j
  induction j with
  | zero =>
    intro A x B C hA _ hB _ hxB _
    have hA0 : A = [] := List.length_eq_zero.mp hA
    subst hA0
    refine ⟨x :: B, by simp [insertionInner], ?_, List.Perm.refl _⟩
    exact List.pairwise_cons.mpr ⟨hxB, hB⟩
  | succ j ih =>
    intro A x B C hA hAs hBs hAB hxB hnd
    rcases List.eq_nil_or_concat A with hA0 | ⟨A', y, hAy⟩
    · subst hA0; simp at hA
    rw [List.concat_eq_append] at hAy
    subst hAy
    have hlen : A'.length = j := by simpa using hA
    have hform : A' ++ [y] ++ x :: (B ++ C) = A' ++ y :: x :: (B ++ C) := by simp
    have hxy : x ≠ y := by
      intro h
      rw [hform, List.nodup_append] at hnd
      have := hnd.2.1
      rw [List.nodup_cons] at this
      exact this.1 (by simp [h])
    rw [hform]
    unfold insertionInner
    have hl : less (A' ++ y :: x :: (B ++ C)) (j + 1) j = true ↔ r x y := by
      apply hless
      · rw [← hlen]; exact (getElem?_append_two A' y x (B ++ C)).2
      · rw [← hlen]; exact (getElem?_append_two A' y x (B ++ C)).1
    have hAs' : A'.Pairwise s ∧ ∀ a ∈ A', s a y := by
      rw [List.pairwise_append] at hAs
      exact ⟨hAs.1, fun a ha => hAs.2.2 a ha y (by simp)⟩
    by_cases hr : less (A' ++ y :: x :: (B ++ C)) (j + 1) j = true
    · rw [if_pos hr]
      have hsw := swapAt_append_two A' y x (B ++ C)
      rw [hlen] at hsw
      rw [hsw]
      have hnd' : (A' ++ x :: (y :: B ++ C)).Nodup := by
        rw [hform] at hnd
        refine (List.Perm.nodup_iff ?_).mp hnd
        exact List.Perm.append_left A' (List.Perm.swap x y (B ++ C))
      obtain ⟨P, hP, hPs, hPp⟩ := ih A' x (y :: B) C hlen hAs'.1
        (List.pairwise_cons.mpr ⟨fun b hb => hAB y (by simp) b hb, hBs⟩)
        (fun a ha b hb => by
          rcases List.mem_cons.mp hb with hb | hb
          · subst hb; exact hAs'.2 a ha
          · exact hAB a (by simp [ha]) b hb)
        (fun b hb => by
          rcases List.mem_cons.mp hb with hb | hb
          · subst hb; exact hlt x b hxy (hl.mp hr)
          · exact hxB b hb)
        hnd'
      refine ⟨P, by simpa using hP, hPs, hPp.trans ?_⟩
      simp only [List.append_assoc, List.singleton_append]
      exact List.Perm.append_left A' (List.Perm.swap y x B)
    · rw [if_neg hr]
      have hyx : s y x := hge x y hxy (fun h => hr (hl.mpr h))
      refine ⟨A' ++ [y] ++ x :: B, by simp, ?_, List.Perm.refl _⟩
      rw [List.pairwise_append]
      refine ⟨hAs, List.pairwise_cons.mpr ⟨hxB, hBs⟩, ?_⟩
      intro a ha b hb
      rcases List.mem_cons.mp hb with hb | hb
      · subst hb
        rcases List.mem_append.mp ha with ha | ha
        · exact htrans a y b (hAs'.2 a ha) hyx
        · have : a = y := by simpa using ha
          subst this; exact hyx
      · exact hAB a ha b hb

/-- The outer loop sorts the slice and keeps its elements, once the first `i` places are
sorted. -/
theorem insertionOuter_spec (less : List α → Nat → Nat → Bool) (r : α → α → Prop)
    (s : α → α → Prop)
    (hless : ∀ xs i j a b, xs[i]? = some a → xs[j]? = some b → (less xs i j = true ↔ r a b))
    (hlt : ∀ a b, a ≠ b → r a b → s a b)
    (hge : ∀ a b, a ≠ b → ¬ r a b → s b a)
    (htrans : ∀ a b c, s a b → s b c → s a c) :
    ∀ (n i : Nat) (P C : List α), P.length = i → C.length = n → P.Pairwise s →
      (P ++ C).Nodup →
      (insertionOuter less n i (P ++ C)).Pairwise s ∧
        (insertionOuter less n i (P ++ C)).Perm (P ++ C) := by
  intro n
  induction n with
  | zero =>
    intro i P C _ hC hPs _
    have hC0 : C = [] := List.length_eq_zero.mp hC
    subst hC0
    simpa [insertionOuter] using hPs
  | succ n ih =>
    intro i P C hP hC hPs hnd
    obtain ⟨x, C', hCx⟩ := List.exists_cons_of_length_eq_add_one hC
    subst hCx
    have hCl : C'.length = n := by simpa using hC
    obtain ⟨P', hP', hPs', hPp'⟩ := insertionInner_spec less r s hless hlt hge htrans
      i P x [] C' hP hPs List.Pairwise.nil (fun _ _ b hb => by simp at hb)
      (fun b hb => by simp at hb) (by simpa using hnd)
    have hP'' : insertionInner less i (P ++ x :: C') = P' ++ C' := by simpa using hP'
    have hperm : (P' ++ C').Perm (P ++ x :: C') := by
      have h1 : (P' ++ C').Perm ((P ++ [x]) ++ C') := List.Perm.append_right C' hPp'
      simpa using h1
    have hlen' : P'.length = i + 1 := by
      rw [hPp'.length_eq]; simp [hP]
    obtain ⟨h1, h2⟩ := ih (i + 1) P' C' hlen' hCl hPs' ((List.Perm.nodup_iff hperm).mpr hnd)
    unfold insertionOuter
    rw [hP'']
    exact ⟨h1, h2.trans hperm⟩

/-- Correctness of the model of `sort.Slice` on a slice without repeated elements, for a
comparator that compares the elements at the two indices by `r`: the result is a
rearrangement of the slice in which every earlier element stands in `s` to every later one. -/
theorem sortSlice_spec (less : List α → Nat → Nat → Bool) (r : α → α → Prop)
    (s : α → α → Prop)
    (hless : ∀ xs i j a b, xs[i]? = some a → xs[j]? = some b → (less xs i j = true ↔ r a b))
    (hlt : ∀ a b, a ≠ b → r a b → s a b)
    (hge : ∀ a b, a ≠ b → ¬ r a b → s b a)
    (htrans : ∀ a b c, s a b → s b c → s a c)
    (xs : List α) (hnd : xs.Nodup) :
    (sortSlice less xs).Pairwise s ∧ (sortSlice less xs).Perm xs := by
  unfold sortSlice
  cases xs with
  | nil => simp [insertionOuter]
  | cons x rest =>
    have h := insertionOuter_spec less r s hless hlt hge htrans rest.length 1 [x] rest
      rfl rfl (List.pairwise_singleton s x) (by simpa using hnd)
    simpa using h

end SortSlice

/-! ## OrderedMap: the lazy sort cache -/

namespace maps

variable {K V : Type} [LinearOrder K]

theorem sortSlice_of_arranges (less : List K → Nat → Nat → Bool) (lt : K → K → Prop)
    (h : ArrangesBy less lt) (xs : List K) (hnd : xs.Nodup) :
    (sortSlice less xs).Pairwise lt ∧ (sortSlice less xs).Perm xs := by
  obtain ⟨htrans, r, hless, hlt, hge⟩ := h
  exact sortSlice_spec less r lt hless hlt hge htrans xs hnd

theorem defaultLess_iff (xs : List K) (i j : Nat) (a b : K) (ha : xs[i]? = some a)
    (hb : xs[j]? = some b) : defaultLess xs i j = true ↔ a ≤ b := by
  unfold defaultLess
  rw [ha, hb]
  simp

/-- The comparator in force arranges the keys by `lt` when `NewOrdered` was given a
comparator that orders the keys by `lt`. -/
theorem arranges_of_comparesBy (lessFunc : Option (List K → Nat → Nat → Bool))
    (lt : K → K → Prop) (h : ComparesBy lessFunc lt) :
    ArrangesBy (NewOrdered (V := V) none lessFunc).less lt := by
  cases lessFunc with
  | none =>
    have h' : ∀ a b, lt a b ↔ a < b := h
    refine ⟨fun a b c hab hbc => (h' a c).mpr (lt_trans ((h' a b).mp hab) ((h' b c).mp hbc)),
      fun a b => a ≤ b, ?_, ?_, ?_⟩
    · intro xs i j a b ha hb
      exact defaultLess_iff xs i j a b ha hb
    · intro a b hab hle
      exact (h' a b).mpr (lt_of_le_of_ne hle hab)
    · intro a b _ hle
      exact (h' b a).mpr (not_le.mp hle)
  | some f =>
    obtain ⟨_, htrans, htot, hf⟩ := h
    refine ⟨htrans, lt, hf, fun _ _ _ h => h, ?_⟩
    intro a b hab hn
    rcases htot a b hab with h1 | h1
    · exact absurd h1 hn
    · exact h1

namespace OrderedMap

theorem less_init (m : OrderedMap K V) : m.init.less = m.less := by
  obtain ⟨⟨d, ro, lk, hb⟩, lf, s, sk⟩ := m
  cases d <;> cases lf <;> rfl

theorem data_init (m : OrderedMap K V) : GoMap.orEmpty m.init.data = GoMap.orEmpty m.data := by
  obtain ⟨⟨d, ro, lk, hb⟩, lf, s, sk⟩ := m
  cases d <;> cases lf <;> rfl

theorem sorted_init (m : OrderedMap K V) : m.init.sorted = m.sorted := by
  obtain ⟨⟨d, ro, lk, hb⟩, lf, s, sk⟩ := m
  cases d <;> cases lf <;> rfl

theorem sortedKeys_init (m : OrderedMap K V) : m.init.sortedKeys = m.sortedKeys := by
  obtain ⟨⟨d, ro, lk, hb⟩, lf, s, sk⟩ := m
  cases d <;> cases lf <;> rfl

theorem readonly_init (m : OrderedMap K V) : m.init.readonly = m.readonly := by
  obtain ⟨⟨d, ro, lk, hb⟩, lf, s, sk⟩ := m
  cases d <;> cases lf <;> rfl

theorem less_NewOrdered (d d' : Option (GoMap K V)) (lf : Option (List K → Nat → Nat → Bool)) :
    (NewOrdered d lf).less = (NewOrdered d' lf).less := rfl

/-- A read with the flag set does not rebuild the cache: `sort` leaves the map as it is. -/
theorem sort_of_sorted (ro : RangeOrder) (m : OrderedMap K V) (h : m.sorted = true) :
    m.sort ro = m := by
  unfold sort
  rw [if_pos h]

/-- A read with the flag cleared rebuilds the cache from the keys of the backing map. -/
theorem sort_of_dirty (ro : RangeOrder) (m : OrderedMap K V) (h : m.sorted = false) :
    (m.sort ro).sorted = true ∧
      (m.sort ro).sortedKeys =
        sortSlice m.less (((GoMap.orEmpty m.data).range ro).map Prod.fst) ∧
      GoMap.orEmpty (m.sort ro).data = GoMap.orEmpty m.data ∧
      (m.sort ro).less = m.less ∧ (m.sort ro).readonly = m.readonly := by
  unfold sort
  rw [if_neg (by simp [h])]
  refine ⟨rfl, ?_, data_init m, less_init m, readonly_init m⟩
  simp only [less_init, data_init]

theorem sort_less (ro : RangeOrder) (m : OrderedMap K V) : (m.sort ro).less = m.less := by
  cases h : m.sorted
  · exact (sort_of_dirty ro m h).2.2.2.1
  · rw [sort_of_sorted ro m h]

theorem sort_data (ro : RangeOrder) (m : OrderedMap K V) :
    GoMap.orEmpty (m.sort ro).data = GoMap.orEmpty m.data := by
  cases h : m.sorted
  · exact (sort_of_dirty ro m h).2.2.1
  · rw [sort_of_sorted ro m h]

theorem sort_readonly (ro : RangeOrder) (m : OrderedMap K V) :
    (m.sort ro).readonly = m.readonly := by
  cases h : m.sorted
  · exact (sort_of_dirty ro m h).2.2.2.2
  · rw [sort_of_sorted ro m h]

theorem sort_sorted (ro : RangeOrder) (m : OrderedMap K V) : (m.sort ro).sorted = true := by
  cases h : m.sorted
  · exact (sort_of_dirty ro m h).1
  · rw [sort_of_sorted ro m h]; exact h

/-- The cache is coherent for `lt`: when the flag is set, the cached keys are the keys of the
backing map, arranged by `lt`. -/
theorem sort_coherent (ro : RangeOrder) (m : OrderedMap K V) (lt : K → K → Prop)
    (hless : ArrangesBy m.less lt)
    (hm : m.sorted = true →
      m.sortedKeys.Pairwise lt ∧ m.sortedKeys.Perm (GoMap.orEmpty m.data).keys) :
    (m.sort ro).sortedKeys.Pairwise lt ∧
      (m.sort ro).sortedKeys.Perm (GoMap.orEmpty (m.sort ro).data).keys := by
  cases h : m.sorted
  · obtain ⟨_, h2, h3, _, _⟩ := sort_of_dirty ro m h
    rw [h2, h3]
    have hs := sortSlice_of_arranges m.less lt hless _
      (GoMap.range_keys_nodup ro (GoMap.orEmpty m.data))
    exact ⟨hs.1, hs.2.trans (GoMap.range_keys_perm ro _)⟩
  · rw [sort_of_sorted ro m h]
    exact hm h

theorem Set_less (m : OrderedMap K V) (k : K) (v : V) : (m.Set k v).less = m.less := by
  unfold Set
  split
  · rfl
  · exact less_init m

theorem Delete_less (m : OrderedMap K V) (k : K) : (m.Delete k).less = m.less := by
  unfold Delete
  split <;> rfl

theorem Commit_less (m : OrderedMap K V) (fn : GoMap K V → GoMap K V) :
    (m.Commit fn).less = m.less := by
  unfold Commit
  split
  · rfl
  · exact less_init m

theorem Set_of_writable (m : OrderedMap K V) (k : K) (v : V) (h : m.readonly = false) :
    (m.Set k v).sorted = false ∧ (m.Set k v).readonly = false ∧
      GoMap.orEmpty (m.Set k v).data = (GoMap.orEmpty m.data).set k v := by
  unfold Set
  rw [if_neg (by simp [h])]
  refine ⟨rfl, ?_, ?_⟩
  · show m.init.readonly = false
    rw [readonly_init]; exact h
  · show (GoMap.orEmpty m.init.data).set k v = _
    rw [data_init]

theorem Delete_of_writable (m : OrderedMap K V) (k : K) (h : m.readonly = false) :
    (m.Delete k).sorted = false ∧ (m.Delete k).readonly = false ∧
      ∀ a, (GoMap.orEmpty (m.Delete k).data).get? a =
        if a = k then none else (GoMap.orEmpty m.data).get? a := by
  unfold Delete
  rw [if_neg (by simp [h])]
  refine ⟨rfl, h, ?_⟩
  intro a
  obtain ⟨⟨d, ro, lk, hb⟩, lf, s, sk⟩ := m
  cases d with
  | none =>
    show (GoMap.orEmpty (none : Option (GoMap K V))).get? a = _
    rw [GoMap.orEmpty_get?_none]
    split <;> rfl
  | some d =>
    show (d.delete k).get? a = _
    rw [GoMap.get?_delete]
    rfl

theorem Commit_of_writable (m : OrderedMap K V) (fn : GoMap K V → GoMap K V)
    (h : m.readonly = false) :
    (m.Commit fn).sorted = false ∧ (m.Commit fn).readonly = false ∧
      GoMap.orEmpty (m.Commit fn).data = fn (GoMap.orEmpty m.data) := by
  unfold Commit
  rw [if_neg (by simp [h])]
  refine ⟨rfl, ?_, ?_⟩
  · show m.init.readonly = false
    rw [readonly_init]; exact h
  · show fn (GoMap.orEmpty m.init.data) = _
    rw [data_init]

/-- The state after a sequence of `Set` calls on a fresh map. -/
theorem sets_state (sets : List (K × V)) :
    ∀ (m : OrderedMap K V), m.readonly = false → m.sorted = false →
      (sets.foldl (fun m p => m.Set p.1 p.2) m).readonly = false ∧
        (sets.foldl (fun m p => m.Set p.1 p.2) m).sorted = false ∧
        (sets.foldl (fun m p => m.Set p.1 p.2) m).less = m.less ∧
        ∀ a, a ∈ (GoMap.orEmpty (sets.foldl (fun m p => m.Set p.1 p.2) m).data).keys ↔
          a ∈ (GoMap.orEmpty m.data).keys ∨ a ∈ sets.map Prod.fst := by
  induction sets with
  | nil => intro m hro hs; exact ⟨hro, hs, rfl, by simp⟩
  | cons p rest ih =>
    intro m hro _
    obtain ⟨h1, h2, h3⟩ := Set_of_writable m p.1 p.2 hro
    obtain ⟨g1, g2, g3, g4⟩ := ih (m.Set p.1 p.2) h2 h1
    rw [List.foldl_cons]
    refine ⟨g1, g2, g3.trans (Set_less m p.1 p.2), ?_⟩
    intro a
    rw [g4 a, h3, GoMap.mem_keys, GoMap.get?_set, GoMap.mem_keys]
    by_cases ha : a = p.1
    · simp [ha]
    · simp [ha]

/-- `Keys()` after a sequence of `Set` calls on a fresh map whose comparator orders the keys
by `lt`. -/
theorem Keys_after_sets (data : Option (GoMap K V))
    (lessFunc : Option (List K → Nat → Nat → Bool)) (lt : K → K → Prop)
    (h : ComparesBy lessFunc lt) (sets : List (K × V)) (ro : RangeOrder) :
    ((sets.foldl (fun m p => m.Set p.1 p.2) (NewOrdered data lessFunc)).Keys ro).1.Pairwise lt ∧
      ((sets.foldl (fun m p => m.Set p.1 p.2) (NewOrdered data lessFunc)).Keys ro).1.Perm
        (GoMap.orEmpty (sets.foldl (fun m p => m.Set p.1 p.2) (NewOrdered data lessFunc)).data).keys ∧
      ∀ a, a ∈ ((sets.foldl (fun m p => m.Set p.1 p.2) (NewOrdered data lessFunc)).Keys ro).1 ↔
        a ∈ (GoMap.orEmpty data).keys ∨ a ∈ sets.map Prod.fst := by
  obtain ⟨_, g2, g3, g4⟩ := sets_state sets (NewOrdered data lessFunc) rfl rfl
  have hless : ArrangesBy (sets.foldl (fun m p => m.Set p.1 p.2) (NewOrdered data lessFunc)).less lt := by
    rw [g3]
    exact arranges_of_comparesBy (V := V) lessFunc lt h
  have hc := sort_coherent ro _ lt hless (fun hs => by rw [g2] at hs; cases hs)
  rw [sort_data] at hc
  refine ⟨hc.1, hc.2, ?_⟩
  intro a
  exact hc.2.mem_iff.trans (g4 a)

/-- On a map whose lock is nil or free, `sort` with its lock steps returns without fault
and in the state `sort` stands for: `init` has installed the comparator that `sort.Slice`
calls. -/
theorem ordered_lockedSort_of_free (ro : RangeOrder) (m : OrderedMap K V)
    (hlock : m.lock = none ∨ m.lock = some utils.Lock.new) :
    m.lockedSort ro = .ok (m.sort ro) := by
  obtain ⟨⟨d, r, lk, hb⟩, lf, s, sk⟩ := m
  simp only at hlock
  rcases hlock with h | h <;> subst h <;> cases s <;> cases d <;> cases lf <;> rfl

theorem ordered_Set_lock (m : OrderedMap K V) (k : K) (v : V) : (m.Set k v).lock = m.lock := by
  obtain ⟨⟨d, ro, lk, hb⟩, lf, s, sk⟩ := m
  cases ro <;> cases d <;> cases lf <;> rfl

theorem ordered_setAll_lock (sets : List (K × V)) :
    ∀ m : OrderedMap K V, (m.setAll sets).lock = m.lock := by
  induction sets with
  | nil => intro m; rfl
  | cons p rest ih =>
    intro m
    show ((m.Set p.1 p.2).setAll rest).lock = m.lock
    rw [ih, ordered_Set_lock]

/-- Without `init` the calls panic: an assignment to an entry of a nil map, and the call of a
nil comparator on two keys. -/
theorem faults_without_init (k : K) (v : V) (a b : K) (rest : List K) :
    GoMap.assign (none : Option (GoMap K V)) k v = .error .panic ∧
      sortSliceBy (none : Option (List K → Nat → Nat → Bool)) (a :: b :: rest) =
        .error .panic :=
  ⟨rfl, rfl⟩

variable [Inhabited V]

theorem step_less (m : OrderedMap K V) (op : OrderedOp K V) : (m.step op).less = m.less := by
  cases op with
  | Set k v => exact Set_less m k v
  | Delete k => exact Delete_less m k
  | Commit fn => exact Commit_less m fn
  | Keys ro => exact sort_less ro m
  | Values ro => exact sort_less ro m
  | ForEach ro => exact sort_less ro m

theorem step_readonly (m : OrderedMap K V) (op : OrderedOp K V) (h : m.readonly = false) :
    (m.step op).readonly = false := by
  cases op with
  | Set k v => exact (Set_of_writable m k v h).2.1
  | Delete k => exact (Delete_of_writable m k h).2.1
  | Commit fn => exact (Commit_of_writable m fn h).2.1
  | Keys ro => exact (sort_readonly ro m).trans h
  | Values ro => exact (sort_readonly ro m).trans h
  | ForEach ro => exact (sort_readonly ro m).trans h

theorem step_mutation_dirty (m : OrderedMap K V) (op : OrderedOp K V)
    (h : m.readonly = false) (hop : op.isMutation = true) : (m.step op).sorted = false := by
  cases op with
  | Set k v => exact (Set_of_writable m k v h).1
  | Delete k => exact (Delete_of_writable m k h).1
  | Commit fn => exact (Commit_of_writable m fn h).1
  | Keys ro => simp [OrderedOp.isMutation] at hop
  | Values ro => simp [OrderedOp.isMutation] at hop
  | ForEach ro => simp [OrderedOp.isMutation] at hop

theorem step_coherent (m : OrderedMap K V) (op : OrderedOp K V) (lt : K → K → Prop)
    (hro : m.readonly = false) (hless : ArrangesBy m.less lt)
    (hm : m.sorted = true →
      m.sortedKeys.Pairwise lt ∧ m.sortedKeys.Perm (GoMap.orEmpty m.data).keys) :
    (m.step op).sorted = true →
      (m.step op).sortedKeys.Pairwise lt ∧
        (m.step op).sortedKeys.Perm (GoMap.orEmpty (m.step op).data).keys := by
  cases op with
  | Set k v =>
    intro h
    have h' : (m.Set k v).sorted = true := h
    rw [(Set_of_writable m k v hro).1] at h'
    cases h'
  | Delete k =>
    intro h
    have h' : (m.Delete k).sorted = true := h
    rw [(Delete_of_writable m k hro).1] at h'
    cases h'
  | Commit fn =>
    intro h
    have h' : (m.Commit fn).sorted = true := h
    rw [(Commit_of_writable m fn hro).1] at h'
    cases h'
  | Keys ro => intro _; exact sort_coherent ro m lt hless hm
  | Values ro => intro _; exact sort_coherent ro m lt hless hm
  | ForEach ro => intro _; exact sort_coherent ro m lt hless hm

/-- The invariant of the cache discipline along a sequence of calls. -/
theorem run_invariant (ops : List (OrderedOp K V)) (lt : K → K → Prop) :
    ∀ (m : OrderedMap K V), m.readonly = false → ArrangesBy m.less lt →
      (m.sorted = true →
        m.sortedKeys.Pairwise lt ∧ m.sortedKeys.Perm (GoMap.orEmpty m.data).keys) →
      (m.run ops).readonly = false ∧ (m.run ops).less = m.less ∧
        ((m.run ops).sorted = true →
          (m.run ops).sortedKeys.Pairwise lt ∧
            (m.run ops).sortedKeys.Perm (GoMap.orEmpty (m.run ops).data).keys) := by
  induction ops with
  | nil => intro m hro _ hm; exact ⟨hro, rfl, hm⟩
  | cons op ops ih =>
    intro m hro hless hm
    have h1 := ih (m.step op) (step_readonly m op hro) (by rw [step_less]; exact hless)
      (step_coherent m op lt hro hless hm)
    unfold run at h1 ⊢
    rw [List.foldl_cons]
    exact ⟨h1.1, h1.2.1.trans (step_less m op), h1.2.2⟩

end OrderedMap

end maps

/-- C5: for an `OrderedMap` built by `NewOrdered` from any initial mapping (nil or not) and
any comparator (nil or not), the calls `Set`, ..., `Set`, `Keys()`, run with their lock
steps and with the panics of an assignment to a nil map and of a call of a nil comparator,
return without fault what the calls stand for here, because `init` has made the map and
installed the default comparator; `Keys()` is a rearrangement of the current keys of the
backing map (so each key occurs once), a key occurs in it exactly when it is a key of the
initial mapping or was set, and with the default comparator the result is strictly
ascending; with a caller-supplied comparator that compares by a strict total order `lt` of
the keys, the result is arranged by `lt`; inserting "3", "1", "2" gives
`["1", "2", "3"]`, also in the run with the panics. -/
theorem OrderedMap_Keys_sorted {K V : Type} [LinearOrder K] (data : Option (GoMap K V))
    (sets : List (K × V)) (ro : RangeOrder) :
    (∀ lessFunc : Option (List K → Nat → Nat → Bool),
      ((maps.NewOrdered data lessFunc).lockedSetAll sets).bind
          (fun m => m.lockedKeys ro) =
        .ok (((maps.NewOrdered data lessFunc).setAll sets).Keys ro)) ∧
    ((((maps.NewOrdered data none).setAll sets).Keys ro).1.Pairwise (fun a b => a < b) ∧
      (((maps.NewOrdered data none).setAll sets).Keys ro).1.Perm
        (GoMap.orEmpty ((maps.NewOrdered data none).setAll sets).data).keys ∧
      ∀ a, a ∈ (((maps.NewOrdered data none).setAll sets).Keys ro).1 ↔
        a ∈ (GoMap.orEmpty data).keys ∨ a ∈ sets.map Prod.fst) ∧
    (∀ (f : List K → Nat → Nat → Bool) (lt : K → K → Prop), maps.ComparesBy (some f) lt →
      (((maps.NewOrdered data (some f)).setAll sets).Keys ro).1.Pairwise lt ∧
      (((maps.NewOrdered data (some f)).setAll sets).Keys ro).1.Perm
        (GoMap.orEmpty ((maps.NewOrdered data (some f)).setAll sets).data).keys ∧
      ∀ a, a ∈ (((maps.NewOrdered data (some f)).setAll sets).Keys ro).1 ↔
        a ∈ (GoMap.orEmpty data).keys ∨ a ∈ sets.map Prod.fst) ∧
    ((((maps.NewOrdered (none : Option (GoMap String String)) none).lockedSetAll
        [("3", "c"), ("1", "a"), ("2", "b")]).bind (fun m => m.lockedKeys ro)).map
          (fun r => r.1) = .ok ["1", "2", "3"] ∧
      (((maps.NewOrdered (none : Option (GoMap String String)) none).setAll
        [("3", "c"), ("1", "a"), ("2", "b")]).Keys ro).1 = ["1", "2", "3"]) := by
  suffices hex : (((maps.NewOrdered (none : Option (GoMap String String)) none).setAll
      [("3", "c"), ("1", "a"), ("2", "b")]).Keys ro).1 = ["1", "2", "3"] by
    have hrun : ∀ (K' V' : Type) [LinearOrder K'] (sets' : List (K' × V'))
        (m : maps.OrderedMap K' V'), (m.lock = none ∨ m.lock = some utils.Lock.new) →
        (m.lockedSetAll sets').bind (fun m' => m'.lockedKeys ro) =
          .ok ((m.setAll sets').Keys ro) := by
      intro K' V' _ sets'
      induction sets' with
      | nil =>
        intro m hlock
        obtain ⟨⟨d, r, lk, hb⟩, lf, s, sk⟩ := m
        simp only at hlock
        rcases hlock with h | h <;> subst h <;> cases s <;> cases d <;> cases lf <;> rfl
      | cons p rest ih =>
        intro m hlock
        have hset : m.lockedSet p.1 p.2 = .ok (m.Set p.1 p.2) := by
          obtain ⟨⟨d, r, lk, hb⟩, lf, s, sk⟩ := m
          simp only at hlock
          rcases hlock with h | h <;> subst h <;> cases r <;> cases d <;> cases lf <;> rfl
        have hl : (m.Set p.1 p.2).lock = none ∨
            (m.Set p.1 p.2).lock = some utils.Lock.new := by
          rw [maps.OrderedMap.ordered_Set_lock]
          exact hlock
        unfold maps.OrderedMap.lockedSetAll
        rw [hset]
        exact ih _ hl
    refine ⟨fun lessFunc => hrun K V sets _ (Or.inl rfl),
      maps.OrderedMap.Keys_after_sets data none (fun a b => a < b) (fun _ _ => Iff.rfl)
        sets ro, fun f lt h => maps.OrderedMap.Keys_after_sets data (some f) lt h sets ro,
      ?_, hex⟩
    rw [hrun String String _ _ (Or.inl rfl)]
    exact congrArg Except.ok hex
  obtain ⟨h1, _, h3⟩ := maps.OrderedMap.Keys_after_sets
    (none : Option (GoMap String String)) none (fun a b => a < b) (fun _ _ => Iff.rfl)
    [("3", "c"), ("1", "a"), ("2", "b")] ro
  have hnd : ((((maps.NewOrdered (none : Option (GoMap String String)) none).setAll
      [("3", "c"), ("1", "a"), ("2", "b")]).Keys ro).1).Nodup :=
    List.Pairwise.imp (fun h => ne_of_lt h) h1
  have hperm : ((((maps.NewOrdered (none : Option (GoMap String String)) none).setAll
      [("3", "c"), ("1", "a"), ("2", "b")]).Keys ro).1).Perm ["1", "2", "3"] := by
    refine (List.perm_ext_iff_of_nodup hnd (by decide)).mpr (fun a => ?_)
    refine (h3 a).trans ?_
    simp only [GoMap.orEmpty, GoMap.keys, List.map_nil, List.not_mem_nil, false_or,
      List.map_cons, List.mem_cons]
    tauto
  have hsorted : List.Pairwise (fun a b : String => a < b) ["1", "2", "3"] := by
    simp only [List.pairwise_cons, List.mem_cons, List.mem_singleton, forall_eq_or_imp,
      forall_eq, String.lt_iff_toList_lt]
    decide
  exact List.eq_of_perm_of_sorted hperm h1 hsorted

/-- Witness of C5 for a caller-supplied comparator: keys compared in descending order of
the natural numbers, and the keys 1, 3, 2 set on a map made from a nil mapping; the run
with the panics returns `[3, 2, 1]`, and with a nil comparator `[1, 2, 3]`. -/
theorem OrderedMap_Keys_sorted_witness :
    maps.ComparesBy (some (fun (xs : List Nat) i j => decide (xs.getD j 0 < xs.getD i 0)))
        (fun a b => b < a) ∧
      (((maps.NewOrdered (none : Option (GoMap Nat Nat))
        (some (fun xs i j => decide (xs.getD j 0 < xs.getD i 0)))).setAll
          [(1, 0), (3, 0), (2, 0)]).Keys RangeOrder.asStored).1.Pairwise (fun a b => b < a) ∧
      (((maps.NewOrdered (none : Option (GoMap Nat Nat))
        (some (fun xs i j => decide (xs.getD j 0 < xs.getD i 0)))).lockedSetAll
          [(1, 0), (3, 0), (2, 0)]).bind (fun m => m.lockedKeys RangeOrder.asStored)).map
            (fun r => r.1) = .ok [3, 2, 1] ∧
      (((maps.NewOrdered (none : Option (GoMap Nat Nat)) none).lockedSetAll
          [(1, 0), (3, 0), (2, 0)]).bind (fun m => m.lockedKeys RangeOrder.asStored)).map
            (fun r => r.1) = .ok [1, 2, 3] :=
  have h : maps.ComparesBy (some (fun (xs : List Nat) i j => decide (xs.getD j 0 < xs.getD i 0)))
      (fun a b => b < a) :=
    ⟨fun a => Nat.lt_irrefl a, fun _ _ _ hab hbc => Nat.lt_trans hbc hab,
      fun a b hab => (Nat.lt_or_gt_of_ne hab).symm,
      fun xs i j a b ha hb => by simp [List.getD, ha, hb]⟩
  ⟨h, ((OrderedMap_Keys_sorted (none : Option (GoMap Nat Nat)) [(1, 0), (3, 0), (2, 0)]
    RangeOrder.asStored).2.2.1 _ _ h).1,
    rfl, rfl⟩

/-- C6: the cache invariant of `OrderedMap`. For a map made by `NewOrdered` with a comparator
that orders the keys by `lt` (the default one, or a caller-supplied strict total order) and
any sequence of `Set`, `Delete`, `Commit`, `Keys`, `Values` and `ForEach` calls, in the
state reached: when the sorted flag is set, the cached keys are a rearrangement of the
keys of the backing map arranged by `lt`; every further `Set`, `Delete` and `Commit` clears
the flag; a read (`Keys`, `Values`, `ForEach`) with the flag cleared sets it and rebuilds
the cache by sorting the keys of the backing map; a read with the flag set leaves the map
as it is, and `Keys()` returns the cached keys; and `Keys()` after a mutation is the
arranged keys of the mutated backing map. -/
theorem OrderedMap_cache_invariant {K V : Type} [LinearOrder K] [Inhabited V]
    (data : Option (GoMap K V)) (lessFunc : Option (List K → Nat → Nat → Bool))
    (lt : K → K → Prop) (hcmp : maps.ComparesBy lessFunc lt)
    (ops : List (maps.OrderedOp K V)) :
    (((maps.NewOrdered data lessFunc).run ops).sorted = true →
      ((maps.NewOrdered data lessFunc).run ops).sortedKeys.Pairwise lt ∧
      ((maps.NewOrdered data lessFunc).run ops).sortedKeys.Perm
        (GoMap.orEmpty ((maps.NewOrdered data lessFunc).run ops).data).keys) ∧
    (∀ op : maps.OrderedOp K V, op.isMutation = true →
      (((maps.NewOrdered data lessFunc).run ops).step op).sorted = false) ∧
    (∀ (op : maps.OrderedOp K V) (ro : RangeOrder), op.readOrder = some ro →
      ((maps.NewOrdered data lessFunc).run ops).sorted = false →
      (((maps.NewOrdered data lessFunc).run ops).step op).sorted = true ∧
      (((maps.NewOrdered data lessFunc).run ops).step op).sortedKeys =
        sortSlice ((maps.NewOrdered data lessFunc).run ops).less
          (((GoMap.orEmpty ((maps.NewOrdered data lessFunc).run ops).data).range ro).map
            Prod.fst)) ∧
    (∀ (op : maps.OrderedOp K V) (ro : RangeOrder), op.readOrder = some ro →
      ((maps.NewOrdered data lessFunc).run ops).sorted = true →
      ((maps.NewOrdered data lessFunc).run ops).step op =
        (maps.NewOrdered data lessFunc).run ops ∧
      (((maps.NewOrdered data lessFunc).run ops).Keys ro).1 =
        ((maps.NewOrdered data lessFunc).run ops).sortedKeys) ∧
    (∀ (op : maps.OrderedOp K V) (ro : RangeOrder), op.isMutation = true →
      ((((maps.NewOrdered data lessFunc).run ops).step op).Keys ro).1.Pairwise lt ∧
      ((((maps.NewOrdered data lessFunc).run ops).step op).Keys ro).1.Perm
        (GoMap.orEmpty (((maps.NewOrdered data lessFunc).run ops).step op).data).keys) := by
  have hless : maps.ArrangesBy (maps.NewOrdered data lessFunc).less lt :=
    maps.arranges_of_comparesBy (V := V) lessFunc lt hcmp
  obtain ⟨hro, hl, hinv⟩ := maps.OrderedMap.run_invariant ops lt (maps.NewOrdered data lessFunc)
    rfl hless (fun h => by cases h)
  have hread : ∀ (op : maps.OrderedOp K V) (ro : RangeOrder), op.readOrder = some ro →
      ((maps.NewOrdered data lessFunc).run ops).step op =
        ((maps.NewOrdered data lessFunc).run ops).sort ro := by
    intro op ro hop
    cases op with
    | Set k v => cases hop
    | Delete k => cases hop
    | Commit fn => cases hop
    | Keys ro' => cases hop; rfl
    | Values ro' => cases hop; rfl
    | ForEach ro' => cases hop; rfl
  refine ⟨hinv, ?_, ?_, ?_, ?_⟩
  · intro op hop
    exact maps.OrderedMap.step_mutation_dirty _ op hro hop
  · intro op ro hop hs
    have h := maps.OrderedMap.sort_of_dirty ro _ hs
    rw [hread op ro hop]
    exact ⟨h.1, h.2.1⟩
  · intro op ro hop hs
    have h := maps.OrderedMap.sort_of_sorted ro _ hs
    rw [hread op ro hop]
    refine ⟨h, ?_⟩
    show (((maps.NewOrdered data lessFunc).run ops).sort ro).sortedKeys = _
    rw [h]
  · intro op ro hop
    have hd := maps.OrderedMap.step_mutation_dirty _ op hro hop
    have hc := maps.OrderedMap.sort_coherent ro
      (((maps.NewOrdered data lessFunc).run ops).step op) lt
      (by rw [maps.OrderedMap.step_less, hl]; exact hless)
      (fun h => by rw [hd] at h; cases h)
    rw [maps.OrderedMap.sort_data] at hc
    exact hc

/-- Witness of C6: the default comparator on natural-number keys, and the calls `Set(3)`,
`Keys()`, `Set(1)`, `Delete(3)`, `Values()`. -/
theorem OrderedMap_cache_invariant_witness :
    maps.ComparesBy (none : Option (List Nat → Nat → Nat → Bool)) (fun a b => a < b) ∧
      ((maps.NewOrdered (none : Option (GoMap Nat Nat)) none).run
        [.Set 3 0, .Keys RangeOrder.asStored, .Set 1 0, .Delete 3,
          .Values RangeOrder.backwards]).sortedKeys = [1] ∧
      (((maps.NewOrdered (none : Option (GoMap Nat Nat)) none).run
        [.Set 3 0, .Keys RangeOrder.asStored, .Set 1 0, .Delete 3,
          .Values RangeOrder.backwards]).sorted = true →
        ((maps.NewOrdered (none : Option (GoMap Nat Nat)) none).run
          [.Set 3 0, .Keys RangeOrder.asStored, .Set 1 0, .Delete 3,
            .Values RangeOrder.backwards]).sortedKeys.Pairwise (fun a b => a < b) ∧
        ((maps.NewOrdered (none : Option (GoMap Nat Nat)) none).run
          [.Set 3 0, .Keys RangeOrder.asStored, .Set 1 0, .Delete 3,
            .Values RangeOrder.backwards]).sortedKeys.Perm
          (GoMap.orEmpty ((maps.NewOrdered (none : Option (GoMap Nat Nat)) none).run
            [.Set 3 0, .Keys RangeOrder.asStored, .Set 1 0, .Delete 3,
              .Values RangeOrder.backwards]).data).keys) :=
  ⟨fun _ _ => Iff.rfl, by decide,
    (OrderedMap_cache_invariant (none : Option (GoMap Nat Nat)) none (fun a b => a < b)
      (fun _ _ => Iff.rfl)
      [.Set 3 0, .Keys RangeOrder.asStored, .Set 1 0, .Delete 3,
        .Values RangeOrder.backwards]).1⟩

/-! ## WeightedMap -/

namespace GoMap

variable {K V W : Type} [DecidableEq K]

/-- A map filled from an association list without repeated keys answers lookups like the
list, with the values rewritten by `g`. -/
theorem get?_foldl_set_pairs (g : K → V → W) (l : List (K × V)) :
    ∀ (m : GoMap K W), (l.map Prod.fst).Nodup → ∀ a,
      (l.foldl (fun fin p => fin.set p.1 (g p.1 p.2)) m).get? a =
        match lookupEntry a l with
        | some v => some (g a v)
        | none => m.get? a := by
  induction l with
  | nil => intro m _ a; rfl
  | cons p rest ih =>
    intro m hnd a
    rw [List.map_cons, List.nodup_cons] at hnd
    rw [List.foldl_cons, ih _ hnd.2 a]
    by_cases hpa : p.1 = a
    · have hnone : lookupEntry a rest = none := by
        rw [lookupEntry_eq_none, ← hpa]; exact hnd.1
      simp only [hnone, lookupEntry, if_pos hpa, get?_set, if_pos hpa.symm]
      rw [← hpa]
    · have hap : ¬ a = p.1 := fun e => hpa e.symm
      simp only [lookupEntry, if_neg hpa, get?_set, if_neg hap]

theorem get?_range_foldl (ro : RangeOrder) (g : K → V → W) (src : GoMap K V) (a : K) :
    (((src.range ro).foldl (fun fin p => fin.set p.1 (g p.1 p.2)) empty).get? a) =
      (src.get? a).map (g a) := by
  rw [get?_foldl_set_pairs g _ _ (range_keys_nodup ro src) a, lookupEntry_range]
  cases src.get? a <;> rfl

theorem length_setEntry (k : K) (v : V) (l : List (K × V)) :
    (setEntry k v l).length = if k ∈ l.map Prod.fst then l.length else l.length + 1 := by
  induction l with
  | nil => simp [setEntry]
  | cons p rest ih =>
    unfold setEntry
    by_cases hp : p.1 = k
    · simp [hp]
    · rw [if_neg hp, List.length_cons, ih]
      have hkp : ¬ k = p.1 := fun e => hp e.symm
      by_cases hk : k ∈ rest.map Prod.fst
      · simp [hk]
      · simp only [hk, if_false, List.map_cons, List.mem_cons, hkp, or_self, List.length_cons]

end GoMap

namespace maps

open types

namespace WeightedMap

variable {K V : Type} [DecidableEq K] [Inhabited V]

theorem weighted_data_init (m : WeightedMap K V) : GoMap.orEmpty m.init.data = GoMap.orEmpty m.data := by
  obtain ⟨⟨d, ro, lk, hb⟩, s, sk, wc⟩ := m
  cases d <;> rfl

theorem weighted_readonly_init (m : WeightedMap K V) : m.init.readonly = m.readonly := by
  obtain ⟨⟨d, ro, lk, hb⟩, s, sk, wc⟩ := m
  cases d <;> rfl

theorem weightLess_iff (m : WeightedMap K V) (xs : List K) (i j : Nat) (a b : K)
    (ha : xs[i]? = some a) (hb : xs[j]? = some b) :
    m.weightLess xs i j = true ↔ m.weightOf a > m.weightOf b := by
  unfold weightLess
  rw [ha, hb]
  simp

/-- A read with the flag set does not rebuild the cache. -/
theorem weighted_sort_of_sorted (ro : RangeOrder) (m : WeightedMap K V) (h : m.sorted = true) :
    m.sort ro = m := by
  unfold sort
  rw [if_pos h]

/-- A read with the flag cleared rebuilds the cache: the keys of the backing map, in an
order in which weights never increase. -/
theorem weighted_sort_of_dirty (ro : RangeOrder) (m : WeightedMap K V) (h : m.sorted = false) :
    (m.sort ro).sorted = true ∧ (m.sort ro).data = m.data ∧
      (m.sort ro).sortedKeys.Perm (GoMap.orEmpty m.data).keys ∧
      (m.sort ro).sortedKeys.Pairwise (fun a b => m.weightOf a ≥ m.weightOf b) := by
  unfold sort
  rw [if_neg (by simp [h])]
  have hs := sortSlice_spec m.weightLess (fun a b => m.weightOf a > m.weightOf b)
    (fun a b => m.weightOf a ≥ m.weightOf b) (weightLess_iff m)
    (fun a b _ hab => Nat.le_of_lt hab) (fun a b _ hab => Nat.le_of_not_lt hab)
    (fun a b c hab hbc => Nat.le_trans hbc hab)
    (((GoMap.orEmpty m.data).range ro).map Prod.fst)
    (GoMap.range_keys_nodup ro (GoMap.orEmpty m.data))
  exact ⟨rfl, rfl, hs.2.trans (GoMap.range_keys_perm ro _), hs.1⟩

/-- `Keys()` and `Values()` on a map whose sort flag is cleared (as every constructor,
`Set`, `SetWeighted`, `Delete` and `Commit` leave it): the keys are a rearrangement of the
current keys in which weights never increase, and the values follow the keys. -/
theorem Keys_Values_of_dirty (ro : RangeOrder) (m : WeightedMap K V) (h : m.sorted = false) :
    (m.Keys ro).1.Perm (GoMap.orEmpty m.data).keys ∧
      (m.Keys ro).1.Pairwise (fun a b => m.weightOf a ≥ m.weightOf b) ∧
      (m.Values ro).1 = some ((m.Keys ro).1.map (fun k => m.Get k)) := by
  obtain ⟨_, h2, h3, h4⟩ := weighted_sort_of_dirty ro m h
  refine ⟨h3, h4, ?_⟩
  have hlen : (m.sort ro).sortedKeys.length = (GoMap.orEmpty (m.sort ro).data).len := by
    rw [h2, h3.length_eq]
    simp [GoMap.keys, GoMap.len]
  unfold Values Keys
  simp only [hlen, le_refl, if_true, Nat.sub_self, List.replicate_zero, List.append_nil]
  have hget : ∀ k, (m.sort ro).Get k = m.Get k := by
    intro k
    unfold Get
    rw [h2]
  simp only [hget]

/-- `WeightIter()` on a map with no entry and a cleared sort flag: the goroutine reaches
`close(iter)` with `iter` still nil and panics. -/
theorem WeightIter_of_empty (ro : RangeOrder) (m : WeightedMap K V) (h : m.sorted = false)
    (hempty : (GoMap.orEmpty m.data).entries = []) :
    (m.WeightIter ro).1 = .error .panic := by
  have hrange : (GoMap.orEmpty m.data).range ro = [] := by
    have hp := GoMap.range_perm ro (GoMap.orEmpty m.data)
    rw [hempty] at hp
    exact List.perm_nil.mp hp
  have hkeys : (m.sort ro).sortedKeys = [] := by
    unfold sort
    rw [if_neg (by simp [h])]
    simp only [hrange]
    rfl
  unfold WeightIter
  simp only [hkeys]
  rfl

/-- What `marshal` hands to the codec: the map of the plain values. -/
theorem marshal_payload {E B : Type} (ro : RangeOrder) (m : WeightedMap K V)
    (marsh : MarshalFunc E B (GoMap K V)) :
    ∃ rawMap : GoMap K V,
      (∀ k, rawMap.get? k = ((GoMap.orEmpty m.data).get? k).map (fun w => w.Value)) ∧
      (m.marshal ro marsh).1 =
        (match marsh rawMap with
        | .error e => .error (.codec e)
        | .ok bytes => .ok bytes) ∧
      GoMap.orEmpty (m.marshal ro marsh).2.data = GoMap.orEmpty m.data := by
  refine ⟨((GoMap.orEmpty m.init.data).range ro).foldl
    (fun raw p => raw.set p.1 p.2.Value) GoMap.empty, ?_, ?_, ?_⟩
  · intro k
    rw [GoMap.get?_range_foldl ro (fun _ (w : Weighted V) => w.Value), weighted_data_init]
  · unfold marshal
    simp only
    split <;> simp_all
  · unfold marshal
    simp only
    split <;> exact weighted_data_init m

/-- What `unmarshal` leaves in a map that is not read-only, when the codec decodes the bytes
to `rawMap`: the decoded values, each with the weight its key had in the receiver, or 0. -/
theorem unmarshal_of_decoded {E B : Type} (ro : RangeOrder) (m : WeightedMap K V)
    (unmarsh : UnmarshalFunc E B (Option (GoMap K V))) (bytes : B)
    (rawMap : Option (GoMap K V)) (hro : m.readonly = false)
    (hdec : unmarsh bytes none = .ok rawMap) :
    (m.unmarshal ro unmarsh bytes).1 = none ∧
      (m.unmarshal ro unmarsh bytes).2.sorted = m.sorted ∧
      (m.unmarshal ro unmarsh bytes).2.sortedKeys = m.sortedKeys ∧
      ∀ k, (GoMap.orEmpty (m.unmarshal ro unmarsh bytes).2.data).get? k =
        ((GoMap.orEmpty rawMap).get? k).map (fun v =>
          ⟨v, match (GoMap.orEmpty m.data).get? k with
              | some x => x.Weight
              | none => 0⟩) := by
  have hro' : m.init.readonly = false := by rw [weighted_readonly_init]; exact hro
  have hs : m.init.sorted = m.sorted ∧ m.init.sortedKeys = m.sortedKeys := by
    obtain ⟨⟨d, ro, lk, hb⟩, s, sk, wc⟩ := m
    cases d <;> exact ⟨rfl, rfl⟩
  have hun : m.unmarshal ro unmarsh bytes =
      (none, { m.init with data := some (((GoMap.orEmpty rawMap).range ro).foldl
        (fun fin p => fin.set p.1 (⟨p.2, match (GoMap.orEmpty m.init.data).get? p.1 with
          | some x => x.Weight
          | none => 0⟩ : Weighted V)) GoMap.empty) }) := by
    unfold unmarshal
    simp only [hro', Bool.false_eq_true, if_false, hdec]
  rw [hun]
  refine ⟨rfl, hs.1, hs.2, ?_⟩
  intro k
  have h := GoMap.get?_range_foldl ro
    (fun (a : K) (v : V) => (⟨v, match (GoMap.orEmpty m.init.data).get? a with
      | some x => x.Weight
      | none => 0⟩ : Weighted V)) (GoMap.orEmpty rawMap) k
  rw [weighted_data_init] at h
  simp only [weighted_data_init]
  exact h

end WeightedMap

end maps

/-! ## WeightIter against its specification -/

namespace maps

open types

namespace WeightedMap

variable {K V : Type} [DecidableEq K] [Inhabited V]

theorem sendRef_last (D : List (Chan (Item K V))) (c : Chan (Item K V)) (item : Item K V)
    (hc : c.closed = false) :
    sendRef (D ++ [c]) (some D.length) item = .ok (D ++ [{ c with sent := c.sent ++ [item] }]) := by
  unfold sendRef
  simp only [List.getElem?_append_right (Nat.le_refl _), Nat.sub_self, List.getElem?_cons_zero,
    Chan.send, hc, Bool.false_eq_true, if_false]
  rw [List.set_append_right _ _ (Nat.le_refl _)]
  simp

theorem closeRef_last (D : List (Chan (Item K V))) (c : Chan (Item K V))
    (hc : c.closed = false) :
    closeRef (D ++ [c]) (some D.length) = .ok (D ++ [{ c with closed := true }]) := by
  unfold closeRef
  simp only [List.getElem?_append_right (Nat.le_refl _), Nat.sub_self, List.getElem?_cons_zero,
    Chan.close, hc, Bool.false_eq_true, if_false]
  rw [List.set_append_right _ _ (Nat.le_refl _)]
  simp

theorem specGroupStep_nonempty (m : WeightedMap K V) (rgs : List (List K)) (k : K)
    (hne : ∀ g ∈ rgs, g ≠ []) : ∀ g ∈ m.specGroupStep rgs k, g ≠ [] := by
  intro g hg
  match rgs, hne with
  | [], _ =>
    simp only [specGroupStep, List.mem_singleton] at hg
    rw [hg]; simp
  | [] :: rest, hne => exact absurd rfl (hne [] (by simp))
  | (a :: g') :: rest, hne =>
    simp only [specGroupStep] at hg
    split at hg
    · rcases List.mem_cons.mp hg with h | h
      · rw [h]; simp
      · exact hne g (by simp [h])
    · rcases List.mem_cons.mp hg with h | h
      · rw [h]; simp
      · exact hne g h

/-- One round of the goroutine's loop takes the state of the groups `rgs` to the state of
the groups with the key added. -/
theorem weightIterStep_stateOfGroups (m : WeightedMap K V) (cap : Nat) (rgs : List (List K))
    (k : K) (hne : ∀ g ∈ rgs, g ≠ []) :
    m.weightIterStep (m.stateOfGroups cap rgs) k =
      .ok (m.stateOfGroups cap (m.specGroupStep rgs k)) := by
  match rgs, hne with
  | [], _ =>
    have hw : ((-1 : Int) ≠ Int.ofNat ((GoMap.orEmpty m.data).get k).Weight) := by
      intro h
      simp only [Int.ofNat_eq_coe] at h
      omega
    simp only [weightIterStep, stateOfGroups, hw, ne_eq, not_false_eq_true, if_true,
      List.length_nil, List.nil_append, Chan.make, Chan.send, Bool.false_eq_true, if_false,
      specGroupStep, List.reverse_nil, List.map_nil]
    have hs := sendRef_last ([] : List (Chan (Item K V)))
      ({ cap := (GoMap.orEmpty m.data).len, sent := [], closed := false }) ⟨k, m.Get k⟩ rfl
    simp only [List.nil_append, List.length_nil] at hs
    have hget : ((GoMap.orEmpty m.data).get k).Value = m.Get k := rfl
    rw [hget, hs]
    simp [groupChan, weightOf, List.range_succ]
  | [] :: rest, hne => exact absurd rfl (hne [] (by simp))
  | (a :: g) :: rest, _ =>
    have hget : ((GoMap.orEmpty m.data).get k).Value = m.Get k := rfl
    have hwk : ((GoMap.orEmpty m.data).get k).Weight = m.weightOf k := rfl
    by_cases hw : m.weightOf a = m.weightOf k
    · have hs := sendRef_last (rest.reverse.map (m.groupChan true)) (m.groupChan false (a :: g))
        ⟨k, m.Get k⟩ rfl
      simp only [List.length_map, List.length_reverse] at hs
      simp only [weightIterStep, stateOfGroups, hwk, hw, ne_eq, not_true_eq_false, if_false,
        hget, hs, specGroupStep, if_true]
      simp [groupChan, hw]
    · have hc := closeRef_last (rest.reverse.map (m.groupChan true)) (m.groupChan false (a :: g)) rfl
      simp only [List.length_map, List.length_reverse] at hc
      have hne' : Int.ofNat (m.weightOf a) ≠ Int.ofNat (m.weightOf k) := by
        intro h; exact hw (Int.ofNat.inj h)
      have hs := sendRef_last
        (rest.reverse.map (m.groupChan true) ++ [{ m.groupChan false (a :: g) with closed := true }])
        ({ cap := (GoMap.orEmpty m.data).len, sent := [], closed := false }) ⟨k, m.Get k⟩ rfl
      simp only [List.length_append, List.length_map, List.length_reverse, List.length_singleton]
        at hs
      simp only [weightIterStep, stateOfGroups, hwk, hne', ne_eq, not_false_eq_true, if_true,
        hc, List.length_append, List.length_map, List.length_reverse, List.length_singleton,
        Chan.make, Chan.send, Bool.false_eq_true, if_false, hget, specGroupStep, hw,
        List.length_cons]
      simp only [groupChan, List.range_succ, List.map_cons, List.nil_append, List.map_reverse,
        List.append_assoc, List.singleton_append, List.reverse_cons, List.map_append,
        List.map_nil, List.length_nil, Nat.zero_add] at hs ⊢
      rw [hs]

/-- The goroutine's loop takes the state of the groups `rgs` to the state of the groups with
all the keys added. -/
theorem weightIterLoop_stateOfGroups (m : WeightedMap K V) (cap : Nat) (ks : List K) :
    ∀ (rgs : List (List K)), (∀ g ∈ rgs, g ≠ []) →
      m.weightIterLoop ks (m.stateOfGroups cap rgs) =
        .ok (m.stateOfGroups cap (ks.foldl m.specGroupStep rgs)) ∧
      ∀ g ∈ ks.foldl m.specGroupStep rgs, g ≠ [] := by
  induction ks with
  | nil => intro rgs hne; exact ⟨rfl, hne⟩
  | cons k ks ih =>
    intro rgs hne
    have h := ih (m.specGroupStep rgs k) (specGroupStep_nonempty m rgs k hne)
    unfold weightIterLoop
    rw [weightIterStep_stateOfGroups m cap rgs k hne]
    exact h

theorem range_map_getD {α : Type} (l : List α) (d : α) :
    (List.range l.length).map (fun i => l.getD i d) = l := by
  apply List.ext_getElem
  · simp
  · intro i h1 h2
    simp [List.getD, List.getElem?_eq_getElem h2]

end WeightedMap

end maps

namespace set

variable {T : Type} [DecidableEq T]

theorem Set.mem_keys_Add_one (s : Set T) (x a : T) :
    a ∈ (GoMap.orEmpty (s.Add [x]).data).keys ↔ a = x ∨ a ∈ (GoMap.orEmpty s.data).keys := by
  have hinit : GoMap.orEmpty s.init.data = GoMap.orEmpty s.data := by
    cases s with
    | mk d l => cases d <;> rfl
  have hdata : GoMap.orEmpty (s.Add [x]).data = (GoMap.orEmpty s.data).set x () := by
    unfold Set.Add
    simp only [List.foldl_cons, List.foldl_nil, hinit]
    rfl
  rw [hdata, GoMap.mem_keys, GoMap.get?_set, GoMap.mem_keys]
  by_cases h : a = x
  · simp [h]
  · simp [h]

/-- The number of members of a set filled with the values `xs`, one `Add` call each, is the
number of distinct values among `xs`. -/
theorem Set.Length_foldl_Add {α : Type} (f : α → T) (xs : List α) :
    ∀ (s : Set T),
      (∀ a, a ∈ (GoMap.orEmpty (xs.foldl (fun w p => w.Add [f p]) s).data).keys ↔
        a ∈ (GoMap.orEmpty s.data).keys ∨ a ∈ xs.map f) := by
  induction xs with
  | nil => intro s a; simp
  | cons x xs ih =>
    intro s a
    rw [List.foldl_cons, ih (s.Add [f x]) a, Set.mem_keys_Add_one]
    simp only [List.map_cons, List.mem_cons]
    tauto

theorem Set.Length_New_foldl_Add {α : Type} (f : α → T) (xs : List α) :
    (xs.foldl (fun w p => w.Add [f p]) (New ([] : List T))).Length =
      (xs.map f).toFinset.card := by
  have hmem := Set.Length_foldl_Add f xs (New ([] : List T))
  have hnd := GoMap.nodup_keys
    (GoMap.orEmpty (xs.foldl (fun w p => w.Add [f p]) (New ([] : List T))).data)
  have hset : (GoMap.orEmpty (xs.foldl (fun w p => w.Add [f p]) (New ([] : List T))).data).keys.toFinset
      = (xs.map f).toFinset := by
    ext a
    rw [List.mem_toFinset, List.mem_toFinset, hmem a]
    have : a ∉ (GoMap.orEmpty (New ([] : List T)).data).keys := by
      simp [New, Set.Add, Set.init, GoMap.orEmpty, GoMap.keys, GoMap.empty]
    tauto
  rw [← hset, List.toFinset_card_of_nodup hnd]
  simp [Set.Length, GoMap.len, GoMap.keys]

end set

namespace maps

open types

namespace WeightedMap

variable {K V : Type} [DecidableEq K] [Inhabited V]

/-- The specification groups of a key sequence in which weights never increase: every group
is non-empty and of one weight, the groups in order make up the sequence, and a later
group has a smaller weight than an earlier one. -/
theorem specGroups_props (m : WeightedMap K V) (ks : List K) :
    ∀ (rgs : List (List K)) (processed : List K),
      (∀ g ∈ rgs, g ≠ [] ∧ ∀ x ∈ g, ∀ y ∈ g, m.weightOf x = m.weightOf y) →
      rgs.reverse.flatten = processed →
      rgs.Pairwise (fun g h => ∀ x ∈ g, ∀ y ∈ h, m.weightOf x < m.weightOf y) →
      (processed ++ ks).Pairwise (fun a b => m.weightOf a ≥ m.weightOf b) →
      (∀ g ∈ ks.foldl m.specGroupStep rgs,
        g ≠ [] ∧ ∀ x ∈ g, ∀ y ∈ g, m.weightOf x = m.weightOf y) ∧
      (ks.foldl m.specGroupStep rgs).reverse.flatten = processed ++ ks ∧
      (ks.foldl m.specGroupStep rgs).Pairwise
        (fun g h => ∀ x ∈ g, ∀ y ∈ h, m.weightOf x < m.weightOf y) := by
  induction ks with
  | nil => intro rgs processed h1 h2 h3 _; simpa using ⟨h1, h2, h3⟩
  | cons k ks ih =>
    intro rgs processed h1 h2 h3 h4
    have hk : ∀ x ∈ processed, m.weightOf x ≥ m.weightOf k := by
      intro x hx
      rw [List.pairwise_append] at h4
      exact h4.2.2 x hx k (by simp)
    have h4' : ((processed ++ [k]) ++ ks).Pairwise (fun a b => m.weightOf a ≥ m.weightOf b) := by
      simpa using h4
    have hmem : ∀ g ∈ rgs, ∀ x ∈ g, x ∈ processed := by
      intro g hg x hx
      rw [← h2]
      exact List.mem_flatten.mpr ⟨g, List.mem_reverse.mpr hg, hx⟩
    rw [List.foldl_cons]
    have hgoal : (processed ++ k :: ks) = (processed ++ [k]) ++ ks := by simp
    rw [hgoal]
    match rgs, h1, h2, h3, hmem with
    | [], _, h2, _, _ =>
      apply ih [[k]] (processed ++ [k]) _ _ _ h4'
      · intro g hg
        simp only [List.mem_singleton] at hg
        subst hg
        exact ⟨by simp, by simp⟩
      · have hp : processed = [] := by simpa using h2.symm
        subst hp
        rfl
      · simp
    | [] :: rest, h1, _, _, _ => exact absurd rfl (h1 [] (by simp)).1
    | (a :: g) :: rest, h1, h2, h3, hmem =>
      have ha : ∀ x ∈ a :: g, m.weightOf x = m.weightOf a :=
        fun x hx => (h1 (a :: g) (by simp)).2 x hx a (by simp)
      rw [List.pairwise_cons] at h3
      by_cases hw : m.weightOf a = m.weightOf k
      · simp only [specGroupStep, if_pos hw]
        apply ih _ (processed ++ [k]) _ _ _ h4'
        · intro g' hg'
          rcases List.mem_cons.mp hg' with h | h
          · subst h
            refine ⟨by simp, ?_⟩
            intro x hx y hy
            have hx' : m.weightOf x = m.weightOf a := by
              rcases List.mem_append.mp hx with h | h
              · exact ha x h
              · simp only [List.mem_singleton] at h; rw [h, hw]
            have hy' : m.weightOf y = m.weightOf a := by
              rcases List.mem_append.mp hy with h | h
              · exact ha y h
              · simp only [List.mem_singleton] at h; rw [h, hw]
            rw [hx', hy']
          · exact h1 g' (by simp [h])
        · simp only [List.reverse_cons, List.flatten_append, List.flatten_cons,
            List.flatten_nil, List.append_nil] at h2 ⊢
          rw [← h2]
          simp
        · rw [List.pairwise_cons]
          refine ⟨?_, h3.2⟩
          intro h hh x hx y hy
          rcases List.mem_append.mp hx with hx | hx
          · exact h3.1 h hh x hx y hy
          · simp only [List.mem_singleton] at hx
            rw [hx, ← hw]
            exact h3.1 h hh a (by simp) y hy
      · simp only [specGroupStep, if_neg hw]
        apply ih _ (processed ++ [k]) _ _ _ h4'
        · intro g' hg'
          rcases List.mem_cons.mp hg' with h | h
          · subst h
            exact ⟨by simp, by simp⟩
          · exact h1 g' h
        · simp only [List.reverse_cons, List.flatten_append, List.flatten_cons,
            List.flatten_nil, List.append_nil] at h2 ⊢
          rw [← h2]
        · rw [List.pairwise_cons]
          refine ⟨?_, List.pairwise_cons.mpr h3⟩
          intro h hh x hx y hy
          simp only [List.mem_singleton] at hx
          subst hx
          have hka : m.weightOf x < m.weightOf a := by
            have := hk a (hmem (a :: g) (by simp) a (by simp))
            omega
          rcases List.mem_cons.mp hh with hh | hh
          · subst hh
            rw [ha y hy]; exact hka
          · exact Nat.lt_trans hka (h3.1 h hh a (by simp) y hy)

end WeightedMap

end maps

namespace maps

open types

namespace WeightedMap

variable {K V : Type} [DecidableEq K] [Inhabited V]

/-- The weight count that `sort` computes is the number of distinct weights of the entries. -/
theorem weightCount_sort (ro : RangeOrder) (m : WeightedMap K V) (h : m.sorted = false) :
    (m.sort ro).weightCount =
      ((GoMap.orEmpty m.data).entries.map (fun p => p.2.Weight)).toFinset.card := by
  have hcount : (m.sort ro).weightCount =
      (((GoMap.orEmpty m.data).range ro).map (fun p => p.2.Weight)).toFinset.card := by
    unfold sort
    rw [if_neg (by simp [h])]
    exact set.Set.Length_New_foldl_Add (fun (p : K × Weighted V) => p.2.Weight) _
  rw [hcount]
  exact congrArg Finset.card
    (List.toFinset_eq_of_perm _ _ ((GoMap.range_perm ro (GoMap.orEmpty m.data)).map _))

theorem weightOf_entry (m : WeightedMap K V) (p : K × Weighted V)
    (hp : p ∈ (GoMap.orEmpty m.data).entries) : m.weightOf p.1 = p.2.Weight := by
  have h : (GoMap.orEmpty m.data).get? p.1 = some p.2 :=
    (GoMap.lookupEntry_eq_some _ (GoMap.orEmpty m.data).nodup p.1 p.2).mpr hp
  unfold weightOf GoMap.get
  rw [h]
  rfl

/-- The number of groups of one weight each, with strictly decreasing weights, that make up
a rearrangement of the keys is the number of distinct weights of the entries. -/
theorem length_groups (m : WeightedMap K V) (groups : List (List K))
    (hperm : groups.flatten.Perm (GoMap.orEmpty m.data).keys)
    (huni : ∀ g ∈ groups, g ≠ [] ∧ ∀ x ∈ g, ∀ y ∈ g, m.weightOf x = m.weightOf y)
    (hdec : groups.Pairwise (fun g h => ∀ x ∈ g, ∀ y ∈ h, m.weightOf x > m.weightOf y)) :
    groups.length =
      ((GoMap.orEmpty m.data).entries.map (fun p => p.2.Weight)).toFinset.card := by
  have hhead : ∀ g ∈ groups, ∃ a, a ∈ g ∧
      (match g with
        | a :: _ => m.weightOf a
        | [] => 0) = m.weightOf a := by
    intro g hg
    match g, (huni g hg).1 with
    | a :: _, _ => exact ⟨a, by simp, rfl⟩
  have hnd : (groups.map (fun g => match g with
      | a :: _ => m.weightOf a
      | [] => 0)).Nodup := by
    rw [List.Nodup, List.pairwise_map]
    refine List.Pairwise.imp_of_mem ?_ hdec
    intro g h hg hh hgh heq
    obtain ⟨a, ha, hwa⟩ := hhead g hg
    obtain ⟨b, hb, hwb⟩ := hhead h hh
    have := hgh a ha b hb
    rw [hwa, hwb] at heq
    omega
  have hset : (groups.map (fun g => match g with
      | a :: _ => m.weightOf a
      | [] => 0)).toFinset =
      ((GoMap.orEmpty m.data).entries.map (fun p => p.2.Weight)).toFinset := by
    ext c
    simp only [List.mem_toFinset, List.mem_map]
    constructor
    · rintro ⟨g, hg, hc⟩
      obtain ⟨a, ha, hwa⟩ := hhead g hg
      have hak : a ∈ (GoMap.orEmpty m.data).keys :=
        hperm.mem_iff.mp (List.mem_flatten.mpr ⟨g, hg, ha⟩)
      obtain ⟨p, hp, hpa⟩ := List.mem_map.mp hak
      refine ⟨p, hp, ?_⟩
      rw [← weightOf_entry m p hp, hpa, ← hwa, hc]
    · rintro ⟨p, hp, hc⟩
      have hpk : p.1 ∈ groups.flatten :=
        hperm.mem_iff.mpr (List.mem_map.mpr ⟨p, hp, rfl⟩)
      obtain ⟨g, hg, hpg⟩ := List.mem_flatten.mp hpk
      obtain ⟨a, ha, hwa⟩ := hhead g hg
      refine ⟨g, hg, ?_⟩
      rw [hwa, (huni g hg).2 a ha p.1 hpg, weightOf_entry m p hp, hc]
  rw [← hset, List.toFinset_card_of_nodup hnd, List.length_map]

/-- `WeightIter()` on a map with at least one entry and a cleared sort flag (as every
constructor, `Set`, `SetWeighted`, `Delete` and `Commit` leave it). The call returns; the
outer channel is closed, its buffer size is the weight count computed by `sort`, which is
the number of distinct weights, and it holds as many groups; every group is closed and
holds the pairs (key, plain value) of its keys; the keys of the groups, in order, are
`Keys()`, a rearrangement of the keys of the map; every group is non-empty and of one
weight, and an earlier group has a greater weight than a later one. -/
theorem WeightIter_of_dirty (ro : RangeOrder) (m : WeightedMap K V) (h : m.sorted = false)
    (hne : (GoMap.orEmpty m.data).entries ≠ []) :
    ∃ groups : List (List K),
      (m.WeightIter ro).1 =
        .ok { cap := (m.sort ro).weightCount
              sent := groups.map (m.groupChan true)
              closed := true } ∧
      (m.sort ro).weightCount =
        ((GoMap.orEmpty m.data).entries.map (fun p => p.2.Weight)).toFinset.card ∧
      groups.length = (m.sort ro).weightCount ∧
      groups.flatten = (m.Keys ro).1 ∧
      groups.flatten.Perm (GoMap.orEmpty m.data).keys ∧
      (∀ g ∈ groups, g ≠ [] ∧ ∀ x ∈ g, ∀ y ∈ g, m.weightOf x = m.weightOf y) ∧
      groups.Pairwise (fun g h => ∀ x ∈ g, ∀ y ∈ h, m.weightOf x > m.weightOf y) := by
  obtain ⟨_, hdata, hperm, hsorted⟩ := weighted_sort_of_dirty ro m h
  have hw : ∀ k, (m.sort ro).weightOf k = m.weightOf k := by
    intro k; unfold weightOf; rw [hdata]
  have hgc : (m.sort ro).groupChan true = m.groupChan true := by
    funext g
    unfold groupChan Get
    rw [hdata]
  have hsorted' : ([] ++ (m.sort ro).sortedKeys).Pairwise
      (fun a b => (m.sort ro).weightOf a ≥ (m.sort ro).weightOf b) := by
    simp only [List.nil_append, hw]
    exact hsorted
  obtain ⟨p1, p2, p3⟩ := specGroups_props (m.sort ro) (m.sort ro).sortedKeys [] []
    (fun g hg => by simp at hg) rfl List.Pairwise.nil hsorted'
  obtain ⟨hloop, _⟩ := weightIterLoop_stateOfGroups (m.sort ro) (m.sort ro).weightCount
    (m.sort ro).sortedKeys [] (fun g hg => by simp at hg)
  have hks : (m.sort ro).sortedKeys ≠ [] := by
    intro h0
    rw [h0] at hperm
    have := hperm.length_eq
    simp only [List.length_nil, GoMap.keys, List.length_map] at this
    exact hne (List.length_eq_zero.mp this.symm)
  simp only [List.nil_append] at p2
  have hperm' : ((m.sort ro).sortedKeys.foldl (m.sort ro).specGroupStep []).reverse.flatten.Perm
      (GoMap.orEmpty m.data).keys := by
    rw [p2]; exact hperm
  have huni : ∀ g ∈ ((m.sort ro).sortedKeys.foldl (m.sort ro).specGroupStep []).reverse,
      g ≠ [] ∧ ∀ x ∈ g, ∀ y ∈ g, m.weightOf x = m.weightOf y := by
    intro g hg
    have := p1 g (List.mem_reverse.mp hg)
    simpa only [hw] using this
  have hdec : ((m.sort ro).sortedKeys.foldl (m.sort ro).specGroupStep []).reverse.Pairwise
      (fun g h => ∀ x ∈ g, ∀ y ∈ h, m.weightOf x > m.weightOf y) := by
    rw [List.pairwise_reverse]
    refine p3.imp ?_
    intro g h hgh x hx y hy
    have := hgh y hy x hx
    rw [hw, hw] at this
    exact this
  refine ⟨((m.sort ro).sortedKeys.foldl (m.sort ro).specGroupStep []).reverse, ?_,
    weightCount_sort ro m h, ?_, p2, hperm', huni, hdec⟩
  · cases hrgs : (m.sort ro).sortedKeys.foldl (m.sort ro).specGroupStep [] with
    | nil => rw [hrgs] at p2; exact absurd p2.symm hks
    | cons g rest =>
      rw [hrgs] at hloop
      have hloop' : (m.sort ro).weightIterLoop (m.sort ro).sortedKeys
          { heap := [], weightChan := Chan.make (m.sort ro).weightCount, iter := none,
            lastWeight := -1 } =
          .ok ((m.sort ro).stateOfGroups (m.sort ro).weightCount (g :: rest)) := hloop
      have hc := closeRef_last (rest.reverse.map ((m.sort ro).groupChan true))
        ((m.sort ro).groupChan false g) rfl
      simp only [List.length_map, List.length_reverse] at hc
      unfold WeightIter
      simp only [hloop', stateOfGroups, hc, Chan.close, Bool.false_eq_true, if_false]
      have hheap : rest.reverse.map ((m.sort ro).groupChan true) ++
          [{ (m.sort ro).groupChan false g with closed := true }] =
          (g :: rest).reverse.map (m.groupChan true) := by
        rw [← hgc]
        simp [groupChan]
      rw [hheap]
      have hlen : rest.length + 1 = ((g :: rest).reverse.map (m.groupChan true)).length := by
        simp
      rw [hlen, range_map_getD]
  · rw [length_groups m _ hperm' huni hdec, weightCount_sort ro m h]

end WeightedMap

end maps

/-! ## The claims on WeightedMap -/

/-- C7 (fails on the code): `Keys()` and `Values()` of a `WeightedMap` answer from a stale
cache after a decode. A map holding `"a"` (value `"x"`, weight 5) answers `Keys()` with
`["a"]`; unmarshalling a payload that decodes to `b: "y", c: "z"` then succeeds and leaves
the backing map with the keys `b, c`, but the sorted flag stays set: the next `Keys()` is
still `["a"]`, which is no rearrangement of the current keys, and `Values()` is two zero
values. -/
theorem WeightedMap_Keys_stale_after_unmarshal :
    ((maps.NewWeighted (some (GoMap.ofList [("a", (⟨"x", 5⟩ : types.Weighted String))]))).Keys
        RangeOrder.asStored).1 = ["a"] ∧
      ((((maps.NewWeighted (some (GoMap.ofList [("a", (⟨"x", 5⟩ : types.Weighted String))]))).Keys
        RangeOrder.asStored).2.unmarshal RangeOrder.asStored
          (fun (_ : Unit) _ => (.ok (some (GoMap.ofList [("b", "y"), ("c", "z")])) :
            Except Unit (Option (GoMap String String)))) ()).1 = none) ∧
      (GoMap.orEmpty
        (((maps.NewWeighted (some (GoMap.ofList [("a", (⟨"x", 5⟩ : types.Weighted String))]))).Keys
          RangeOrder.asStored).2.unmarshal RangeOrder.asStored
            (fun (_ : Unit) _ => (.ok (some (GoMap.ofList [("b", "y"), ("c", "z")])) :
              Except Unit (Option (GoMap String String)))) ()).2.data).keys = ["b", "c"] ∧
      (((((maps.NewWeighted (some (GoMap.ofList [("a", (⟨"x", 5⟩ : types.Weighted String))]))).Keys
        RangeOrder.asStored).2.unmarshal RangeOrder.asStored
          (fun (_ : Unit) _ => (.ok (some (GoMap.ofList [("b", "y"), ("c", "z")])) :
            Except Unit (Option (GoMap String String)))) ()).2.Keys RangeOrder.asStored).1
        = ["a"]) ∧
      (((((maps.NewWeighted (some (GoMap.ofList [("a", (⟨"x", 5⟩ : types.Weighted String))]))).Keys
        RangeOrder.asStored).2.unmarshal RangeOrder.asStored
          (fun (_ : Unit) _ => (.ok (some (GoMap.ofList [("b", "y"), ("c", "z")])) :
            Except Unit (Option (GoMap String String)))) ()).2.Values RangeOrder.asStored).1
        = some ["", ""]) := by
  decide

/-- C8 (fails on the code): `WeightIter()` of a non-empty `WeightedMap` answers from a stale
cache after a decode. On the map of C7 (`"a"` with weight 5, read by `Keys()`, then decoded
into from a payload `b: "y", c: "z"`), whose entries are `b` and `c`, `WeightIter()` yields
one group that holds the pair of the absent key `"a"` and a zero value, and neither `b`
nor `c`. -/
theorem WeightedMap_WeightIter_stale_after_unmarshal :
    (GoMap.orEmpty
        (((maps.NewWeighted (some (GoMap.ofList [("a", (⟨"x", 5⟩ : types.Weighted String))]))).Keys
          RangeOrder.asStored).2.unmarshal RangeOrder.asStored
            (fun (_ : Unit) _ => (.ok (some (GoMap.ofList [("b", "y"), ("c", "z")])) :
              Except Unit (Option (GoMap String String)))) ()).2.data).entries =
        [("b", ⟨"y", 0⟩), ("c", ⟨"z", 0⟩)] ∧
      (((((maps.NewWeighted (some (GoMap.ofList [("a", (⟨"x", 5⟩ : types.Weighted String))]))).Keys
        RangeOrder.asStored).2.unmarshal RangeOrder.asStored
          (fun (_ : Unit) _ => (.ok (some (GoMap.ofList [("b", "y"), ("c", "z")])) :
            Except Unit (Option (GoMap String String)))) ()).2.WeightIter
              RangeOrder.asStored).1.toOption
        = some ⟨1, [⟨2, [⟨"a", ""⟩], true⟩], true⟩) := by
  decide

/-- C9 (fails on the code): `WeightIter()` on a `WeightedMap` with no entries panics. For a
map made from a nil mapping and for one made from an empty mapping, whatever the order of
`range`, the goroutine skips its loop and runs `close(iter)` on the nil channel `iter`. -/
theorem WeightedMap_WeightIter_panics_on_empty {K V : Type} [DecidableEq K] [Inhabited V]
    (ro : RangeOrder) :
    ((maps.NewWeighted (none : Option (GoMap K (types.Weighted V)))).WeightIter ro).1 =
        .error .panic ∧
      ((maps.NewWeighted (some (GoMap.empty : GoMap K (types.Weighted V)))).WeightIter ro).1 =
        .error .panic :=
  ⟨maps.WeightedMap.WeightIter_of_empty ro _ rfl rfl,
    maps.WeightedMap.WeightIter_of_empty ro _ rfl rfl⟩

/-- C10: serialization of a `WeightedMap` discards weights and decoding restores them only
from the receiver. `marshal` hands the codec the map of the plain values of `x` and returns
the codec's result; and for a codec that decodes what it encoded to a map with the same
content, unmarshalling the bytes of `x` into a map `y` that is not read-only returns no
error and leaves `y` with exactly the keys and values of `x`, each key with the weight it
had in `y` before, or 0 if `y` did not have it. -/
theorem WeightedMap_marshal_unmarshal {K V E B : Type} [DecidableEq K] [Inhabited V]
    (x y : maps.WeightedMap K V) (marsh : types.MarshalFunc E B (GoMap K V))
    (unmarsh : types.UnmarshalFunc E B (Option (GoMap K V))) (ro ro' : RangeOrder)
    (hro : y.readonly = false)
    (hcodec : ∀ (raw : GoMap K V) (bytes : B), marsh raw = .ok bytes →
      ∃ decoded, unmarsh bytes none = .ok decoded ∧
        ∀ k, (GoMap.orEmpty decoded).get? k = raw.get? k) :
    (∃ rawMap : GoMap K V,
      (∀ k, rawMap.get? k = ((GoMap.orEmpty x.data).get? k).map (fun w => w.Value)) ∧
      (x.marshal ro marsh).1 =
        (match marsh rawMap with
        | .error e => .error (.codec e)
        | .ok bytes => .ok bytes)) ∧
    ∀ bytes, (x.marshal ro marsh).1 = .ok bytes →
      (y.unmarshal ro' unmarsh bytes).1 = none ∧
      ∀ k, (GoMap.orEmpty (y.unmarshal ro' unmarsh bytes).2.data).get? k =
        ((GoMap.orEmpty x.data).get? k).map (fun w =>
          (⟨w.Value, match (GoMap.orEmpty y.data).get? k with
            | some old => old.Weight
            | none => 0⟩ : types.Weighted V)) := by
  obtain ⟨rawMap, h1, h2, _⟩ := maps.WeightedMap.marshal_payload ro x marsh
  refine ⟨⟨rawMap, h1, h2⟩, ?_⟩
  intro bytes hb
  have hm : marsh rawMap = .ok bytes := by
    rw [h2] at hb
    cases hr : marsh rawMap with
    | error e => rw [hr] at hb; cases hb
    | ok b => rw [hr] at hb; cases hb; rfl
  obtain ⟨decoded, hd1, hd2⟩ := hcodec rawMap bytes hm
  obtain ⟨g1, _, _, g4⟩ := maps.WeightedMap.unmarshal_of_decoded ro' y unmarsh bytes decoded
    hro hd1
  refine ⟨g1, ?_⟩
  intro k
  rw [g4 k, hd2 k, h1 k]
  cases (GoMap.orEmpty x.data).get? k <;> rfl

/-- Witness of C10: the codec whose bytes are the map itself; `x` holds `a: "x"` with
weight 5, and `y` holds `a` with weight 7 and `b` with weight 3. After the round trip `y`
holds `a: "x"` with weight 7 and no `b`. -/
theorem WeightedMap_marshal_unmarshal_witness :
    (maps.NewWeighted (some (GoMap.ofList
        [("a", (⟨"old", 7⟩ : types.Weighted String)), ("b", ⟨"old", 3⟩)]))).readonly = false ∧
      (GoMap.orEmpty ((maps.NewWeighted (some (GoMap.ofList
        [("a", (⟨"old", 7⟩ : types.Weighted String)), ("b", ⟨"old", 3⟩)]))).unmarshal
          RangeOrder.backwards
          (fun (bytes : GoMap String String) _ =>
            (.ok (some bytes) : Except Unit (Option (GoMap String String))))
          (GoMap.ofList [("a", "x")])).2.data).get? "a" = some ⟨"x", 7⟩ ∧
      (GoMap.orEmpty ((maps.NewWeighted (some (GoMap.ofList
        [("a", (⟨"old", 7⟩ : types.Weighted String)), ("b", ⟨"old", 3⟩)]))).unmarshal
          RangeOrder.backwards
          (fun (bytes : GoMap String String) _ =>
            (.ok (some bytes) : Except Unit (Option (GoMap String String))))
          (GoMap.ofList [("a", "x")])).2.data).get? "b" = none :=
  have h := (WeightedMap_marshal_unmarshal
    (maps.NewWeighted (some (GoMap.ofList [("a", (⟨"x", 5⟩ : types.Weighted String))])))
    (maps.NewWeighted (some (GoMap.ofList
      [("a", (⟨"old", 7⟩ : types.Weighted String)), ("b", ⟨"old", 3⟩)])))
    (fun (raw : GoMap String String) => (.ok raw : Except Unit (GoMap String String)))
    (fun (bytes : GoMap String String) _ =>
      (.ok (some bytes) : Except Unit (Option (GoMap String String))))
    RangeOrder.asStored RangeOrder.backwards rfl
    (fun raw bytes hb => ⟨some raw, by cases hb; rfl, fun _ => rfl⟩)).2
      (GoMap.ofList [("a", "x")]) (by rfl)
  ⟨rfl, (h.2 "a").trans (by decide), (h.2 "b").trans (by decide)⟩

/-! ## Map -/

namespace GoMap

variable {K V : Type} [DecidableEq K]

theorem len_set (m : GoMap K V) (k : K) (v : V) :
    (m.set k v).len = if (m.get? k).isSome then m.len else m.len + 1 := by
  have hlen := length_setEntry k v m.entries
  by_cases h : (m.get? k).isSome = true
  · have hk : k ∈ m.entries.map Prod.fst := (mem_keys m k).mpr h
    rw [if_pos hk] at hlen
    rw [if_pos h]
    exact hlen
  · have hk : k ∉ m.entries.map Prod.fst := fun hk => h ((mem_keys m k).mp hk)
    rw [if_neg hk] at hlen
    rw [if_neg h]
    exact hlen

theorem length_deleteEntry (k : K) (l : List (K × V)) (hnd : (l.map Prod.fst).Nodup) :
    (deleteEntry k l).length = if k ∈ l.map Prod.fst then l.length - 1 else l.length := by
  induction l with
  | nil => simp [deleteEntry]
  | cons p rest ih =>
    rw [List.map_cons, List.nodup_cons] at hnd
    have ih' := ih hnd.2
    unfold deleteEntry at ih' ⊢
    by_cases hp : p.1 = k
    · have hk : k ∉ rest.map Prod.fst := hp ▸ hnd.1
      rw [List.filter_cons_of_neg (by simp [hp]), ih', if_neg hk]
      simp [hp]
    · have hkp : ¬ k = p.1 := fun e => hp e.symm
      rw [List.filter_cons_of_pos (by simp [hp]), List.length_cons, ih']
      by_cases hk : k ∈ rest.map Prod.fst
      · have hpos : 0 < rest.length := by
          cases rest with
          | nil => simp at hk
          | cons _ _ => simp
        simp only [hk, if_true, List.map_cons, List.mem_cons, or_true, List.length_cons]
        omega
      · simp only [hk, if_false, List.map_cons, List.mem_cons, hkp, or_self, List.length_cons]

theorem len_delete (m : GoMap K V) (k : K) :
    (m.delete k).len = if (m.get? k).isSome then m.len - 1 else m.len := by
  have hlen := length_deleteEntry k m.entries m.nodup
  by_cases h : (m.get? k).isSome = true
  · have hk : k ∈ m.entries.map Prod.fst := (mem_keys m k).mpr h
    rw [if_pos hk] at hlen
    rw [if_pos h]
    exact hlen
  · have hk : k ∉ m.entries.map Prod.fst := fun hk => h ((mem_keys m k).mp hk)
    rw [if_neg hk] at hlen
    rw [if_neg h]
    exact hlen

/-- Two maps that answer every lookup alike have the same number of entries. -/
theorem len_eq_of_get?_eq (a b : GoMap K V) (h : ∀ k, a.get? k = b.get? k) : a.len = b.len := by
  have hperm : (a.entries.map Prod.fst).Perm (b.entries.map Prod.fst) := by
    apply (List.perm_ext_iff_of_nodup a.nodup b.nodup).mpr
    intro k
    have ha := mem_keys a k
    have hb := mem_keys b k
    unfold keys at ha hb
    rw [ha, hb, h k]
  have hl := hperm.length_eq
  simp only [List.length_map] at hl
  exact hl

/-- In an association list without repeated keys each entry is found under its key. -/
theorem lookupEntry_of_mem (l : List (K × V)) (hnd : (l.map Prod.fst).Nodup) (p : K × V)
    (hp : p ∈ l) : lookupEntry p.1 l = some p.2 :=
  (lookupEntry_eq_some l hnd p.1 p.2).mpr hp

/-- The entries a `range` loop visits are the pairs of a visited key and the value stored
under it. -/
theorem range_eq_map_keys [Inhabited V] (ro : RangeOrder) (m : GoMap K V) :
    m.range ro = ((m.range ro).map Prod.fst).map (fun k => (k, m.get k)) := by
  rw [List.map_map]
  symm
  conv => rhs; rw [← List.map_id (m.range ro)]
  apply List.map_congr_left
  intro p hp
  have hmem : p ∈ m.entries := (range_perm ro m).mem_iff.mp hp
  have hl := lookupEntry_of_mem m.entries m.nodup p hmem
  simp only [Function.comp, get, get?, hl, Option.getD_some, id]

theorem len_range (ro : RangeOrder) (m : GoMap K V) : (m.range ro).length = m.len :=
  (range_perm ro m).length_eq

theorem len_orEmpty_none : (orEmpty (none : Option (GoMap K V))).len = 0 := rfl

end GoMap

theorem sendAll_open {α : Type} (xs : List α) :
    ∀ (c : Chan α), c.closed = false →
      maps.sendAll c xs = .ok { cap := c.cap, sent := c.sent ++ xs, closed := false } := by
  induction xs with
  | nil =>
    intro c hc
    cases c with
    | mk cap sent closed =>
      simp only at hc
      simp [maps.sendAll, hc]
  | cons x xs ih =>
    intro c hc
    simp only [maps.sendAll, Chan.send, hc, Bool.false_eq_true, if_false]
    rw [ih _ rfl]
    simp

namespace maps

open types

namespace Map

variable {K V : Type} [DecidableEq K] [Inhabited V]

theorem map_data_init (m : Map K V) : GoMap.orEmpty m.init.data = GoMap.orEmpty m.data := by
  obtain ⟨d, ro, lk, hb⟩ := m
  cases d <;> rfl

theorem map_publish_data (m : Map K V) (msg : WatchMsg K V) : (m.publish msg).data = m.data := by
  unfold publish
  cases m.Hub <;> rfl

/-- The backing map after `Set` on a map that is not read-only. -/
theorem map_Set_data (m : Map K V) (k : K) (v : V) (hro : m.readonly = false) :
    GoMap.orEmpty (m.Set k v).data = (GoMap.orEmpty m.data).set k v := by
  unfold Set
  rw [if_neg (by simp [hro])]
  simp only [map_publish_data, GoMap.orEmpty]
  exact congrArg (fun d => GoMap.set d k v) (map_data_init m)

/-- The backing map after `Delete` on a map that is not read-only. -/
theorem map_Delete_data (m : Map K V) (k : K) (hro : m.readonly = false) :
    GoMap.orEmpty (m.Delete k).data = (GoMap.orEmpty m.data).delete k := by
  unfold Delete
  rw [if_neg (by simp [hro])]
  simp only [map_publish_data]
  cases m.data <;> rfl

theorem map_Set_readonly (m : Map K V) (k : K) (v : V) : (m.Set k v).readonly = m.readonly := by
  unfold Set
  by_cases h : m.readonly = true
  · rw [if_pos h]
  · rw [if_neg h]
    obtain ⟨d, ro, lk, hb⟩ := m
    cases d <;> cases hb <;> rfl

/-- What the reads return is fixed by the lookups of the backing map. -/
theorem reads_of_get? (m m' : Map K V) (k : K)
    (h : (GoMap.orEmpty m'.data).get? k = (GoMap.orEmpty m.data).get? k) :
    m'.Get k = m.Get k ∧ m'.Exists k = m.Exists k ∧ m'.GetFull k = m.GetFull k := by
  simp only [Get, Exists, GetFull, GoMap.get, h, and_self]

end Map

end maps

/-- C15: `Map.Set` stores the value under the key and touches no other key. For every map
that is not read-only (also one created from a nil mapping), key `k` and value `v`: the
call `Set(k, v)`, run with its lock steps and with the panic of an assignment to a nil
map, on a map whose lock is nil or free, returns without fault and leaves the map `Set`
stands for here, because `init` has made the backing map; and after `Set(k, v)`, `Get(k)`
is `v`, `Exists(k)` is true, `GetFull(k)` is `(v, true)`, `Len()` is the previous length
plus one if `k` was absent and the previous length otherwise, and for every other key
`Get`, `Exists` and `GetFull` return what they returned before. -/
theorem Map_Set_stores {K V : Type} [DecidableEq K] [Inhabited V] (m : maps.Map K V) (k : K)
    (v : V) (hro : m.readonly = false) :
    ((m.lock = none ∨ m.lock = some utils.Lock.new) → m.lockedSet k v = .ok (m.Set k v)) ∧
      (m.Set k v).Get k = v ∧ (m.Set k v).Exists k = true ∧
      (m.Set k v).GetFull k = (v, true) ∧
      (m.Set k v).Len = (if m.Exists k then m.Len else m.Len + 1) ∧
      ∀ k', k' ≠ k →
        (m.Set k v).Get k' = m.Get k' ∧ (m.Set k v).Exists k' = m.Exists k' ∧
          (m.Set k v).GetFull k' = m.GetFull k' := by
  have hd := maps.Map.map_Set_data m k v hro
  have hk : (GoMap.orEmpty (m.Set k v).data).get? k = some v := by
    rw [hd, GoMap.get?_set, if_pos rfl]
  refine ⟨?_, ?_, ?_, ?_, ?_, ?_⟩
  · intro hlock
    obtain ⟨d, ro, lk, hb⟩ := m
    simp only at hlock
    rcases hlock with h | h <;> subst h <;> cases ro <;> cases d <;> cases hb <;> rfl
  · simp [maps.Map.Get, GoMap.get, hk]
  · simp [maps.Map.Exists, hk]
  · simp [maps.Map.GetFull, hk]
  · simp only [maps.Map.Len, maps.Map.Exists, hd, GoMap.len_set]
  · intro k' hk'
    apply maps.Map.reads_of_get?
    rw [hd, GoMap.get?_set, if_neg hk']

/-- Witness of C15: a map created from a nil mapping, which has no lock, and
`Set(1, "x")`: the call returns without fault, and the map holds `x` under 1. -/
theorem Map_Set_stores_witness :
    (maps.New (none : Option (GoMap Nat String))).readonly = false ∧
      ((maps.New (none : Option (GoMap Nat String))).lock = none ∨
        (maps.New (none : Option (GoMap Nat String))).lock = some utils.Lock.new) ∧
      ((maps.New (none : Option (GoMap Nat String))).lockedSet 1 "x").map
        (fun m => (m.Get 1, m.Len)) = .ok ("x", 1) ∧
      ((maps.New (none : Option (GoMap Nat String))).Set 1 "x").Get 1 = "x" ∧
      ((maps.New (none : Option (GoMap Nat String))).Set 1 "x").Len = 1 :=
  ⟨rfl, Or.inl rfl, rfl,
    (Map_Set_stores (maps.New (none : Option (GoMap Nat String))) 1 "x" rfl).2.1,
    (Map_Set_stores (maps.New (none : Option (GoMap Nat String))) 1 "x" rfl).2.2.2.2.1.trans
      (by decide)⟩

/-- C16: `Map.Delete` removes the key and touches no other key. For every map that is not
read-only and every key `k`: after `Delete(k)`, `Exists(k)` is false, `Get(k)` is the zero
value, `GetFull(k)` is `(zero value, false)`, `Len()` is the previous length minus one if
`k` was present and the previous length otherwise, and for every other key `Get`, `Exists`
and `GetFull` return what they returned before; and if the map is empty, `Set(k, v)`
followed by `Delete(k)` leaves `Len()` at 0. -/
theorem Map_Delete_removes {K V : Type} [DecidableEq K] [Inhabited V] (m : maps.Map K V)
    (k : K) (v : V) (hro : m.readonly = false) :
    (m.Delete k).Exists k = false ∧ (m.Delete k).Get k = default ∧
      (m.Delete k).GetFull k = (default, false) ∧
      (m.Delete k).Len = (if m.Exists k then m.Len - 1 else m.Len) ∧
      (∀ k', k' ≠ k →
        (m.Delete k).Get k' = m.Get k' ∧ (m.Delete k).Exists k' = m.Exists k' ∧
          (m.Delete k).GetFull k' = m.GetFull k') ∧
      (m.Len = 0 → ((m.Set k v).Delete k).Len = 0) := by
  have hd := maps.Map.map_Delete_data m k hro
  have hk : (GoMap.orEmpty (m.Delete k).data).get? k = none := by
    rw [hd, GoMap.get?_delete, if_pos rfl]
  refine ⟨?_, ?_, ?_, ?_, ?_, ?_⟩
  · simp [maps.Map.Exists, hk]
  · simp [maps.Map.Get, GoMap.get, hk]
  · simp [maps.Map.GetFull, hk]
  · simp only [maps.Map.Len, maps.Map.Exists, hd, GoMap.len_delete]
  · intro k' hk'
    apply maps.Map.reads_of_get?
    rw [hd, GoMap.get?_delete, if_neg hk']
  · intro hlen
    have hro' : (m.Set k v).readonly = false := by rw [maps.Map.map_Set_readonly, hro]
    have hd' := maps.Map.map_Delete_data (m.Set k v) k hro'
    have hs := maps.Map.map_Set_data m k v hro
    have hlen' : (GoMap.orEmpty m.data).len = 0 := hlen
    have habs : ((GoMap.orEmpty m.data).get? k).isSome = false := by
      cases hg : (GoMap.orEmpty m.data).get? k with
      | none => rfl
      | some x =>
        exfalso
        have hmem : k ∈ (GoMap.orEmpty m.data).keys := by
          rw [GoMap.mem_keys, hg]; rfl
        have : (GoMap.orEmpty m.data).keys = [] := by
          have h0 : (GoMap.orEmpty m.data).entries.length = 0 := hlen'
          simp [GoMap.keys, List.length_eq_zero.mp h0]
        rw [this] at hmem
        cases hmem
    simp only [maps.Map.Len, hd', hs, GoMap.len_delete, GoMap.get?_set, if_true, Option.isSome_some,
      GoMap.len_set, habs, hlen', Bool.false_eq_true, if_false]

/-- Witness of C16: the empty map created from a nil mapping, and the key 1. -/
theorem Map_Delete_removes_witness :
    (maps.New (none : Option (GoMap Nat String))).readonly = false ∧
      ((maps.New (none : Option (GoMap Nat String))).Delete 1).Exists 1 = false ∧
      (((maps.New (none : Option (GoMap Nat String))).Set 1 "x").Delete 1).Len = 0 :=
  ⟨rfl, (Map_Delete_removes (maps.New (none : Option (GoMap Nat String))) 1 "x" rfl).1,
    (Map_Delete_removes (maps.New (none : Option (GoMap Nat String))) 1 "x" rfl).2.2.2.2.2 rfl⟩

/-- C17: the enumerations of a `Map` are complete snapshots without repetition. For every
map and every iteration order: `Keys()` has length `Len()`, holds no key twice and holds
`k` exactly when `Exists(k)`; `Values()` has length `Len()` and is a rearrangement of the
values stored under the keys; the channel of `Iter()` has received, for the keys in the
order of `Keys()`, the pair of the key and `Get` of the key, and is closed; and `ForEach`
calls its callback on these pairs, once per key. -/
theorem Map_enumeration_snapshot {K V σ : Type} [DecidableEq K] [Inhabited V]
    (m : maps.Map K V) (ro : RangeOrder) (fn : K → V → σ → σ) (s : σ) :
    (m.Keys ro).length = m.Len ∧ (m.Keys ro).Nodup ∧
      (∀ k, k ∈ m.Keys ro ↔ m.Exists k = true) ∧
      (m.Values ro).length = m.Len ∧
      (∀ ro', (m.Values ro).Perm ((m.Keys ro').map (fun k => m.Get k))) ∧
      m.Iter ro = .ok { cap := m.Len, sent := (m.Keys ro).map (fun k => ⟨k, m.Get k⟩),
                        closed := true } ∧
      m.ForEach ro fn s = (m.Keys ro).foldl (fun acc k => fn k (m.Get k) acc) s := by
  have hrange := GoMap.range_eq_map_keys ro (GoMap.orEmpty m.data)
  refine ⟨?_, ?_, ?_, ?_, ?_, ?_, ?_⟩
  · simp [maps.Map.Keys, maps.Map.Len, GoMap.len_range]
  · exact GoMap.range_keys_nodup ro _
  · intro k
    unfold maps.Map.Keys maps.Map.Exists
    rw [(GoMap.range_keys_perm ro (GoMap.orEmpty m.data)).mem_iff, GoMap.mem_keys]
  · simp [maps.Map.Values, maps.Map.Len, GoMap.len_range]
  · intro ro'
    have h1 : (m.Values ro).Perm ((GoMap.orEmpty m.data).entries.map Prod.snd) :=
      (GoMap.range_perm ro _).map _
    have hrange' := GoMap.range_eq_map_keys ro' (GoMap.orEmpty m.data)
    have h2 : (m.Keys ro').map (fun k => m.Get k) =
        ((GoMap.orEmpty m.data).range ro').map Prod.snd := by
      conv => rhs; rw [hrange']
      simp only [maps.Map.Keys, maps.Map.Get, List.map_map]
      rfl
    rw [h2]
    exact h1.trans ((GoMap.range_perm ro' _).map _).symm
  · unfold maps.Map.Iter
    simp only
    rw [sendAll_open _ _ rfl]
    simp only [Chan.close, Chan.make, Bool.false_eq_true, if_false, List.nil_append, maps.Map.Len]
    congr 2
    conv => lhs; rw [hrange]
    simp only [maps.Map.Keys, maps.Map.Get, List.map_map]
    rfl
  · unfold maps.Map.ForEach
    conv => lhs; rw [hrange]
    simp only [maps.Map.Keys, maps.Map.Get, List.foldl_map]

/-! ## Read-only maps, nil receivers and the codec contract -/

namespace maps

open types

namespace Map

variable {K V : Type} [DecidableEq K] [Inhabited V]

/-- On a read-only map `Set`, `Delete` and `Commit` return at their first check. -/
theorem frozen_of_readonly (m : Map K V) (h : m.readonly = true) (k : K) (v : V)
    (fn : GoMap K V → GoMap K V) :
    m.Set k v = m ∧ m.Delete k = m ∧ m.Commit fn = m := by
  simp [Set, Delete, Commit, h]

/-- The method `unmarshal` on a map that is not read-only returns what the codec returns
and stores what the codec leaves in the backing map. -/
theorem unmarshal_of_writable {E B : Type} (m : Map K V)
    (unmarsh : UnmarshalInto E B (Option (GoMap K V))) (data : B) (hro : m.readonly = false) :
    (m.unmarshal unmarsh data).1 = (unmarsh data m.init.data).1.map (fun e => Error.codec e) ∧
      (m.unmarshal unmarsh data).2.data = (unmarsh data m.init.data).2 := by
  unfold unmarshal
  rw [if_neg (by simp [hro])]
  exact ⟨rfl, rfl⟩

/-- The method `marshal` hands the codec the backing map and returns the codec's result. -/
theorem marshal_result {E B : Type} (m : Map K V) (marsh : MarshalFunc E B (GoMap K V)) :
    (m.marshal marsh).1 =
      (match marsh (GoMap.orEmpty m.data) with
      | .error e => .error (.codec e)
      | .ok bytes => .ok bytes) := by
  unfold marshal
  simp only [map_data_init]
  cases marsh (GoMap.orEmpty m.data) <;> rfl

/-- Round trip of a `Map`: for a codec that decodes what it encoded, into an empty map, to
a map with the same content, unmarshalling the bytes of `x` into a map `y` that is empty and
not read-only returns no error and leaves `y` with exactly the content of `x`. -/
theorem marshal_unmarshal_fresh {E B : Type} (x y : Map K V)
    (marsh : MarshalFunc E B (GoMap K V)) (unmarsh : UnmarshalInto E B (Option (GoMap K V)))
    (hro : y.readonly = false) (hfresh : (GoMap.orEmpty y.data).entries = [])
    (hcodec : ∀ (d : GoMap K V) (bytes : B), marsh d = .ok bytes →
      (unmarsh bytes (some GoMap.empty)).1 = none ∧
        ∀ k, (GoMap.orEmpty (unmarsh bytes (some GoMap.empty)).2).get? k = d.get? k)
    (bytes : B) (hb : (x.marshal marsh).1 = .ok bytes) :
    (y.unmarshal unmarsh bytes).1 = none ∧
      (∀ k, (y.unmarshal unmarsh bytes).2.Get k = x.Get k ∧
        (y.unmarshal unmarsh bytes).2.Exists k = x.Exists k ∧
        (y.unmarshal unmarsh bytes).2.GetFull k = x.GetFull k) ∧
      (y.unmarshal unmarsh bytes).2.Len = x.Len := by
  have hm : marsh (GoMap.orEmpty x.data) = .ok bytes := by
    rw [marshal_result] at hb
    cases hr : marsh (GoMap.orEmpty x.data) with
    | error e => rw [hr] at hb; cases hb
    | ok b => rw [hr] at hb; cases hb; rfl
  have hinit : y.init.data = some GoMap.empty := by
    obtain ⟨d, ro, lk, hub⟩ := y
    cases d with
    | none => rfl
    | some d =>
      obtain ⟨entries, nd⟩ := d
      simp only [GoMap.orEmpty] at hfresh
      subst hfresh
      rfl
  obtain ⟨h1, h2⟩ := unmarshal_of_writable y unmarsh bytes hro
  obtain ⟨c1, c2⟩ := hcodec _ bytes hm
  rw [hinit] at h1 h2
  have hget : ∀ k, (GoMap.orEmpty (y.unmarshal unmarsh bytes).2.data).get? k =
      (GoMap.orEmpty x.data).get? k := by
    intro k
    rw [h2]
    exact c2 k
  refine ⟨?_, ?_, ?_⟩
  · rw [h1, c1]; rfl
  · intro k
    exact reads_of_get? x _ k (hget k)
  · exact GoMap.len_eq_of_get?_eq _ _ hget

/-- The method `Copy`, for a backing map that the encoder accepts and the decoder maps
back to the same content. -/
theorem Copy_of_round_trip {E B : Type} (jsonMarshal : Option (GoMap K V) → Except E B)
    (jsonUnmarshal : B → Option (GoMap K V) → Except E (Option (GoMap K V)))
    (m : Map K V) (bytes : B) (decoded : Option (GoMap K V))
    (hm : jsonMarshal m.data = .ok bytes) (hu : jsonUnmarshal bytes none = .ok decoded) :
    m.Copy jsonMarshal jsonUnmarshal = some (New decoded) := by
  simp [Copy, utils.DeepCopy, hm, hu]

end Map

namespace WeightedMap

variable {K V : Type} [DecidableEq K] [Inhabited V]

theorem weighted_frozen_of_readonly (m : WeightedMap K V) (h : m.readonly = true) (k : K)
    (v : V) (w : Weighted V) (fn : GoMap K (Weighted V) → GoMap K (Weighted V)) :
    m.Set k v = m ∧ m.SetWeighted k w = m ∧ m.Delete k = m ∧ m.Commit fn = m := by
  simp [Set, SetWeighted, Delete, Commit, h]

/-- The backing map after `SetWeighted` on a map that is not read-only. -/
theorem SetWeighted_data (m : WeightedMap K V) (k : K) (w : Weighted V)
    (hro : m.readonly = false) :
    GoMap.orEmpty (m.SetWeighted k w).data = (GoMap.orEmpty m.data).set k w ∧
      (m.SetWeighted k w).sorted = false := by
  unfold SetWeighted
  rw [if_neg (by simp [hro])]
  refine ⟨?_, rfl⟩
  simp only [GoMap.orEmpty]
  exact congrArg (fun d => GoMap.set d k w) (weighted_data_init m)

theorem Set_eq_SetWeighted (m : WeightedMap K V) (k : K) (v : V) :
    m.Set k v = m.SetWeighted k ⟨v, 0⟩ := rfl

/-- The error of `unmarshal` on a read-only map, whatever the codec. -/
theorem weighted_unmarshal_of_readonly {E B : Type} (ro : RangeOrder) (m : WeightedMap K V)
    (unmarsh : UnmarshalFunc E B (Option (GoMap K V))) (data : B) (h : m.readonly = true) :
    m.unmarshal ro unmarsh data = (some .ErrReadOnlyMap, m.init) := by
  unfold unmarshal
  simp only [weighted_readonly_init, h, if_true]

/-- The error of `unmarshal` on a map that is not read-only is that of the codec. -/
theorem weighted_unmarshal_error_of_writable {E B : Type} (ro : RangeOrder) (m : WeightedMap K V)
    (unmarsh : UnmarshalFunc E B (Option (GoMap K V))) (data : B) (h : m.readonly = false) :
    (m.unmarshal ro unmarsh data).1 =
      (match unmarsh data none with
      | .error e => some (.codec e)
      | .ok _ => none) := by
  unfold unmarshal
  simp only [weighted_readonly_init, h, Bool.false_eq_true, if_false]
  cases unmarsh data none <;> rfl

end WeightedMap

namespace OrderedMap

variable {K V : Type} [LinearOrder K] [Inhabited V]

theorem ordered_frozen_of_readonly (m : OrderedMap K V) (h : m.readonly = true) (k : K)
    (v : V) (fn : GoMap K V → GoMap K V) :
    m.Set k v = m ∧ m.Delete k = m ∧ m.Commit fn = m := by
  simp [Set, Delete, Commit, h]

end OrderedMap

end maps

/-- C11: a read-only map is frozen. For every `Map` `m`, after `ReadOnly()` the calls
`Set`, `Delete` and `Commit` return the map as it is (the callback of `Commit` is not run,
nothing is sent to the Hub), and `Get`, `Exists`, `GetFull`, `Len` and `Keys` answer as
they do on `m`; the same holds for every `OrderedMap` and every `WeightedMap`, there also
for `SetWeighted`; and the map made from `a: "1"`, frozen, has after `Set("b", "2")`
`Exists("b")` false and `Get("a")` equal to `"1"`. -/
theorem ReadOnly_freezes {K V K' : Type} [DecidableEq K] [Inhabited V] [LinearOrder K']
    (m : maps.Map K V) (o : maps.OrderedMap K' V) (w : maps.WeightedMap K V)
    (k : K) (k' : K') (v : V) (wv : types.Weighted V) (ro : RangeOrder)
    (fn : GoMap K V → GoMap K V) (fn' : GoMap K' V → GoMap K' V)
    (fnw : GoMap K (types.Weighted V) → GoMap K (types.Weighted V)) :
    (m.ReadOnly.Set k v = m.ReadOnly ∧ m.ReadOnly.Delete k = m.ReadOnly ∧
        m.ReadOnly.Commit fn = m.ReadOnly ∧
      m.ReadOnly.Get k = m.Get k ∧ m.ReadOnly.Exists k = m.Exists k ∧
        m.ReadOnly.GetFull k = m.GetFull k ∧ m.ReadOnly.Len = m.Len ∧
        m.ReadOnly.Keys ro = m.Keys ro) ∧
    (o.ReadOnly.Set k' v = o.ReadOnly ∧ o.ReadOnly.Delete k' = o.ReadOnly ∧
        o.ReadOnly.Commit fn' = o.ReadOnly ∧
      o.ReadOnly.toMap.Get k' = o.toMap.Get k' ∧
        o.ReadOnly.toMap.Exists k' = o.toMap.Exists k' ∧
        o.ReadOnly.toMap.GetFull k' = o.toMap.GetFull k' ∧
        o.ReadOnly.toMap.Len = o.toMap.Len ∧
        (o.ReadOnly.Keys ro).1 = (o.Keys ro).1) ∧
    (w.ReadOnly.Set k v = w.ReadOnly ∧ w.ReadOnly.SetWeighted k wv = w.ReadOnly ∧
        w.ReadOnly.Delete k = w.ReadOnly ∧ w.ReadOnly.Commit fnw = w.ReadOnly ∧
      w.ReadOnly.Get k = w.Get k ∧ w.ReadOnly.toMap.Exists k = w.toMap.Exists k ∧
        w.ReadOnly.GetFull k = w.GetFull k ∧ w.ReadOnly.toMap.Len = w.toMap.Len ∧
        (w.ReadOnly.Keys ro).1 = (w.Keys ro).1) ∧
    (((maps.New (some (GoMap.ofList [("a", "1")]))).ReadOnly.Set "b" "2").Exists "b" = false ∧
      ((maps.New (some (GoMap.ofList [("a", "1")]))).ReadOnly.Set "b" "2").Get "a" = "1") := by
  have hm := maps.Map.frozen_of_readonly m.ReadOnly rfl k v fn
  have ho := maps.OrderedMap.ordered_frozen_of_readonly o.ReadOnly rfl k' v fn'
  have hw := maps.WeightedMap.weighted_frozen_of_readonly w.ReadOnly rfl k v wv fnw
  refine ⟨⟨hm.1, hm.2.1, hm.2.2, rfl, rfl, rfl, rfl, rfl⟩,
    ⟨ho.1, ho.2.1, ho.2.2, rfl, rfl, rfl, rfl, ?_⟩,
    ⟨hw.1, hw.2.1, hw.2.2.1, hw.2.2.2, rfl, rfl, rfl, rfl, ?_⟩, ?_⟩
  · simp only [maps.OrderedMap.Keys, maps.OrderedMap.sort, maps.OrderedMap.ReadOnly]
    by_cases hs : o.sorted = true
    · simp [hs]
    · simp only [hs, Bool.false_eq_true, if_false]
      obtain ⟨⟨d, r, lk, hb⟩, lf, s, sk⟩ := o
      cases d <;> cases lf <;> rfl
  · simp only [maps.WeightedMap.Keys, maps.WeightedMap.sort, maps.WeightedMap.ReadOnly]
    by_cases hs : w.sorted = true
    · simp [hs]
    · simp only [hs, Bool.false_eq_true, if_false]
      rfl
  · decide

/-- C12: reads and `Delete` on a nil `*Map` return safe defaults. On the nil pointer, for
every key `k`: `Get(k)` is the zero value, `Exists(k)` is false, `GetFull(k)` is
`(zero value, false)`, `Keys()` and `Values()` are empty, `Iter()` returns a nil channel
and `Copy()` nil, `Delete(k)` leaves the pointer nil, and `ForEach(fn)` does not call its
callback. -/
theorem Map_nil_reads_default {K V E B σ : Type} [DecidableEq K] [Inhabited V] (k : K)
    (ro : RangeOrder) (fn : K → V → σ → σ) (s : σ)
    (jsonMarshal : Option (GoMap K V) → Except E B)
    (jsonUnmarshal : B → Option (GoMap K V) → Except E (Option (GoMap K V))) :
    maps.MapPtr.Get (none : Option (maps.Map K V)) k = default ∧
      maps.MapPtr.Exists (none : Option (maps.Map K V)) k = false ∧
      maps.MapPtr.GetFull (none : Option (maps.Map K V)) k = (default, false) ∧
      maps.MapPtr.Keys ro (none : Option (maps.Map K V)) = [] ∧
      maps.MapPtr.Values ro (none : Option (maps.Map K V)) = [] ∧
      maps.MapPtr.Iter ro (none : Option (maps.Map K V)) = .ok none ∧
      maps.MapPtr.Copy jsonMarshal jsonUnmarshal (none : Option (maps.Map K V)) = none ∧
      maps.MapPtr.Delete (none : Option (maps.Map K V)) k = none ∧
      maps.MapPtr.ForEach ro (none : Option (maps.Map K V)) fn s = s :=
  ⟨rfl, rfl, rfl, rfl, rfl, rfl, rfl, rfl, rfl⟩

/-- C13 (fails on the code): on a nil `*Map`, `Len()`, `Set(k, v)` and `Commit(fn)` panic,
where the claim has `Len()` return 0 and the other two do nothing: each of them reads a
field of the receiver (`m.lock`, `m.readonly`) before any check for nil. -/
theorem Map_nil_Len_Set_Commit_panic {K V : Type} [DecidableEq K] [Inhabited V] (k : K) (v : V)
    (fn : GoMap K V → GoMap K V) :
    maps.MapPtr.Len (none : Option (maps.Map K V)) = .error Fault.panic ∧
      maps.MapPtr.Set (none : Option (maps.Map K V)) k v = .error Fault.panic ∧
      maps.MapPtr.Commit (none : Option (maps.Map K V)) fn = .error Fault.panic :=
  ⟨rfl, rfl, rfl⟩

/-- C14: the error contract of `marshal` and `unmarshal` of `Map` and `WeightedMap`. On a
nil pointer both methods return `ErrNilMap`. On a read-only map `unmarshal` returns
`ErrReadOnlyMap` whatever the codec is, and the content is as before. On a map that is not
read-only `unmarshal` returns the error of the codec (nil when the codec returns nil), and
`marshal` returns the bytes or the error of the codec, on a read-only map as well. -/
theorem marshal_unmarshal_errors {K V E B : Type} [DecidableEq K] [Inhabited V]
    (m : maps.Map K V) (w : maps.WeightedMap K V) (ro : RangeOrder)
    (marsh : types.MarshalFunc E B (GoMap K V))
    (unmarsh : types.UnmarshalInto E B (Option (GoMap K V)))
    (unmarshW : types.UnmarshalFunc E B (Option (GoMap K V))) (data : B) :
    (maps.MapPtr.marshal (none : Option (maps.Map K V)) marsh = (.error .ErrNilMap, none) ∧
      maps.MapPtr.unmarshal (none : Option (maps.Map K V)) unmarsh data =
        (some .ErrNilMap, none) ∧
      maps.WeightedMapPtr.marshal ro (none : Option (maps.WeightedMap K V)) marsh =
        (.error .ErrNilMap, none) ∧
      maps.WeightedMapPtr.unmarshal ro (none : Option (maps.WeightedMap K V)) unmarshW data =
        (some .ErrNilMap, none)) ∧
    (m.ReadOnly.unmarshal unmarsh data = (some .ErrReadOnlyMap, m.ReadOnly) ∧
      (w.ReadOnly.unmarshal ro unmarshW data).1 = some .ErrReadOnlyMap ∧
      GoMap.orEmpty (w.ReadOnly.unmarshal ro unmarshW data).2.data = GoMap.orEmpty w.data ∧
      (w.ReadOnly.unmarshal ro unmarshW data).2.readonly = true) ∧
    (m.readonly = false →
      (maps.MapPtr.unmarshal (some m) unmarsh data).1 =
        (unmarsh data m.init.data).1.map (fun e => types.Error.codec e)) ∧
    (w.readonly = false →
      (maps.WeightedMapPtr.unmarshal ro (some w) unmarshW data).1 =
        (match unmarshW data none with
        | .error e => some (.codec e)
        | .ok _ => none)) ∧
    ((maps.MapPtr.marshal (some m) marsh).1 =
        (match marsh (GoMap.orEmpty m.data) with
        | .error e => .error (.codec e)
        | .ok bytes => .ok bytes)) ∧
    (∃ rawMap : GoMap K V,
      (∀ k, rawMap.get? k = ((GoMap.orEmpty w.data).get? k).map (fun x => x.Value)) ∧
      (maps.WeightedMapPtr.marshal ro (some w) marsh).1 =
        (match marsh rawMap with
        | .error e => .error (.codec e)
        | .ok bytes => .ok bytes)) := by
  refine ⟨⟨rfl, rfl, rfl, rfl⟩, ⟨rfl, ?_, ?_, ?_⟩, ?_, ?_, ?_, ?_⟩
  · rw [maps.WeightedMap.weighted_unmarshal_of_readonly ro w.ReadOnly unmarshW data rfl]
  · rw [maps.WeightedMap.weighted_unmarshal_of_readonly ro w.ReadOnly unmarshW data rfl]
    exact maps.WeightedMap.weighted_data_init w.ReadOnly
  · rw [maps.WeightedMap.weighted_unmarshal_of_readonly ro w.ReadOnly unmarshW data rfl]
    exact maps.WeightedMap.weighted_readonly_init w.ReadOnly
  · intro hro
    exact (maps.Map.unmarshal_of_writable m unmarsh data hro).1
  · intro hro
    exact maps.WeightedMap.weighted_unmarshal_error_of_writable ro w unmarshW data hro
  · exact maps.Map.marshal_result m marsh
  · obtain ⟨rawMap, h1, h2, _⟩ := maps.WeightedMap.marshal_payload ro w marsh
    exact ⟨rawMap, h1, h2⟩

/-- Witness of C14: a map and a weighted map created from nil mappings, neither read-only;
the codec of the map decodes the bytes to themselves, the codec of the weighted map fails.
The first `unmarshal` returns nil, the second the error of its codec. -/
theorem marshal_unmarshal_errors_witness :
    (maps.New (none : Option (GoMap Nat String))).readonly = false ∧
      (maps.NewWeighted (none : Option (GoMap Nat (types.Weighted String)))).readonly = false ∧
      (maps.MapPtr.unmarshal (some (maps.New (none : Option (GoMap Nat String))))
        (fun (bytes : GoMap Nat String) _ => ((none : Option Unit), some bytes))
        (GoMap.ofList [(1, "x")])).1 = none ∧
      (maps.WeightedMapPtr.unmarshal RangeOrder.asStored
        (some (maps.NewWeighted (none : Option (GoMap Nat (types.Weighted String)))))
        (fun (_ : GoMap Nat String) _ => (.error () : Except Unit (Option (GoMap Nat String))))
        (GoMap.ofList [(1, "x")])).1 = some (.codec ()) :=
  have h := marshal_unmarshal_errors
    (maps.New (none : Option (GoMap Nat String)))
    (maps.NewWeighted (none : Option (GoMap Nat (types.Weighted String))))
    RangeOrder.asStored
    (fun (d : GoMap Nat String) => (.ok d : Except Unit (GoMap Nat String)))
    (fun (bytes : GoMap Nat String) _ => ((none : Option Unit), some bytes))
    (fun (_ : GoMap Nat String) _ => (.error () : Except Unit (Option (GoMap Nat String))))
    (GoMap.ofList [(1, "x")])
  ⟨rfl, rfl, (h.2.2.1 rfl).trans rfl, (h.2.2.2.1 rfl).trans rfl⟩

/-! ## Map.Copy on the heap of maps -/

theorem getD_set_of_ne {α : Type} (l : List α) (a b : Nat) (x d : α) (h : a ≠ b) :
    (l.set b x).getD a d = l.getD a d := by
  simp only [List.getD_eq_getElem?_getD]
  rw [List.getElem?_set_ne (Ne.symm h)]

theorem getD_set_self {α : Type} (l : List α) (b : Nat) (x d : α) (h : b < l.length) :
    (l.set b x).getD b d = x := by
  simp only [List.getD_eq_getElem?_getD]
  rw [List.getElem?_set_self h]
  rfl

theorem getD_append_of_lt {α : Type} (l l' : List α) (a : Nat) (d : α) (h : a < l.length) :
    (l ++ l').getD a d = l.getD a d := by
  simp only [List.getD_eq_getElem?_getD]
  rw [List.getElem?_append_left h]

theorem getD_append_length {α : Type} (l : List α) (x d : α) :
    (l ++ [x]).getD l.length d = x := by
  simp only [List.getD_eq_getElem?_getD]
  rw [List.getElem?_append_right (Nat.le_refl _)]
  simp

namespace maps

open types

namespace MapRef

variable {K V : Type} [DecidableEq K] [Inhabited V]

theorem ref_publish_fields (m : MapRef K V) (msg : WatchMsg K V) :
    (m.publish msg).data = m.data ∧ (m.publish msg).readonly = m.readonly ∧
      (m.publish msg).lock = m.lock := by
  unfold publish
  cases m.Hub <;> exact ⟨rfl, rfl, rfl⟩

/-- One `Set` on a struct `c` whose map, if it has one, lies at or above the address `n`:
the call returns without fault, the cells below `n` are as before, the map of `c` lies at or
above `n`, and it holds the entry that was set over what it held. -/
theorem Set_above (n : Nat) (h : MapHeap K V) (c : MapRef K V) (k : K) (v : V)
    (hn : n ≤ h.cells.length)
    (hc : ∀ b, c.data = some b → n ≤ b ∧ b < h.cells.length) (hro : c.readonly = false) :
    ∃ h' c', c.Set h k v = .ok (h', c') ∧ n ≤ h'.cells.length ∧
      (∀ a, a < n → h'.cells.getD a GoMap.empty = h.cells.getD a GoMap.empty) ∧
      (∀ b, c'.data = some b → n ≤ b ∧ b < h'.cells.length) ∧ c'.readonly = false ∧
      GoMap.orEmpty (h'.content c'.data) = (GoMap.orEmpty (h.content c.data)).set k v := by
  obtain ⟨p1, p2, _⟩ := ref_publish_fields (c.init h).2
    { Event := PutEvent, Key := k, Value := v }
  cases hd : c.data with
  | none =>
    have hi : c.init h = ((h.alloc GoMap.empty).1,
        { c with data := some (h.alloc GoMap.empty).2 }) := by
      unfold init
      rw [hd]
    have hdata : ((c.init h).2.publish { Event := PutEvent, Key := k, Value := v }).data =
        some h.cells.length := by
      rw [p1, hi]
      rfl
    refine ⟨
      { cells :=
          (h.cells ++ [GoMap.empty]).set h.cells.length
            (((h.cells ++ [GoMap.empty]).getD h.cells.length GoMap.empty).set k v) },
      (c.init h).2.publish { Event := PutEvent, Key := k, Value := v }, ?_, ?_, ?_, ?_, ?_, ?_⟩
    · unfold Set
      rw [if_neg (by simp [hro])]
      simp only [hdata]
      rw [hi]
      rfl
    · simp only [List.length_set, List.length_append, List.length_singleton]
      omega
    · intro a ha
      rw [getD_set_of_ne _ _ _ _ _ (by omega), getD_append_of_lt _ _ _ _ (by omega)]
    · intro b hb
      rw [hdata] at hb
      cases hb
      simp only [List.length_set, List.length_append, List.length_singleton]
      omega
    · rw [p2, hi]
      exact hro
    · rw [hdata]
      simp only [MapHeap.content, Option.map_some', Option.map_none', GoMap.orEmpty]
      rw [getD_set_self _ _ _ _ (by simp), getD_append_length]
      rfl
  | some b =>
    obtain ⟨hb1, hb2⟩ := hc b hd
    have hi : c.init h = (h, c) := by
      unfold init
      rw [hd]
    have hdata : ((c.init h).2.publish { Event := PutEvent, Key := k, Value := v }).data =
        some b := by
      rw [p1, hi]
      exact hd
    refine ⟨{ cells := h.cells.set b ((h.cells.getD b GoMap.empty).set k v) },
      (c.init h).2.publish { Event := PutEvent, Key := k, Value := v }, ?_, ?_, ?_, ?_, ?_, ?_⟩
    · unfold Set
      rw [if_neg (by simp [hro])]
      simp only [hdata]
      rw [hi]
      rfl
    · simp only [List.length_set]
      exact hn
    · intro a ha
      rw [getD_set_of_ne _ _ _ _ _ (by omega)]
    · intro b' hb'
      rw [hdata] at hb'
      cases hb'
      simp only [List.length_set]
      exact ⟨hb1, hb2⟩
    · rw [p2, hi]
      exact hro
    · rw [hdata]
      simp only [MapHeap.content, Option.map_some', GoMap.orEmpty]
      rw [getD_set_self _ _ _ _ hb2]

/-- A sequence of `Set` calls on such a struct. -/
theorem setAll_above (n : Nat) (h0 : MapHeap K V) (sets : List (K × V)) :
    ∀ (h : MapHeap K V) (c : MapRef K V), n ≤ h.cells.length →
      (∀ a, a < n → h.cells.getD a GoMap.empty = h0.cells.getD a GoMap.empty) →
      (∀ b, c.data = some b → n ≤ b ∧ b < h.cells.length) → c.readonly = false →
      ∃ h' c', c.setAll h sets = .ok (h', c') ∧
        (∀ a, a < n → h'.cells.getD a GoMap.empty = h0.cells.getD a GoMap.empty) ∧
        GoMap.orEmpty (h'.content c'.data) =
          sets.foldl (fun d p => d.set p.1 p.2) (GoMap.orEmpty (h.content c.data)) := by
  induction sets with
  | nil =>
    intro h c _ hlow _ _
    exact ⟨h, c, rfl, hlow, rfl⟩
  | cons p rest ih =>
    intro h c hn hlow hc hro
    obtain ⟨h1, c1, e1, hn1, hlow1, hc1, hro1, hcont1⟩ := Set_above n h c p.1 p.2 hn hc hro
    obtain ⟨h2, c2, e2, hlow2, hcont2⟩ := ih h1 c1 hn1
      (fun a ha => (hlow1 a ha).trans (hlow a ha)) hc1 hro1
    refine ⟨h2, c2, ?_, hlow2, ?_⟩
    · unfold setAll
      rw [e1]
      exact e2
    · rw [hcont2, hcont1]
      rfl

/-- A struct whose map lies below `n` reads the same in two heaps that agree below `n`. -/
theorem toMap_of_agree (n : Nat) (h h' : MapHeap K V) (m : MapRef K V)
    (hwf : ∀ a, m.data = some a → a < n)
    (hlow : ∀ a, a < n → h'.cells.getD a GoMap.empty = h.cells.getD a GoMap.empty) :
    m.toMap h' = m.toMap h := by
  unfold toMap MapHeap.content
  cases hd : m.data with
  | none => rfl
  | some a =>
    simp only [Option.map_some']
    rw [hlow a (hwf a hd)]

theorem reads_toMap (m : MapRef K V) (h : MapHeap K V) (k : K) :
    m.Get h k = (m.toMap h).Get k ∧ m.Exists h k = (m.toMap h).Exists k ∧
      m.GetFull h k = (m.toMap h).GetFull k ∧ m.Len h = (m.toMap h).Len :=
  ⟨rfl, rfl, rfl, rfl⟩

end MapRef

end maps

/-- C19: `Map.Copy` returns an independent plain map with the same content. Maps are
references into a heap of maps. For every heap and every map `m` in it whose backing map
the encoder accepts and the decoder maps back to the same content, `Copy()` returns a map
`c` (and the same `c` as the copy of the methods above, read through the heap) with
`Get`, `Exists`, `GetFull` and `Len` as on `m`; `c` has no lock, is not read-only and has
no Hub, whatever `m` has; `c` is backed by no map or by a map at another address than that
of `m`, and the call leaves `m` as it was; every sequence of `Set` calls on `c` returns
without fault, leaves `Get`, `Exists`, `GetFull` and `Len` of `m` as they were and `c`
with the decoded content and the entries set; and `Set(k, v)` on `c` stores `v` under `k`
in `c`, leaves the other keys of `c` as `m` has them, and leaves `m` as it was. -/
theorem Map_Copy_plain_clone {K V E B : Type} [DecidableEq K] [Inhabited V]
    (jsonMarshal : Option (GoMap K V) → Except E B)
    (jsonUnmarshal : B → Option (GoMap K V) → Except E (Option (GoMap K V)))
    (h : maps.MapHeap K V) (m : maps.MapRef K V) (bytes : B) (decoded : Option (GoMap K V))
    (hwf : ∀ a, m.data = some a → a < h.cells.length)
    (hm : jsonMarshal (h.content m.data) = .ok bytes)
    (hu : jsonUnmarshal bytes none = .ok decoded)
    (hsame : ∀ k, (GoMap.orEmpty decoded).get? k =
      (GoMap.orEmpty (h.content m.data)).get? k) :
    ∃ h' c, m.Copy jsonMarshal jsonUnmarshal h = (h', some c) ∧
      ((m.toMap h).Copy jsonMarshal jsonUnmarshal = some (c.toMap h') ∧
        maps.MapPtr.Copy jsonMarshal jsonUnmarshal (some (m.toMap h)) = some (c.toMap h')) ∧
      ((∀ k, c.Get h' k = m.Get h k ∧ c.Exists h' k = m.Exists h k ∧
          c.GetFull h' k = m.GetFull h k) ∧ c.Len h' = m.Len h) ∧
      (c.lock = none ∧ c.readonly = false ∧ c.Hub = none) ∧
      ((∀ a, c.data = some a → m.data ≠ some a) ∧ m.toMap h' = m.toMap h) ∧
      (∀ sets : List (K × V), ∃ h'' c', c.setAll h' sets = .ok (h'', c') ∧
        m.toMap h'' = m.toMap h ∧
        (∀ k, m.Get h'' k = m.Get h k ∧ m.Exists h'' k = m.Exists h k ∧
          m.GetFull h'' k = m.GetFull h k) ∧ m.Len h'' = m.Len h ∧
        ∀ k, (GoMap.orEmpty (h''.content c'.data)).get? k =
          (sets.foldl (fun d p => d.set p.1 p.2) (GoMap.orEmpty decoded)).get? k) ∧
      ∀ k v, ∃ h'' c', c.Set h' k v = .ok (h'', c') ∧
        c'.Get h'' k = v ∧ c'.Exists h'' k = true ∧
        (∀ k', k' ≠ k → c'.Get h'' k' = m.Get h k') ∧
        (∀ k', m.Get h'' k' = m.Get h k') ∧ m.Len h'' = m.Len h := by
  have hcd : ∃ h' c, m.Copy jsonMarshal jsonUnmarshal h = (h', some c) ∧
      c.lock = none ∧ c.readonly = false ∧ c.Hub = none ∧
      h.cells.length ≤ h'.cells.length ∧
      (∀ a, a < h.cells.length → h'.cells.getD a GoMap.empty = h.cells.getD a GoMap.empty) ∧
      (∀ b, c.data = some b → h.cells.length ≤ b ∧ b < h'.cells.length) ∧
      h'.content c.data = decoded := by
      have hdc : utils.DeepCopy jsonMarshal jsonUnmarshal none (h.content m.data) =
          some decoded := by
        simp [utils.DeepCopy, hm, hu]
      cases decoded with
      | none =>
        refine ⟨h, maps.MapRef.New none, ?_, rfl, rfl, rfl, Nat.le_refl _, fun _ _ => rfl, ?_,
          rfl⟩
        · unfold maps.MapRef.Copy
          rw [hdc]
        · intro b hb
          cases hb
      | some d =>
        refine ⟨(h.alloc d).1, maps.MapRef.New (some (h.alloc d).2), ?_, rfl, rfl, rfl, ?_, ?_,
          ?_, ?_⟩
        · unfold maps.MapRef.Copy
          rw [hdc]
        · simp [maps.MapHeap.alloc]
        · intro a ha
          exact getD_append_of_lt _ _ _ _ ha
        · intro b hb
          cases hb
          simp [maps.MapHeap.alloc, maps.MapRef.New]
        · simp only [maps.MapHeap.content, maps.MapHeap.alloc, maps.MapRef.New, Option.map_some']
          rw [getD_append_length]
  obtain ⟨h', c, hcopy, hl, hr, hH, hlen, hlow, hc, hcont⟩ := hcd
  have hvc : (m.toMap h).Copy jsonMarshal jsonUnmarshal = some (maps.New decoded) := by
    have hm' : jsonMarshal (m.toMap h).data = .ok bytes := hm
    simp [maps.Map.Copy, utils.DeepCopy, hm', hu]
  have hcmap : c.toMap h' = maps.New decoded := by
    unfold maps.MapRef.toMap
    rw [hcont, hl, hr, hH]
    rfl
  have hreads : ∀ k, c.Get h' k = m.Get h k ∧ c.Exists h' k = m.Exists h k ∧
      c.GetFull h' k = m.GetFull h k := by
    intro k
    have := maps.Map.reads_of_get? (m.toMap h) (c.toMap h') k (by
      rw [hcmap]
      exact hsame k)
    exact this
  refine ⟨h', c, hcopy, ⟨?_, ?_⟩, ⟨hreads, ?_⟩, ⟨hl, hr, hH⟩, ⟨?_, ?_⟩, ?_, ?_⟩
  · rw [hcmap]
    exact hvc
  · rw [hcmap]
    exact hvc
  · show (GoMap.orEmpty (h'.content c.data)).len = (GoMap.orEmpty (h.content m.data)).len
    rw [hcont]
    exact GoMap.len_eq_of_get?_eq _ _ hsame
  · intro a hca hma
    have h1 := (hc a hca).1
    have h2 := hwf a hma
    omega
  · exact maps.MapRef.toMap_of_agree h.cells.length h h' m hwf hlow
  · intro sets
    obtain ⟨h'', c', e, hlow', hcont'⟩ :=
      maps.MapRef.setAll_above h.cells.length h sets h' c hlen hlow hc hr
    have hmm : m.toMap h'' = m.toMap h :=
      maps.MapRef.toMap_of_agree h.cells.length h h'' m hwf hlow'
    refine ⟨h'', c', e, hmm, ?_, ?_, ?_⟩
    · intro k
      exact ⟨congrArg (fun x => x.Get k) hmm, congrArg (fun x => x.Exists k) hmm,
        congrArg (fun x => x.GetFull k) hmm⟩
    · exact congrArg (fun x => x.Len) hmm
    · intro k
      rw [hcont', hcont]
  · intro k v
    obtain ⟨h'', c', e, _, hlow', _, _, hcont'⟩ :=
      maps.MapRef.Set_above h.cells.length h' c k v hlen hc hr
    have hmm : m.toMap h'' = m.toMap h :=
      maps.MapRef.toMap_of_agree h.cells.length h h'' m hwf
        (fun a ha => (hlow' a ha).trans (hlow a ha))
    have hk : (GoMap.orEmpty (h''.content c'.data)).get? k = some v := by
      rw [hcont', GoMap.get?_set, if_pos rfl]
    refine ⟨h'', c', e, ?_, ?_, ?_, ?_, ?_⟩
    · simp [maps.MapRef.Get, GoMap.get, hk]
    · simp [maps.MapRef.Exists, hk]
    · intro k' hk'
      have hg : (GoMap.orEmpty (h''.content c'.data)).get? k' =
          (GoMap.orEmpty (h.content m.data)).get? k' := by
        rw [hcont', GoMap.get?_set, if_neg hk', hcont]
        exact hsame k'
      simp only [maps.MapRef.Get, GoMap.get, hg]
    · intro k'
      exact congrArg (fun x => x.Get k') hmm
    · exact congrArg (fun x => x.Len) hmm

/-- Witness of C19: a heap with one map, at address 0, which holds `1: "x"`; a synchronized,
read-only, eventful struct `m` on that map; and the codec whose bytes are the map itself.
The copy holds `x` under 1 and is plain; after `Set(1, "y")` and `Set(2, "z")` on the copy,
`m` still has `x` under 1 and the length 1. By evaluation: the copy is backed by the new map
at address 1; with an encoder that fails `Copy()` returns nil; `Set` on a struct with a nil
map, such as the copy of one, makes the map first; and a struct made by `New` on the map of
`m`, in place of the copy, would change `m`. -/
theorem Map_Copy_plain_clone_witness :
    (∀ a, ({ data := some 0, readonly := true, lock := some utils.Lock.new,
                Hub := some channel.NewHub } : maps.MapRef Nat String).data = some a →
      a < ({ cells := [GoMap.ofList [(1, "x")]] } : maps.MapHeap Nat String).cells.length) ∧
      (∃ h' c, maps.MapRef.Copy
            (fun d => (.ok d : Except Unit (Option (GoMap Nat String))))
            (fun bytes _ => (.ok bytes : Except Unit (Option (GoMap Nat String))))
            ({ data := some 0, readonly := true, lock := some utils.Lock.new,
                  Hub := some channel.NewHub } : maps.MapRef Nat String)
            { cells := [GoMap.ofList [(1, "x")]] } = (h', some c) ∧
        c.Get h' 1 = "x" ∧ c.Len h' = 1 ∧ c.lock = none ∧ c.readonly = false ∧
        c.Hub = none ∧
        ∃ h'' c', c.setAll h' [(1, "y"), (2, "z")] = .ok (h'', c') ∧
          maps.MapRef.Get ({ data := some 0, readonly := true, lock := some utils.Lock.new,
                                Hub := some channel.NewHub } : maps.MapRef Nat String) h'' 1 = "x" ∧
          maps.MapRef.Len ({ data := some 0, readonly := true, lock := some utils.Lock.new,
                                Hub := some channel.NewHub } : maps.MapRef Nat String) h'' = 1) ∧
      (maps.MapRef.Copy
          (fun d => (.ok d : Except Unit (Option (GoMap Nat String))))
          (fun bytes _ => (.ok bytes : Except Unit (Option (GoMap Nat String))))
          ({ data := some 0, readonly := true, lock := some utils.Lock.new,
                Hub := some channel.NewHub } : maps.MapRef Nat String)
          { cells := [GoMap.ofList [(1, "x")]] }).2.map (fun c => c.data) = some (some 1) ∧
      maps.Map.Copy
          (fun _ => (.error () : Except Unit (Option (GoMap Nat String))))
          (fun bytes _ => (.ok bytes : Except Unit (Option (GoMap Nat String))))
          (maps.MapRef.toMap ({ data := some 0, readonly := true, lock := some utils.Lock.new,
                                   Hub := some channel.NewHub } : maps.MapRef Nat String)
            { cells := [GoMap.ofList [(1, "x")]] }) = none ∧
      ((maps.MapRef.New none : maps.MapRef Nat String).Set { cells := [] } 1 "x").map
          (fun r => (r.2.Get r.1 1, r.2.data)) = .ok ("x", some 0) ∧
      ((maps.MapRef.New (some 0) : maps.MapRef Nat String).Set
        { cells := [GoMap.ofList [(1, "x")]] } 1 "y").map
          (fun r => maps.MapRef.Get ({ data := some 0, readonly := true, lock := some utils.Lock.new,
                                          Hub := some channel.NewHub } : maps.MapRef Nat String) r.1 1) = .ok "y" := by
  have hwf : ∀ a, ({ data := some 0, readonly := true, lock := some utils.Lock.new,
                        Hub := some channel.NewHub } : maps.MapRef Nat String).data = some a →
      a < ({ cells := [GoMap.ofList [(1, "x")]] } : maps.MapHeap Nat String).cells.length := by
    intro a ha
    cases ha
    decide
  obtain ⟨h', c, hcopy, _, ⟨hreads, hlen⟩, ⟨hl, hr, hH⟩, _, hsets, _⟩ :=
    Map_Copy_plain_clone
      (fun d => (.ok d : Except Unit (Option (GoMap Nat String))))
      (fun bytes _ => (.ok bytes : Except Unit (Option (GoMap Nat String))))
      ({ cells := [GoMap.ofList [(1, "x")]] } : maps.MapHeap Nat String)
      ({ data := some 0, readonly := true, lock := some utils.Lock.new,
            Hub := some channel.NewHub } : maps.MapRef Nat String)
      (some (GoMap.ofList [(1, "x")])) (some (GoMap.ofList [(1, "x")])) hwf rfl rfl
      (fun _ => rfl)
  obtain ⟨h'', c', e, _, hm, hml, _⟩ := hsets [(1, "y"), (2, "z")]
  exact ⟨hwf, ⟨h', c, hcopy, (hreads 1).1.trans rfl, hlen.trans rfl, hl, hr, hH, h'', c', e,
    (hm 1).1.trans rfl, hml.trans rfl⟩, rfl, rfl, rfl, rfl⟩

/-- C20: `Set` and `SetWeighted` of a `WeightedMap`. For every map that is not read-only,
key `k`, value `v` and weight `wt`: after `Set(k, v)`, `Get(k)` is `v` and the weight of `k`
is 0, whatever it was; after `SetWeighted(k, {v, wt})`, `Get(k)` is `v` and the weight of
`k` is `wt`; in both cases every other key keeps its entry (value and weight) and the
`sorted` flag is cleared. -/
theorem WeightedMap_Set_SetWeighted {K V : Type} [DecidableEq K] [Inhabited V]
    (w : maps.WeightedMap K V) (k : K) (v : V) (wt : Nat) (hro : w.readonly = false) :
    ((w.Set k v).Get k = v ∧ (w.Set k v).weightOf k = 0 ∧ (w.Set k v).sorted = false ∧
      (w.Set k v).GetFull k = (v, true) ∧
      ∀ k', k' ≠ k →
        (GoMap.orEmpty (w.Set k v).data).get? k' = (GoMap.orEmpty w.data).get? k' ∧
        (w.Set k v).Get k' = w.Get k' ∧ (w.Set k v).weightOf k' = w.weightOf k') ∧
    ((w.SetWeighted k ⟨v, wt⟩).Get k = v ∧ (w.SetWeighted k ⟨v, wt⟩).weightOf k = wt ∧
      (w.SetWeighted k ⟨v, wt⟩).sorted = false ∧
      (w.SetWeighted k ⟨v, wt⟩).GetFull k = (v, true) ∧
      ∀ k', k' ≠ k →
        (GoMap.orEmpty (w.SetWeighted k ⟨v, wt⟩).data).get? k' =
          (GoMap.orEmpty w.data).get? k' ∧
        (w.SetWeighted k ⟨v, wt⟩).Get k' = w.Get k' ∧
        (w.SetWeighted k ⟨v, wt⟩).weightOf k' = w.weightOf k') := by
  have key : ∀ x : types.Weighted V,
      (w.SetWeighted k x).Get k = x.Value ∧ (w.SetWeighted k x).weightOf k = x.Weight ∧
      (w.SetWeighted k x).sorted = false ∧ (w.SetWeighted k x).GetFull k = (x.Value, true) ∧
      ∀ k', k' ≠ k →
        (GoMap.orEmpty (w.SetWeighted k x).data).get? k' = (GoMap.orEmpty w.data).get? k' ∧
        (w.SetWeighted k x).Get k' = w.Get k' ∧
        (w.SetWeighted k x).weightOf k' = w.weightOf k' := by
    intro x
    obtain ⟨hd, hs⟩ := maps.WeightedMap.SetWeighted_data w k x hro
    have hk : (GoMap.orEmpty (w.SetWeighted k x).data).get? k = some x := by
      rw [hd, GoMap.get?_set, if_pos rfl]
    refine ⟨?_, ?_, hs, ?_, ?_⟩
    · simp [maps.WeightedMap.Get, GoMap.get, hk]
    · simp [maps.WeightedMap.weightOf, GoMap.get, hk]
    · simp [maps.WeightedMap.GetFull, hk]
    · intro k' hk'
      have hg : (GoMap.orEmpty (w.SetWeighted k x).data).get? k' =
          (GoMap.orEmpty w.data).get? k' := by
        rw [hd, GoMap.get?_set, if_neg hk']
      refine ⟨hg, ?_, ?_⟩
      · simp only [maps.WeightedMap.Get, GoMap.get, hg]
      · simp only [maps.WeightedMap.weightOf, GoMap.get, hg]
  refine ⟨?_, key ⟨v, wt⟩⟩
  rw [maps.WeightedMap.Set_eq_SetWeighted]
  exact key ⟨v, 0⟩

/-- Witness of C20: the map that holds `1: "x"` with weight 5; `Set(1, "y")` leaves the
weight 0, `SetWeighted(1, {"y", 9})` leaves the weight 9. -/
theorem WeightedMap_Set_SetWeighted_witness :
    (maps.NewWeighted (some (GoMap.ofList [(1, (⟨"x", 5⟩ : types.Weighted String))]))).readonly
        = false ∧
      ((maps.NewWeighted (some (GoMap.ofList [(1, (⟨"x", 5⟩ : types.Weighted String))]))).Set
        1 "y").weightOf 1 = 0 ∧
      ((maps.NewWeighted (some (GoMap.ofList
        [(1, (⟨"x", 5⟩ : types.Weighted String))]))).SetWeighted 1 ⟨"y", 9⟩).weightOf 1 = 9 :=
  ⟨rfl,
    (WeightedMap_Set_SetWeighted
      (maps.NewWeighted (some (GoMap.ofList [(1, (⟨"x", 5⟩ : types.Weighted String))])))
      1 "y" 9 rfl).1.2.1,
    (WeightedMap_Set_SetWeighted
      (maps.NewWeighted (some (GoMap.ofList [(1, (⟨"x", 5⟩ : types.Weighted String))])))
      1 "y" 9 rfl).2.2.1⟩

/-! ## Set: the codec methods and the lock -/

namespace set

variable {T : Type} [DecidableEq T]

theorem Contains_Add (s : Set T) (values : List T) (v : T) :
    (s.Add values).Contains v = (decide (v ∈ values) || s.Contains v) := by
  have hinit : GoMap.orEmpty s.init.data = GoMap.orEmpty s.data := by
    cases s with
    | mk d l => cases d <;> rfl
  simp only [Set.Add, Set.Contains, GoMap.orEmpty]
  rw [GoMap.get?_foldl_set values (fun _ => ()) _ v]
  have h' := hinit
  simp only [GoMap.orEmpty] at h'
  by_cases hv : v ∈ values
  · simp [hv]
  · simp only [hv, if_false, decide_False, Bool.false_or]
    rw [h']

/-- On a map that is not nil the loop of `Add` stores every value and does not panic. -/
theorem Set.assignAll_some (d : GoMap T Unit) (values : List T) :
    Set.assignAll (some d) values =
      .ok (some (values.foldl (fun d value => d.set value ()) d)) := by
  induction values generalizing d with
  | nil => rfl
  | cons v rest ih =>
    simp only [Set.assignAll, GoMap.assign, List.foldl_cons]
    exact ih _

/-- On a nil map the loop of `Add` panics at its first assignment. -/
theorem Set.assignAll_nil (v : T) (rest : List T) :
    Set.assignAll (none : Option (GoMap T Unit)) (v :: rest) = .error .panic := rfl

/-- The method `Add` has run `init` when it reaches its loop: the map is not nil. -/
theorem Set.init_data (s : Set T) : s.init.data = some (GoMap.orEmpty s.data) := by
  obtain ⟨d, l⟩ := s
  cases d <;> rfl

/-- On a set without a lock the lock steps of `Add` do nothing, and no assignment panics. -/
theorem lockedAdd_of_unsynchronized (s : Set T) (values : List T) (h : s.lock = none) :
    s.lockedAdd values = .ok (s.Add values) := by
  have hl : s.init.lock = none := by
    obtain ⟨d, l⟩ := s
    cases d <;> exact h
  have hd : GoMap.orEmpty s.init.data = GoMap.orEmpty s.data := by
    rw [Set.init_data]
    rfl
  unfold Set.lockedAdd Set.Add
  simp only [hl, Set.init_data, Set.assignAll_some, utils.LockPtr.Lock, utils.LockPtr.Unlock]
  rfl

/-- On a set whose lock is free `Add` takes the lock and releases it, and no assignment
panics. -/
theorem lockedAdd_of_free (s : Set T) (values : List T) (h : s.lock = some utils.Lock.new) :
    s.lockedAdd values = .ok (s.Add values) := by
  have hl : s.init.lock = some utils.Lock.new := by
    obtain ⟨d, l⟩ := s
    cases d <;> exact h
  unfold Set.lockedAdd Set.Add
  simp only [hl, Set.init_data, Set.assignAll_some, utils.LockPtr.Lock, utils.LockPtr.Unlock,
    utils.Lock.new, Bool.false_eq_true, gt_iff_lt, Nat.lt_irrefl, decide_False, Bool.or_self,
    if_false, if_true]
  rfl

/-- On a set whose write lock is held `Add` waits for the lock. -/
theorem lockedAdd_of_held (s : Set T) (values : List T) (l : utils.Lock)
    (h : s.lock = some l) (hw : l.lock.writer = true) :
    s.lockedAdd values = .error .blocked := by
  obtain ⟨d, l'⟩ := s
  simp only at h
  subst h
  cases d <;> simp [Set.lockedAdd, Set.init, utils.LockPtr.Lock, hw]

/-- The method `unmarshal` on a set without a lock and a payload the codec decodes: the set
is rebuilt from the decoded values. -/
theorem unmarshal_of_unsynchronized {E B : Type} (s : Set T)
    (um : types.UnmarshalFunc E B (List T)) (data : B) (values : List T)
    (h : s.lock = none) (hdec : um data [] = .ok values) :
    s.unmarshal um data = .ok (none, New values) := by
  obtain ⟨d, l⟩ := s
  simp only at h
  subst h
  simp only [Set.unmarshal, utils.LockPtr.Lock, hdec]
  rw [lockedAdd_of_unsynchronized _ _ rfl]
  rfl

/-- The method `unmarshal` on a set with a lock that nobody holds, and a payload the codec
decodes: the call takes the write lock and then waits for it in `Add`. -/
theorem unmarshal_of_synchronized {E B : Type} (s : Set T)
    (um : types.UnmarshalFunc E B (List T)) (data : B) (values : List T)
    (h : s.lock = some utils.Lock.new) (hdec : um data [] = .ok values) :
    s.unmarshal um data = .error .blocked := by
  obtain ⟨d, l⟩ := s
  simp only at h
  subst h
  simp only [Set.unmarshal, utils.LockPtr.Lock, utils.Lock.new, hdec, Bool.false_eq_true,
    gt_iff_lt, Nat.lt_irrefl, decide_False, Bool.or_self, if_false]
  rw [lockedAdd_of_held _ _ _ rfl rfl]

/-- A set made by `NewSafe` has a lock that nobody holds. -/
theorem NewSafe_eq (data : List T) :
    NewSafe data = .ok { data := (New data).data, lock := some utils.Lock.new } := by
  unfold NewSafe
  rw [lockedAdd_of_free _ _ rfl]
  rfl

/-- The method `marshal` on a set without a lock: the codec gets the members, each once. -/
theorem marshal_of_unsynchronized {E B : Type} (ro : RangeOrder) (s : Set T)
    (m : types.MarshalFunc E B (List T)) (h : s.lock = none) :
    ∃ list : List T, list.Nodup ∧ (∀ v, v ∈ list ↔ s.Contains v = true) ∧
      s.marshal ro m = .ok ((match m list with
        | .error e => .error (.codec e)
        | .ok bytes => .ok bytes), s) := by
  obtain ⟨d, l⟩ := s
  simp only at h
  subst h
  refine ⟨((GoMap.orEmpty d).range ro).map Prod.fst, GoMap.range_keys_nodup ro _, ?_, ?_⟩
  · intro v
    unfold Set.Contains
    rw [(GoMap.range_keys_perm ro (GoMap.orEmpty d)).mem_iff, GoMap.mem_keys]
  · simp only [Set.marshal, Set.lockedList, utils.LockPtr.RLock, utils.LockPtr.RUnlock]

/-- Round trip of sets without a lock: for a codec that decodes what it encoded, the bytes
of `s` unmarshalled into `t` leave `t` with exactly the members of `s`. -/
theorem marshal_unmarshal_unsynchronized {E B : Type} (ro : RangeOrder) (s t : Set T)
    (m : types.MarshalFunc E B (List T)) (um : types.UnmarshalFunc E B (List T))
    (hs : s.lock = none) (ht : t.lock = none)
    (hcodec : ∀ (vs : List T) (bytes : B), m vs = .ok bytes → um bytes [] = .ok vs)
    (bytes : B) (hb : (s.marshal ro m).map (fun r => r.1) = .ok (.ok bytes)) :
    ∃ t', t.unmarshal um bytes = .ok (none, t') ∧ ∀ v, t'.Contains v = s.Contains v := by
  obtain ⟨list, _, hmem, hmar⟩ := marshal_of_unsynchronized ro s m hs
  rw [hmar] at hb
  have hm : m list = .ok bytes := by
    cases hr : m list with
    | error e => rw [hr] at hb; simp [Except.map] at hb
    | ok b =>
      rw [hr] at hb
      simp only [Except.map, Except.ok.injEq] at hb
      rw [hb]
  refine ⟨New list, unmarshal_of_unsynchronized t um bytes list ht (hcodec list bytes hm), ?_⟩
  intro v
  unfold New
  rw [Contains_Add]
  have hnone : ({ data := none } : Set T).Contains v = false := rfl
  rw [hnone, Bool.or_false]
  by_cases hv : v ∈ list
  · rw [decide_eq_true hv, (hmem v).mp hv]
  · rw [decide_eq_false hv]
    cases hc : s.Contains v with
    | false => rfl
    | true => exact absurd ((hmem v).mpr hc) hv

end set

/-- C18 (fails on the code): on a synchronized set `unmarshal` never returns. The set made
by `NewSafe("a")` has a free lock and the member `a`; `unmarshal` of a payload that the
codec decodes to `["b"]` takes the write lock and then blocks in `Add`, which asks for the
same lock, where the claim has the set end up with the member `b` alone. On the set made
by `New("a")`, which has no lock, the same call returns nil and leaves exactly `b`. -/
theorem Set_unmarshal_blocks_when_synchronized :
    (set.NewSafe ["a"]).map (fun t => (t.Contains "a", t.lock)) =
        .ok (true, some utils.Lock.new) ∧
      (set.NewSafe ["a"]).bind (fun t => t.unmarshal
        (fun (bytes : List String) _ => (.ok bytes : Except Unit (List String))) ["b"]) =
        .error Fault.blocked ∧
      ((set.New ["a"]).unmarshal
        (fun (bytes : List String) _ => (.ok bytes : Except Unit (List String))) ["b"]).map
          (fun r => (r.1, r.2.Contains "a", r.2.Contains "b")) = .ok (none, false, true) := by
  refine ⟨?_, ?_, ?_⟩
  · rw [set.NewSafe_eq]
    rfl
  · rw [set.NewSafe_eq]
    exact set.unmarshal_of_synchronized
      ({ data := (set.New ["a"]).data, lock := some utils.Lock.new } : set.Set String)
      (fun (bytes : List String) _ => (.ok bytes : Except Unit (List String))) ["b"] ["b"]
      rfl rfl
  · rw [set.unmarshal_of_unsynchronized (set.New ["a"])
      (fun (bytes : List String) _ => (.ok bytes : Except Unit (List String))) ["b"] ["b"]
      rfl rfl]
    rfl

/-! ## `slice.Rigid`: `Take`, `Get` and the capacity bound -/

namespace slice

variable {T : Type}

theorem toSOfInt_pred {bits n : Nat} (h1 : 1 ≤ n) (h : n < 2 ^ bits) :
    toSOfInt bits ((n : Int) - 1) = n - 1 := by
  unfold toSOfInt
  have hpow : ((2 : Int) ^ bits) = ((2 ^ bits : Nat) : Int) := by push_cast; rfl
  have h0 : (0 : Int) ≤ (n : Int) - 1 := by omega
  have h2 : (n : Int) - 1 < (2 : Int) ^ bits := by rw [hpow]; omega
  rw [Int.emod_eq_of_lt h0 h2]
  omega

/-- The method `Get` on a buffer that is not empty: an index below the length is served, an
index above the length is moved to the last element, and the index equal to the length is
left as it is and is out of range. -/
theorem Rigid.Get_cases (r : Rigid T) (idx : Nat) (h1 : 1 ≤ r.data.length)
    (hlen : r.data.length < 2 ^ r.bits) :
    r.Get idx =
      if idx < r.data.length then (r.data[idx]?).map (fun x => (idx, x))
      else if idx = r.data.length then none
      else (r.data[r.data.length - 1]?).map (fun x => (r.data.length - 1, x)) := by
  unfold Rigid.Get
  simp only [toS_of_lt hlen, toSOfInt_pred h1 hlen, gt_iff_lt]
  by_cases hlt : idx < r.data.length
  · rw [if_neg (by omega), if_pos hlt]
    cases r.data[idx]? <;> rfl
  · rw [if_neg hlt]
    by_cases heq : idx = r.data.length
    · rw [if_neg (by omega), if_pos heq]
      have hnone : r.data[idx]? = none := by
        rw [List.getElem?_eq_none_iff]; omega
      rw [hnone]
    · rw [if_pos (by omega), if_neg heq]
      cases r.data[r.data.length - 1]? <;> rfl

end slice

/-- C22: `Take()` hands out the contents and empties the buffer. For every buffer, `Take()`
returns exactly what `GetAll()` returned, in the same order, and leaves a buffer on which
`GetAll()` is empty and whose capacity and size type are unchanged; a following `Add(x)`
with a length representable in the size type keeps the last `min(capacity, len x)` items
of `x` and returns the others. -/
theorem Rigid_Take_empties {T : Type} (r : slice.Rigid T) (x : List T)
    (hx : x.length < 2 ^ r.bits) :
    r.Take.1 = r.GetAll ∧ r.Take.2.GetAll = [] ∧ r.Take.2.size = r.size ∧
      r.Take.2.bits = r.bits ∧
      ∃ e r', r.Take.2.Add x = some (e, r') ∧ e ++ r'.GetAll = x ∧
        r'.GetAll.length = min r.size x.length ∧ r'.size = r.size := by
  refine ⟨rfl, rfl, rfl, rfl, ?_⟩
  obtain ⟨e, r', h1, h2, h3, _, h5, _⟩ := slice.Rigid.Add_spec r.Take.2 x
    (by simpa [slice.Rigid.Take] using hx)
  refine ⟨e, r', h1, ?_, ?_, h5⟩
  · simpa [slice.Rigid.Take, slice.Rigid.GetAll] using h2
  · simpa [slice.Rigid.Take, slice.Rigid.GetAll] using h3

/-- Witness of C22: a buffer of capacity 2 (64-bit size type) that holds `a, b`; after
`Take()` the call `Add("c", "d", "e")` keeps two items. -/
theorem Rigid_Take_empties_witness :
    ["c", "d", "e"].length < 2 ^ (slice.Rigid.mk 64 ["a", "b"] 2).bits ∧
      (slice.Rigid.mk 64 ["a", "b"] 2).Take.1 = ["a", "b"] ∧
      (slice.Rigid.mk 64 ["a", "b"] 2).Take.2.GetAll = [] :=
  ⟨by decide, (Rigid_Take_empties (slice.Rigid.mk 64 ["a", "b"] 2) ["c", "d", "e"]
    (by decide)).1, (Rigid_Take_empties (slice.Rigid.mk 64 ["a", "b"] 2) ["c", "d", "e"]
    (by decide)).2.1⟩

/-- C28 (fails on the code): `Get` panics at the index equal to the length. On the buffer of
capacity 3 (64-bit size type) that holds `a`, `Get(0)` refers to `a`, `Get(2)` is moved to
the last element and refers to `a`, and `Get(1)` panics, where the claim has it refer to the
last element: the index is moved only when it is greater than the length. -/
theorem Rigid_Get_panics_at_length :
    ((slice.NewRigid 64 3 : slice.Rigid String).Add ["a"]).map
      (fun p => (p.2.GetAll, p.2.Get 0, p.2.Get 1, p.2.Get 2)) =
      some (["a"], some (0, "a"), none, some (0, "a")) := by
  decide

/-- C29 (fails on the code): the capacity bound fails in the size type `uint8`. With
capacity 255, 256 calls of `Add` with one value each leave 256 values stored; with
capacity 10, one call of `Add` with 256 values evicts nothing and leaves 256 values
stored: the length 256 is 0 in `uint8`, which does not exceed the capacity. -/
theorem Rigid_capacity_exceeded_uint8 :
    ((slice.NewRigid 8 255 : slice.Rigid Nat).addEach (List.range 256)).map
        (fun p => (p.2.size, p.2.GetAll.length)) = some (255, 256) ∧
      ((slice.NewRigid 8 10 : slice.Rigid Nat).Add (List.range 256)).map
        (fun p => (p.1, p.2.size, p.2.GetAll.length)) = some ([], 10, 256) := by
  set_option maxRecDepth 100000 in decide

/-! ## Set membership -/

namespace set

variable {T : Type} [DecidableEq T]

theorem Set.Delete_Contains (s : Set T) (values : List T) (v : T) :
    (s.Delete values).Contains v = (decide (v ∉ values) && s.Contains v) := by
  obtain ⟨d, l⟩ := s
  cases d with
  | none => simp [Set.Delete, Set.Contains, GoMap.orEmpty, GoMap.get?, GoMap.lookupEntry]
  | some d =>
    simp only [Set.Delete, Set.Contains, GoMap.orEmpty, Option.map_some',
      GoMap.get?_foldl_delete]
    by_cases hv : v ∈ values
    · simp [hv]
    · simp [hv]

theorem Contains_New (values : List T) (v : T) :
    (New values).Contains v = decide (v ∈ values) := by
  unfold New
  rw [Contains_Add]
  have hnone : ({ data := none } : Set T).Contains v = false := rfl
  rw [hnone, Bool.or_false]

/-- The method `List` on a set whose lock is nil or free: the members, each once, and the
set as it was. -/
theorem lockedList_of_free (ro : RangeOrder) (s : Set T)
    (h : s.lock = none ∨ s.lock = some utils.Lock.new) :
    s.lockedList ro = .ok (((GoMap.orEmpty s.data).range ro).map Prod.fst, s) := by
  obtain ⟨d, l⟩ := s
  rcases h with h | h <;> simp only at h <;> subst h <;> rfl

end set

/-- C23: membership in a `Set`. For every set whose lock is nil or free, and values: the
call `Add(vs...)`, run with its lock steps and with the panic of an assignment to a nil
map, returns without fault and leaves the set `Add` stands for here, because `init` has
made the map, and so does the call of `Add` in `New(vs...)`, which starts from a nil map;
after `Add(vs...)`, `Contains(v)` is true for each `v` in `vs` and as before for every
other value; after `Delete(vs...)` and after `Remove(vs...)`, `Contains(v)` is false for
each `v` in `vs` and as before for every other value, and the two calls leave the same
members, the same `Length()` and the same lock; `New(vs...)` contains exactly the values
`vs`; and `List()` returns a list without repetition that holds exactly the members, and
`Length()` is its length. -/
theorem Set_membership {T : Type} [DecidableEq T] (s : set.Set T) (vs : List T)
    (ro : RangeOrder) (hlock : s.lock = none ∨ s.lock = some utils.Lock.new) :
    (s.lockedAdd vs = .ok (s.Add vs) ∧
        ({ data := none } : set.Set T).lockedAdd vs = .ok (set.New vs)) ∧
      (∀ v, (s.Add vs).Contains v = (decide (v ∈ vs) || s.Contains v)) ∧
      (∀ v, (s.Delete vs).Contains v = (decide (v ∉ vs) && s.Contains v)) ∧
      (∀ v, (s.Remove vs).Contains v = (decide (v ∉ vs) && s.Contains v)) ∧
      ((s.Delete vs).Length = (s.Remove vs).Length ∧ (s.Delete vs).lock = (s.Remove vs).lock) ∧
      (∀ v, (set.New vs).Contains v = decide (v ∈ vs)) ∧
      ∃ list, s.lockedList ro = .ok (list, s) ∧ list.Nodup ∧
        (∀ v, v ∈ list ↔ s.Contains v = true) ∧ s.Length = list.length := by
  have hnil : ({ data := none } : set.Set T).init = { data := some GoMap.empty } := rfl
  refine ⟨⟨?_, ?_⟩,
    fun v => set.Contains_Add s vs v, fun v => set.Set.Delete_Contains s vs v,
    fun v => set.Set.Remove_Contains s vs v, ⟨?_, ?_⟩, fun v => set.Contains_New vs v, ?_⟩
  · rcases hlock with h | h
    · exact set.lockedAdd_of_unsynchronized s vs h
    · exact set.lockedAdd_of_free s vs h
  · unfold set.Set.lockedAdd
    simp only [hnil, set.Set.assignAll_some, utils.LockPtr.Lock, utils.LockPtr.Unlock]
    rfl
  · apply GoMap.len_eq_of_get?_eq
    intro k
    have h1 := set.Set.Delete_Contains s vs k
    have h2 := set.Set.Remove_Contains s vs k
    have h3 : (s.Delete vs).Contains k = (s.Remove vs).Contains k := by rw [h1, h2]
    unfold set.Set.Contains at h3
    cases ha : (GoMap.orEmpty (s.Delete vs).data).get? k with
    | none =>
      cases hb : (GoMap.orEmpty (s.Remove vs).data).get? k with
      | none => rfl
      | some u => rw [ha, hb] at h3; cases h3
    | some u =>
      cases hb : (GoMap.orEmpty (s.Remove vs).data).get? k with
      | none => rw [ha, hb] at h3; cases h3
      | some u' => rfl
  · obtain ⟨d, l⟩ := s
    cases d <;> rfl
  · refine ⟨_, set.lockedList_of_free ro s hlock, GoMap.range_keys_nodup ro _, ?_, ?_⟩
    · intro v
      unfold set.Set.Contains
      rw [(GoMap.range_keys_perm ro (GoMap.orEmpty s.data)).mem_iff, GoMap.mem_keys]
    · unfold set.Set.Length
      rw [List.length_map, GoMap.len_range]

/-- Witness of C23: the set made by `New(1, 2, 1)`, which has no lock, and the values
`2, 3`; the call of `Add` in `New(2, 3)` starts from a nil map and returns without fault. -/
theorem Set_membership_witness :
    ((set.New [1, 2, 1]).lock = none ∨ (set.New [1, 2, 1]).lock = some utils.Lock.new) ∧
      (set.New [1, 2, 1]).lockedAdd [2, 3] = .ok ((set.New [1, 2, 1]).Add [2, 3]) ∧
      (({ data := none } : set.Set Nat).lockedAdd [2, 3]).map
        (fun t => (t.Contains 2, t.Contains 3, t.Contains 1)) = .ok (true, true, false) ∧
      ((set.New [1, 2, 1]).Add [2, 3]).Contains 3 = true ∧
      ((set.New [1, 2, 1]).Delete [2, 3]).Contains 2 = false ∧
      ((set.New [1, 2, 1]).Delete [2, 3]).Contains 1 = true :=
  ⟨Or.inl rfl,
    (Set_membership (set.New [1, 2, 1]) [2, 3] RangeOrder.asStored (Or.inl rfl)).1.1,
    rfl,
    ((Set_membership (set.New [1, 2, 1]) [2, 3] RangeOrder.asStored (Or.inl rfl)).2.1 3).trans
      (by decide),
    ((Set_membership (set.New [1, 2, 1]) [2, 3] RangeOrder.asStored (Or.inl rfl)).2.2.1 2).trans
      (by decide),
    ((Set_membership (set.New [1, 2, 1]) [2, 3] RangeOrder.asStored (Or.inl rfl)).2.2.1 1).trans
      (by decide)⟩

/-! ## `maps.Compare` -/

namespace maps

variable {K T : Type} [DecidableEq K] [DecidableEq T] [Inhabited T]

theorem compareLoop_eq_false (b : GoMap K T) (l : List (K × T)) :
    compareLoop b l = false ↔ ∀ p ∈ l, b.get p.1 = p.2 := by
  induction l with
  | nil => simp [compareLoop]
  | cons p rest ih =>
    unfold compareLoop
    by_cases hp : b.get p.1 = p.2
    · simp [hp, ih]
    · simp [hp]

/-- What `Compare` computes: it returns false exactly when the two maps have the same
number of entries and `b[k]`, the zero value where `b` has no `k`, equals `v` for every
entry `k: v` of `a`. -/
theorem Compare_eq_false (ro : RangeOrder) (a b : Option (GoMap K T)) :
    Compare ro a b = false ↔
      (GoMap.orEmpty a).len = (GoMap.orEmpty b).len ∧
        ∀ k v, (GoMap.orEmpty a).get? k = some v → (GoMap.orEmpty b).get k = v := by
  unfold Compare
  by_cases hlen : (GoMap.orEmpty a).len = (GoMap.orEmpty b).len
  · rw [if_neg (by simp [hlen]), compareLoop_eq_false]
    constructor
    · intro h
      refine ⟨hlen, fun k v hkv => ?_⟩
      have hmem : (k, v) ∈ (GoMap.orEmpty a).range ro :=
        (GoMap.range_perm ro _).mem_iff.mpr
          ((GoMap.lookupEntry_eq_some _ (GoMap.orEmpty a).nodup k v).mp hkv)
      exact h (k, v) hmem
    · rintro ⟨_, h⟩ p hp
      have hmem : p ∈ (GoMap.orEmpty a).entries := (GoMap.range_perm ro _).mem_iff.mp hp
      exact h p.1 p.2 (GoMap.lookupEntry_of_mem _ (GoMap.orEmpty a).nodup p hmem)
  · rw [if_pos (by simp [hlen])]
    simp [hlen]

/-- Where `a` stores the zero value under no key, `Compare` decides whether the maps
differ. -/
theorem Compare_of_no_zero (ro : RangeOrder) (a b : Option (GoMap K T))
    (hnz : ∀ k, (GoMap.orEmpty a).get? k ≠ some default) :
    Compare ro a b = true ↔ ∃ k, (GoMap.orEmpty a).get? k ≠ (GoMap.orEmpty b).get? k := by
  constructor
  · intro hc
    by_contra hne
    have hsame : ∀ k, (GoMap.orEmpty a).get? k = (GoMap.orEmpty b).get? k := by
      intro k
      by_contra hk
      exact hne ⟨k, hk⟩
    have hfalse : Compare ro a b = false := by
      rw [Compare_eq_false]
      refine ⟨GoMap.len_eq_of_get?_eq _ _ hsame, fun k v hkv => ?_⟩
      simp [GoMap.get, ← hsame k, hkv]
    rw [hfalse] at hc
    cases hc
  · rintro ⟨k, hk⟩
    by_contra hc
    have hfalse : Compare ro a b = false := by
      cases h : Compare ro a b with
      | false => rfl
      | true => exact absurd h hc
    obtain ⟨hlen, hall⟩ := (Compare_eq_false ro a b).mp hfalse
    have hsub : ∀ k v, (GoMap.orEmpty a).get? k = some v → (GoMap.orEmpty b).get? k = some v := by
      intro k v hkv
      have hg := hall k v hkv
      cases hb : (GoMap.orEmpty b).get? k with
      | none =>
        exfalso
        have hv : v = default := by simp [GoMap.get, hb] at hg; exact hg.symm
        exact hnz k (hv ▸ hkv)
      | some u =>
        have hu : u = v := by simpa [GoMap.get, hb] using hg
        rw [hu]
    have hkeys : ∀ x, x ∈ (GoMap.orEmpty a).keys → x ∈ (GoMap.orEmpty b).keys := by
      intro x hx
      rw [GoMap.mem_keys] at hx ⊢
      cases hax : (GoMap.orEmpty a).get? x with
      | none => rw [hax] at hx; cases hx
      | some v => rw [hsub x v hax]; rfl
    have hperm : (GoMap.orEmpty a).keys.Perm (GoMap.orEmpty b).keys := by
      apply List.Subperm.perm_of_length_le
      · exact List.subperm_of_subset (GoMap.orEmpty a).nodup hkeys
      · have : (GoMap.orEmpty b).len ≤ (GoMap.orEmpty a).len := by omega
        simpa [GoMap.keys, GoMap.len] using this
    apply hk
    cases hax : (GoMap.orEmpty a).get? k with
    | some v => rw [hsub k v hax]
    | none =>
      cases hbx : (GoMap.orEmpty b).get? k with
      | none => rfl
      | some u =>
        exfalso
        have hb : k ∈ (GoMap.orEmpty b).keys := by rw [GoMap.mem_keys, hbx]; rfl
        have ha : k ∈ (GoMap.orEmpty a).keys := hperm.mem_iff.mpr hb
        rw [GoMap.mem_keys, hax] at ha
        cases ha

end maps

/-- C30 (fails on the code): `Compare` misses a difference where `a` stores the zero value.
For `a` holding `1: 0` and `b` holding `2: 5`, which differ, `Compare(a, b)` is false under
every iteration order, where the claim has it true, and `Compare(b, a)` is true, where the
claim has the two calls agree: the lookup `b[1]` of the key that `b` lacks gives the zero
value, which is what `a` stores. -/
theorem Compare_misses_zero_value (ro : RangeOrder) :
    maps.Compare ro (some (GoMap.ofList [(1, 0)])) (some (GoMap.ofList [(2, 5)])) = false ∧
      maps.Compare ro (some (GoMap.ofList [(2, 5)])) (some (GoMap.ofList [(1, 0)])) = true ∧
      (GoMap.ofList [(1, 0)]).get? 1 ≠ (GoMap.ofList [(2, 5)]).get? 1 := by
  have h1 : ro.perm [((1 : Nat), (0 : Nat))] = [(1, 0)] := List.perm_singleton.mp (ro.isPerm _)
  have h2 : ro.perm [((2 : Nat), (5 : Nat))] = [(2, 5)] := List.perm_singleton.mp (ro.isPerm _)
  refine ⟨?_, ?_, by decide⟩
  · have hr : (GoMap.orEmpty (some (GoMap.ofList [((1 : Nat), (0 : Nat))]))).range ro = [(1, 0)] := h1
    unfold maps.Compare
    rw [hr]
    decide
  · have hr : (GoMap.orEmpty (some (GoMap.ofList [((2 : Nat), (5 : Nat))]))).range ro = [(2, 5)] := h2
    unfold maps.Compare
    rw [hr]
    decide

/-! ## OrderedMap: the reads agree on one order -/

theorem zip_map_self {α β : Type} (f : α → β) (l : List α) :
    l.zip (l.map f) = l.map (fun a => (a, f a)) := by
  induction l with
  | nil => rfl
  | cons a rest ih => simp [ih]

namespace maps

open types

namespace OrderedMap

variable {K V : Type} [LinearOrder K] [Inhabited V]

/-- The method `Values` reads the backing map along the keys that `Keys` returns. -/
theorem Values_along_Keys (ro : RangeOrder) (m : OrderedMap K V) :
    m.Values ro = ((m.Keys ro).1.map (fun k => (GoMap.orEmpty m.data).get k), (m.Keys ro).2) := by
  simp only [Values, Keys, sort_data]

/-- The method `ForEach` calls its callback along the keys that `Keys` returns. -/
theorem ForEach_along_Keys {σ : Type} (ro : RangeOrder) (m : OrderedMap K V)
    (fn : K → V → σ → σ) (s : σ) :
    m.ForEach ro fn s =
      ((m.Keys ro).1.foldl (fun acc k => fn k ((GoMap.orEmpty m.data).get k) acc) s,
        (m.Keys ro).2) := by
  simp only [ForEach, Keys, sort_data]

/-- The method `Iter` sends the pairs along the keys that `Keys` returns and closes. -/
theorem Iter_along_Keys (ro : RangeOrder) (m : OrderedMap K V) :
    m.Iter ro =
      (.ok { cap := (m.Keys ro).1.length,
             sent := (m.Keys ro).1.map (fun k => ⟨k, (GoMap.orEmpty m.data).get k⟩),
             closed := true }, (m.Keys ro).2) := by
  simp only [Iter, Keys, sort_data]
  rw [sendAll_open _ _ rfl]
  simp [Chan.make, Chan.close]

/-- After a read the cache is in force: a second read returns the same keys, whatever the
iteration order of the backing map. -/
theorem Keys_after_Keys (ro ro' : RangeOrder) (m : OrderedMap K V) :
    (m.Keys ro).2.Keys ro' = m.Keys ro := by
  simp only [Keys]
  rw [sort_of_sorted ro' (m.sort ro) (sort_sorted ro m)]

end OrderedMap

end maps

/-- C21: the reads of an `OrderedMap` agree on one order. For every `OrderedMap`:
`Values()[i]` is the value the backing map holds under `Keys()[i]` (the list of values is
the list of keys with each key replaced by `Get` of it); `ForEach` calls its callback on
the pairs `(Keys()[i], Values()[i])` in increasing `i`, and the channel of `Iter()` has
received these pairs in this order and is closed; all four reads leave the map in the same
state, and a read that follows `Keys()` agrees with it under every iteration order of the
backing map; with "1", "2", "3" set to "a", "b", "c", `Values()` is `["a", "b", "c"]`. -/
theorem OrderedMap_reads_one_order {K V σ : Type} [LinearOrder K] [Inhabited V]
    (m : maps.OrderedMap K V) (ro ro' : RangeOrder) (fn : K → V → σ → σ) (s : σ) :
    (m.Values ro).1 = (m.Keys ro).1.map (fun k => m.toMap.Get k) ∧
      (m.Values ro).1.length = (m.Keys ro).1.length ∧
      (m.ForEach ro fn s).1 =
        ((m.Keys ro).1.zip (m.Values ro).1).foldl (fun acc p => fn p.1 p.2 acc) s ∧
      (m.Iter ro).1 = .ok
        { cap := (m.Keys ro).1.length,
          sent := ((m.Keys ro).1.zip (m.Values ro).1).map (fun p => ⟨p.1, p.2⟩),
          closed := true } ∧
      ((m.Values ro).2 = (m.Keys ro).2 ∧ (m.ForEach ro fn s).2 = (m.Keys ro).2 ∧
        (m.Iter ro).2 = (m.Keys ro).2) ∧
      (((m.Keys ro).2.Keys ro').1 = (m.Keys ro).1 ∧
        ((m.Keys ro).2.Values ro').1 = (m.Keys ro).1.map (fun k => m.toMap.Get k)) ∧
      (((maps.NewOrdered (none : Option (GoMap String String)) none).setAll
        [("1", "a"), ("2", "b"), ("3", "c")]).Values ro).1 = ["a", "b", "c"] := by
  have hV : ∀ (K' V' : Type) [LinearOrder K'] [Inhabited V'] (x : maps.OrderedMap K' V')
      (r : RangeOrder), (x.Values r).1 = (x.Keys r).1.map (fun k => x.toMap.Get k) := by
    intro K' V' _ _ x r
    rw [maps.OrderedMap.Values_along_Keys]
    rfl
  refine ⟨hV K V m ro, ?_, ?_, ?_, ⟨?_, ?_, ?_⟩, ⟨?_, ?_⟩, ?_⟩
  · rw [hV K V m ro, List.length_map]
  · rw [maps.OrderedMap.ForEach_along_Keys, maps.OrderedMap.Values_along_Keys, zip_map_self,
      List.foldl_map]
  · rw [maps.OrderedMap.Iter_along_Keys, maps.OrderedMap.Values_along_Keys, zip_map_self,
      List.map_map]
    rfl
  · rw [maps.OrderedMap.Values_along_Keys]
  · rw [maps.OrderedMap.ForEach_along_Keys]
  · rw [maps.OrderedMap.Iter_along_Keys]
  · rw [maps.OrderedMap.Keys_after_Keys]
  · rw [hV K V (m.Keys ro).2 ro', maps.OrderedMap.Keys_after_Keys]
    apply List.map_congr_left
    intro k _
    show (GoMap.orEmpty (m.sort ro).data).get k = (GoMap.orEmpty m.data).get k
    rw [maps.OrderedMap.sort_data]
  · rw [hV]
    obtain ⟨h1, _, h3⟩ := maps.OrderedMap.Keys_after_sets
      (none : Option (GoMap String String)) none (fun a b => a < b) (fun _ _ => Iff.rfl)
      [("1", "a"), ("2", "b"), ("3", "c")] ro
    have hnd : ((((maps.NewOrdered (none : Option (GoMap String String)) none).setAll
        [("1", "a"), ("2", "b"), ("3", "c")]).Keys ro).1).Nodup :=
      List.Pairwise.imp (fun h => ne_of_lt h) h1
    have hperm : ((((maps.NewOrdered (none : Option (GoMap String String)) none).setAll
        [("1", "a"), ("2", "b"), ("3", "c")]).Keys ro).1).Perm ["1", "2", "3"] := by
      refine (List.perm_ext_iff_of_nodup hnd (by decide)).mpr (fun a => ?_)
      refine (h3 a).trans ?_
      simp only [GoMap.orEmpty, GoMap.keys, List.map_nil, List.not_mem_nil, false_or,
        List.map_cons, List.mem_cons]
    have hsorted : List.Pairwise (fun a b : String => a < b) ["1", "2", "3"] := by
      simp only [List.pairwise_cons, List.mem_cons, List.mem_singleton, forall_eq_or_imp,
        forall_eq, String.lt_iff_toList_lt]
      decide
    have hkeys := List.eq_of_perm_of_sorted hperm h1 hsorted
    rw [hkeys]
    have e1 := maps.OrderedMap.Set_of_writable
      (maps.NewOrdered (none : Option (GoMap String String)) none) "1" "a" rfl
    have e2 := maps.OrderedMap.Set_of_writable _ "2" "b" e1.2.1
    have e3 := maps.OrderedMap.Set_of_writable _ "3" "c" e2.2.1
    simp only [List.map_cons, List.map_nil, maps.Map.Get, maps.OrderedMap.setAll,
      List.foldl_cons, List.foldl_nil]
    rw [e3.2.2, e2.2.2, e1.2.2]
    simp [GoMap.get, GoMap.get?_set]

/-! ## Map: change events -/

namespace maps

open types

namespace Map

variable {K V : Type} [DecidableEq K] [Inhabited V]

theorem map_init_Hub (m : Map K V) : m.init.Hub = m.Hub := by
  obtain ⟨d, ro, lk, hb⟩ := m
  cases d <;> rfl

theorem map_init_readonly (m : Map K V) : m.init.readonly = m.readonly := by
  obtain ⟨d, ro, lk, hb⟩ := m
  cases d <;> rfl

/-- The Hub statement on a map with a Hub that has a client: the message is one more
message sent on `broadcast`, and nothing else of the map changes. -/
theorem publish_of_clients (m : Map K V) (hub : channel.Hub (WatchMsg K V))
    (msg : WatchMsg K V) (hhub : m.Hub = some hub) (hclients : 0 < hub.clients.length) :
    m.publish msg =
      { m with Hub := some { hub with broadcast := hub.broadcast ++ [msg] } } := by
  unfold publish
  rw [hhub]
  simp only [channel.Hub.Broadcast, gt_iff_lt, hclients, if_true]

/-- The last state of `SetSteps` is the state `Set` returns. -/
theorem SetSteps_last (m : Map K V) (k : K) (v : V) :
    (m.SetSteps k v).getLast? = some (m.Set k v) := by
  unfold SetSteps Set
  cases m.readonly <;> rfl

/-- The last state of `DeleteSteps` is the state `Delete` returns. -/
theorem DeleteSteps_last (m : Map K V) (k : K) :
    (m.DeleteSteps k).getLast? = some (m.Delete k) := by
  unfold DeleteSteps Delete
  cases m.readonly <;> rfl

end Map

end maps

/-- C27: the change events of an eventful `Map` that has a registered subscriber. On a map
that is not read-only, `Set(k, v)` goes through a state in which the Hub has been handed
exactly the one message `{PUT, k, v}` and the backing map answers every lookup as before,
and then stores `v`, the Hub staying as it is; `Delete(k)` goes through a state in which
the Hub has been handed exactly the one message `{DELETE, k, x}`, `x` being `Get(k)` before
the call, and the backing map is as before, and then removes `k`, the Hub staying as it
is; on the read-only map both calls return at once and the Hub is handed nothing. -/
theorem Map_event_before_change {K V : Type} [DecidableEq K] [Inhabited V]
    (m : maps.Map K V) (hub : channel.Hub (types.WatchMsg K V)) (k : K) (v : V)
    (hhub : m.Hub = some hub) (hclients : 0 < hub.clients.length)
    (hro : m.readonly = false) :
    (∃ m1 m2, m.SetSteps k v = [m1, m2, m.Set k v] ∧
      m2.Hub = some { hub with broadcast := hub.broadcast ++
        [{ Event := types.PutEvent, Key := k, Value := v }] } ∧
      (∀ k', (GoMap.orEmpty m2.data).get? k' = (GoMap.orEmpty m.data).get? k') ∧
      (m.Set k v).Hub = m2.Hub ∧ (m.Set k v).Get k = v) ∧
    (∃ m1, m.DeleteSteps k = [m1, m.Delete k] ∧
      m1.Hub = some { hub with broadcast := hub.broadcast ++
        [{ Event := types.DeleteEvent, Key := k, Value := m.Get k }] } ∧
      m1.data = m.data ∧ (m.Delete k).Hub = m1.Hub ∧ (m.Delete k).Exists k = false) ∧
    (m.ReadOnly.SetSteps k v = [m.ReadOnly] ∧ m.ReadOnly.DeleteSteps k = [m.ReadOnly] ∧
      (m.ReadOnly.Set k v).Hub = some hub ∧ (m.ReadOnly.Delete k).Hub = some hub) := by
  have hinit : m.init.Hub = some hub := by rw [maps.Map.map_init_Hub, hhub]
  refine ⟨?_, ?_, ⟨rfl, rfl, ?_, ?_⟩⟩
  · have hp := maps.Map.publish_of_clients m.init hub
      { Event := types.PutEvent, Key := k, Value := v } hinit hclients
    refine ⟨m.init, m.init.publish { Event := types.PutEvent, Key := k, Value := v }, ?_, ?_,
      ?_, ?_, ?_⟩
    · unfold maps.Map.SetSteps maps.Map.Set
      rw [if_neg (by simp [hro]), if_neg (by simp [hro])]
    · rw [hp]
    · intro k'
      rw [maps.Map.map_publish_data, maps.Map.map_data_init]
    · unfold maps.Map.Set
      rw [if_neg (by simp [hro])]
    · have hd := maps.Map.map_Set_data m k v hro
      simp [maps.Map.Get, GoMap.get, hd, GoMap.get?_set]
  · have hp := maps.Map.publish_of_clients m hub
      { Event := types.DeleteEvent, Key := k, Value := m.Get k } hhub hclients
    refine ⟨m.publish { Event := types.DeleteEvent, Key := k, Value := m.Get k }, ?_, ?_, ?_,
      ?_, ?_⟩
    · unfold maps.Map.DeleteSteps maps.Map.Delete
      rw [if_neg (by simp [hro]), if_neg (by simp [hro])]
    · rw [hp]
    · rw [maps.Map.map_publish_data]
    · unfold maps.Map.Delete
      rw [if_neg (by simp [hro])]
    · have hd := maps.Map.map_Delete_data m k hro
      simp [maps.Map.Exists, hd, GoMap.get?_delete]
  · have h := (maps.Map.frozen_of_readonly m.ReadOnly rfl k v id).1
    rw [h]
    exact hhub
  · have h := (maps.Map.frozen_of_readonly m.ReadOnly rfl k v id).2.1
    rw [h]
    exact hhub

/-- Witness of C27: the map that holds `1: "x"`, made eventful, with the client 0 in its
Hub; `Delete(1)` hands the Hub the message `{DELETE, 1, "x"}`. -/
theorem Map_event_before_change_witness :
    ({ data := some (GoMap.ofList [(1, "x")]), readonly := false,
       Hub := some { clients := [0], broadcast := [] } } : maps.Map Nat String).readonly
        = false ∧
      (({ data := some (GoMap.ofList [(1, "x")]), readonly := false,
          Hub := some { clients := [0], broadcast := [] } } : maps.Map Nat String).Delete 1).Hub
        = some { clients := [0],
                 broadcast := [{ Event := types.DeleteEvent, Key := 1, Value := "x" }] } :=
  have h := (Map_event_before_change
    ({ data := some (GoMap.ofList [(1, "x")]), readonly := false,
       Hub := some { clients := [0], broadcast := [] } } : maps.Map Nat String)
    { clients := [0], broadcast := [] } 1 "y" rfl (by decide) rfl).2.1
  ⟨rfl, h.elim (fun m1 hm1 => hm1.2.2.2.1.trans (hm1.2.1.trans rfl))⟩

/-! ## Bucket -/

namespace strings

/-- A string begins with `p` exactly when it is `p` followed by some string. -/
theorem HasPrefix_iff (s p : String) : HasPrefix s p = true ↔ ∃ rest : String, s = p ++ rest := by
  unfold HasPrefix
  rw [List.isPrefixOf_iff_prefix]
  constructor
  · rintro ⟨t, ht⟩
    refine ⟨⟨t⟩, String.ext ?_⟩
    rw [String.data_append, ht]
  · rintro ⟨rest, hrest⟩
    refine ⟨rest.data, ?_⟩
    rw [hrest, String.data_append]

end strings

theorem foldl_append_singleton {α β : Type} (f : α → β) (l : List α) (init : List β) :
    l.foldl (fun acc a => acc ++ [f a]) init = init ++ l.map f := by
  induction l generalizing init with
  | nil => simp
  | cons a rest ih => simp [ih]

namespace maps

open types

theorem relay_open {V : Type} (pfx : String) (items : List (Item String V)) :
    ∀ (out : Chan (Item String V)), out.closed = false →
      relay pfx out items = .ok
        { cap := out.cap,
          sent := out.sent ++ items.filter (fun item => strings.HasPrefix item.Key pfx),
          closed := false } := by
  induction items with
  | nil =>
    intro out hc
    cases out with
    | mk cap sent closed =>
      simp only at hc
      simp [relay, hc]
  | cons item rest ih =>
    intro out hc
    unfold relay
    by_cases hp : strings.HasPrefix item.Key pfx = true
    · simp only [hp, if_true, Chan.send, hc, Bool.false_eq_true, if_false]
      rw [ih _ rfl]
      simp [List.filter_cons, hp]
    · simp only [hp, if_false, Bool.false_eq_true]
      rw [ih out hc]
      simp [List.filter_cons, hp]

namespace Map

variable {K V : Type} [DecidableEq K] [Inhabited V]

/-- The channel `Iter` returns: for the keys in the order of `Keys`, the pair of the key and
`Get` of it, and closed. -/
theorem Iter_closed (ro : RangeOrder) (m : Map K V) :
    m.Iter ro = .ok { cap := m.Len, sent := (m.Keys ro).map (fun k => ⟨k, m.Get k⟩),
                      closed := true } := by
  have hrange := GoMap.range_eq_map_keys ro (GoMap.orEmpty m.data)
  unfold Iter
  simp only
  rw [sendAll_open _ _ rfl]
  simp only [Chan.close, Chan.make, Bool.false_eq_true, if_false, List.nil_append, Len]
  congr 2
  conv => lhs; rw [hrange]
  simp only [Keys, Get, List.map_map]
  rfl

theorem Keys_nodup (ro : RangeOrder) (m : Map K V) : (m.Keys ro).Nodup :=
  GoMap.range_keys_nodup ro _

theorem mem_Keys (ro : RangeOrder) (m : Map K V) (k : K) :
    k ∈ m.Keys ro ↔ m.Exists k = true := by
  unfold Keys Exists
  rw [(GoMap.range_keys_perm ro (GoMap.orEmpty m.data)).mem_iff, GoMap.mem_keys]

theorem Keys_perm (ro ro' : RangeOrder) (m : Map K V) : (m.Keys ro).Perm (m.Keys ro') :=
  (GoMap.range_keys_perm ro _).trans (GoMap.range_keys_perm ro' _).symm

end Map

/-- The channel `Bucket.Iter` returns over a parent that is not nil: the items of the
parent whose key begins with the prefix, in the order of the parent, and closed. -/
theorem Bucket_Iter_closed {V : Type} [Inhabited V] (ro : RangeOrder) (m : Map String V)
    (pfx : String) :
    (NewBucket (some m) pfx).Iter ro = .ok
      { cap := m.Len,
        sent := ((m.Keys ro).filter (fun k => strings.HasPrefix k pfx)).map
          (fun k => ⟨k, m.Get k⟩),
        closed := true } := by
  simp only [Bucket.Iter, NewBucket, MapPtr.Len, MapPtr.Iter, Map.Iter_closed, recvAll, if_true]
  rw [relay_open _ _ _ rfl]
  simp only [Chan.make, Chan.close, Bool.false_eq_true, if_false, List.nil_append,
    List.filter_map]
  rfl

end maps

/-- C24: a bucket translates keys by prepending its prefix. For every bucket `b` with
prefix `p` over the parent pointer `m` (nil or not), key `k` and value `v`: `b.Exists(k)`,
`b.Get(k)` and `b.GetFull(k)` are `m.Exists(p+k)`, `m.Get(p+k)` and `m.GetFull(p+k)`;
`b.Set(k, v)` leaves the parent as `m.Set(p+k, v)` does (and faults when that faults) and
`b.Delete(k)` leaves it as `m.Delete(p+k)` does; `b.Bucket(q)` is a bucket over the same
parent with prefix `p+q`, and its `Get(k)`, `Exists(k)` and `GetFull(k)` are `b.Get(q+k)`,
`b.Exists(q+k)` and `b.GetFull(q+k)`; and over a parent that is not nil and not read-only,
after `b.Set(k, v)` the bucket has `Get(k) = v` and the parent has `Get(p+k) = v`, and
after `b.Delete(k)` the bucket has `Exists(k)` false. -/
theorem Bucket_translates_keys {V : Type} [Inhabited V] (m : Option (maps.Map String V))
    (p q k : String) (v : V) :
    ((maps.NewBucket m p).Exists k = maps.MapPtr.Exists m (p ++ k) ∧
      (maps.NewBucket m p).Get k = maps.MapPtr.Get m (p ++ k) ∧
      (maps.NewBucket m p).GetFull k = maps.MapPtr.GetFull m (p ++ k)) ∧
    ((maps.NewBucket m p).Set k v =
        (maps.MapPtr.Set m (p ++ k) v).map (fun m' => maps.NewBucket m' p) ∧
      (maps.NewBucket m p).Delete k = maps.NewBucket (maps.MapPtr.Delete m (p ++ k)) p) ∧
    ((maps.NewBucket m p).Bucket q = maps.NewBucket m (p ++ q) ∧
      ((maps.NewBucket m p).Bucket q).Get k = (maps.NewBucket m p).Get (q ++ k) ∧
      ((maps.NewBucket m p).Bucket q).Exists k = (maps.NewBucket m p).Exists (q ++ k) ∧
      ((maps.NewBucket m p).Bucket q).GetFull k = (maps.NewBucket m p).GetFull (q ++ k)) ∧
    (∀ m0 : maps.Map String V, m = some m0 → m0.readonly = false →
      (∃ b', (maps.NewBucket m p).Set k v = .ok b' ∧ b'.m = some (m0.Set (p ++ k) v) ∧
        b'.Get k = v ∧ b'.Exists k = true ∧ maps.MapPtr.Get b'.m (p ++ k) = v) ∧
      ((maps.NewBucket m p).Delete k).Exists k = false) := by
  refine ⟨⟨rfl, rfl, rfl⟩, ⟨?_, rfl⟩, ⟨rfl, ?_, ?_, ?_⟩, ?_⟩
  · simp only [maps.Bucket.Set, maps.NewBucket]
    cases maps.MapPtr.Set m (p ++ k) v <;> rfl
  · simp only [maps.Bucket.Get, maps.Bucket.Bucket, maps.NewBucket, String.append_assoc]
  · simp only [maps.Bucket.Exists, maps.Bucket.Bucket, maps.NewBucket, String.append_assoc]
  · simp only [maps.Bucket.GetFull, maps.Bucket.Bucket, maps.NewBucket, String.append_assoc]
  · intro m0 hm hro
    subst hm
    have hd := maps.Map.map_Set_data m0 (p ++ k) v hro
    have hk : (GoMap.orEmpty (m0.Set (p ++ k) v).data).get? (p ++ k) = some v := by
      rw [hd, GoMap.get?_set, if_pos rfl]
    have hdel := maps.Map.map_Delete_data m0 (p ++ k) hro
    refine ⟨⟨maps.NewBucket (some (m0.Set (p ++ k) v)) p, rfl, rfl, ?_, ?_, ?_⟩, ?_⟩
    · simp [maps.Bucket.Get, maps.NewBucket, maps.MapPtr.Get, maps.Map.Get, GoMap.get, hk]
    · simp [maps.Bucket.Exists, maps.NewBucket, maps.MapPtr.Exists, maps.Map.Exists, hk]
    · simp [maps.NewBucket, maps.MapPtr.Get, maps.Map.Get, GoMap.get, hk]
    · simp [maps.Bucket.Exists, maps.Bucket.Delete, maps.NewBucket, maps.MapPtr.Exists,
        maps.MapPtr.Delete, maps.Map.Exists, hdel, GoMap.get?_delete]

/-- Witness of C24: the bucket with prefix `a/` over an empty map that is not read-only;
after `Set("x", "1")` the bucket has `Get("x") = "1"` and the parent has it under `a/x`. -/
theorem Bucket_translates_keys_witness :
    (maps.New (none : Option (GoMap String String))).readonly = false ∧
      ∃ b', (maps.NewBucket (some (maps.New (none : Option (GoMap String String)))) "a/").Set
          "x" "1" = .ok b' ∧ b'.Get "x" = "1" ∧ maps.MapPtr.Get b'.m ("a/" ++ "x") = "1" :=
  have h := ((Bucket_translates_keys
    (some (maps.New (none : Option (GoMap String String)))) "a/" "" "x" "1").2.2.2
      (maps.New (none : Option (GoMap String String))) rfl rfl).1
  ⟨rfl, h.elim (fun b' hb => ⟨b', hb.1, hb.2.2.1, hb.2.2.2.2⟩)⟩

/-- C25: the enumerations of a bucket are those of its parent, filtered by the prefix, with
the keys left whole. For every bucket with prefix `p` over a parent `m` that is not nil,
under every iteration order: `Keys()` returns the keys of `m` that begin with `p`, whole,
each once, in the order of `m.Keys()`; `Values()` returns `m.Get` of these keys; the channel
of `Iter()` has received the pairs of these keys and their values and is closed, and
`ForEach` calls its callback on these pairs; and `Len()` is the number of keys of `m` that
begin with `p`. -/
theorem Bucket_enumeration_filters {V σ : Type} [Inhabited V] (m : maps.Map String V)
    (p : String) (ro : RangeOrder) (fn : String → V → σ → σ) (s : σ) :
    (maps.NewBucket (some m) p).Keys ro =
        .ok ((m.Keys ro).filter (fun k => strings.HasPrefix k p)) ∧
      ((m.Keys ro).filter (fun k => strings.HasPrefix k p)).Nodup ∧
      (∀ k, k ∈ (m.Keys ro).filter (fun k => strings.HasPrefix k p) ↔
        m.Exists k = true ∧ ∃ rest : String, k = p ++ rest) ∧
      (maps.NewBucket (some m) p).Values ro =
        .ok (((m.Keys ro).filter (fun k => strings.HasPrefix k p)).map (fun k => m.Get k)) ∧
      (maps.NewBucket (some m) p).Iter ro = .ok
        { cap := m.Len,
          sent := ((m.Keys ro).filter (fun k => strings.HasPrefix k p)).map
            (fun k => ⟨k, m.Get k⟩),
          closed := true } ∧
      (maps.NewBucket (some m) p).ForEach ro fn s =
        .ok (((m.Keys ro).filter (fun k => strings.HasPrefix k p)).foldl
          (fun acc k => fn k (m.Get k) acc) s) ∧
      (maps.NewBucket (some m) p).Len ro =
        .ok (((GoMap.orEmpty m.data).keys.filter (fun k => strings.HasPrefix k p)).length) := by
  have hiter := maps.Bucket_Iter_closed ro m p
  have hkeys : (maps.NewBucket (some m) p).Keys ro =
      .ok ((m.Keys ro).filter (fun k => strings.HasPrefix k p)) := by
    unfold maps.Bucket.Keys
    rw [hiter]
    simp only [maps.NewBucket, maps.MapPtr.Len, maps.recvAll, if_true]
    rw [foldl_append_singleton (fun (item : types.Item String V) => item.Key)]
    simp only [List.nil_append, List.map_map]
    congr 1
    exact List.map_id _
  refine ⟨hkeys, (maps.Map.Keys_nodup ro m).filter _, ?_, ?_, hiter, ?_, ?_⟩
  · intro k
    rw [List.mem_filter, maps.Map.mem_Keys, strings.HasPrefix_iff]
  · unfold maps.Bucket.Values
    rw [hiter]
    simp only [maps.NewBucket, maps.MapPtr.Len, maps.recvAll, if_true]
    rw [foldl_append_singleton (fun (item : types.Item String V) => item.Value)]
    simp only [List.nil_append, List.map_map]
    rfl
  · unfold maps.Bucket.ForEach
    rw [hiter]
    simp only [maps.recvAll, if_true, List.foldl_map]
  · unfold maps.Bucket.Len
    rw [hkeys]
    simp only
    congr 1
    exact ((GoMap.range_keys_perm ro (GoMap.orEmpty m.data)).filter _).length_eq

/-! ## The control loop of the Hub against its specification -/

namespace channel

variable {T : Type}

theorem sendClient_open (chans : List (Chan T)) (c : Nat) (v : T) (ch : Chan T)
    (hch : chans[c]? = some ch) (hopen : ch.closed = false) :
    sendClient chans c v = .ok (chans.set c { ch with sent := ch.sent ++ [v] }) := by
  simp only [sendClient, hch, Chan.send, hopen, Bool.false_eq_true, if_false]

theorem closeClient_open (chans : List (Chan T)) (c : Nat) (ch : Chan T)
    (hch : chans[c]? = some ch) (hopen : ch.closed = false) :
    closeClient chans c = .ok (chans.set c { ch with closed := true }) := by
  simp only [closeClient, hch, Chan.close, hopen, Bool.false_eq_true, if_false]

/-- Closing a channel that is closed already panics. -/
theorem closeClient_closed (chans : List (Chan T)) (c : Nat) (ch : Chan T)
    (hch : chans[c]? = some ch) (hclosed : ch.closed = true) :
    closeClient chans c = .error .panic := by
  simp only [closeClient, hch, Chan.close, hclosed, if_true]

/-- One broadcast over clients that are distinct and whose channels are open: each of them
gets the message once, and no other channel changes. -/
theorem deliver_spec (v : T) (L : List Nat) :
    ∀ (chans : List (Chan T)), L.Nodup →
      (∀ c ∈ L, ∃ ch, chans[c]? = some ch ∧ ch.closed = false) →
      ∃ chans', deliver v chans L = .ok chans' ∧ chans'.length = chans.length ∧
        ∀ a, chans'[a]? =
          if a ∈ L then (chans[a]?).map (fun ch => { ch with sent := ch.sent ++ [v] })
          else chans[a]? := by
  induction L with
  | nil =>
    intro chans _ _
    exact ⟨chans, rfl, rfl, fun a => by simp⟩
  | cons c rest ih =>
    intro chans hnd hopen
    rw [List.nodup_cons] at hnd
    obtain ⟨ch, hch, hc⟩ := hopen c (List.mem_cons_self _ _)
    have hlt : c < chans.length := by
      obtain ⟨h, _⟩ := List.getElem?_eq_some_iff.mp hch
      exact h
    have hrest : ∀ a ∈ rest, ∃ ch', (chans.set c { ch with sent := ch.sent ++ [v] })[a]? =
        some ch' ∧ ch'.closed = false := by
      intro a ha
      have hne : c ≠ a := fun e => hnd.1 (e ▸ ha)
      rw [List.getElem?_set_ne hne]
      exact hopen a (List.mem_cons_of_mem _ ha)
    obtain ⟨chans', h1, h2, h3⟩ := ih _ hnd.2 hrest
    refine ⟨chans', ?_, ?_, ?_⟩
    · simp only [deliver, sendClient_open chans c v ch hch hc]
      exact h1
    · rw [h2, List.length_set]
    · intro a
      rw [h3 a]
      by_cases hac : a = c
      · subst hac
        rw [if_neg hnd.1, if_pos (List.mem_cons_self _ _), List.getElem?_set_self hlt, hch]
        rfl
      · have hne : c ≠ a := fun e => hac e.symm
        rw [List.getElem?_set_ne hne]
        by_cases har : a ∈ rest
        · rw [if_pos har, if_pos (List.mem_cons_of_mem _ har)]
        · rw [if_neg har, if_neg (by simp [hac, har])]

/-- One round of the loop on a state that agrees with the views, for an admissible event:
the round returns, and the state agrees with the views after the event. -/
theorem step_matches (n : Nat) (ro : RangeOrder) (st : Loop T) (views : Nat → ClientView T)
    (e : Event T) (hm : Matches n st views) (hadm : admissible n views e = true) :
    ∃ st', st.step ro e = .ok st' ∧ Matches n st' (fun c => specStep c (views c) e) := by
  obtain ⟨hlen, hcl, hch, hop⟩ := hm
  cases e with
  | register c =>
    simp only [admissible, Bool.and_eq_true, decide_eq_true_eq, Bool.not_eq_true'] at hadm
    refine ⟨_, rfl, hlen, ?_, ?_, ?_⟩
    · intro a
      have hk : a ∈ (st.clients.set c ()).keys ↔ a = c ∨ a ∈ st.clients.keys :=
        GoMap.mem_keys_setEntry c () st.clients.entries a
      rw [hk, hcl a]
      by_cases hac : c = a
      · subst hac; simp [specStep]
      · have hca : ¬ a = c := fun e => hac e.symm
        simp [specStep, hac, hca]
    · intro a ha
      by_cases hac : c = a
      · subst hac
        simp only [specStep, if_true]
        exact hch c ha
      · simp only [specStep, hac, if_false]
        exact hch a ha
    · intro a hs
      by_cases hac : c = a
      · subst hac
        simp only [specStep, if_true]
        exact ⟨hadm.1, hadm.2⟩
      · simp only [specStep, hac, if_false] at hs ⊢
        exact hop a hs
  | unregister c =>
    simp only [admissible, Bool.and_eq_true, decide_eq_true_eq, Bool.not_eq_true'] at hadm
    have hcc := hch c hadm.1
    have hclose : closeClient st.chans c = .ok (st.chans.set c
        { cap := 0, sent := (views c).delivered, closed := true }) :=
      closeClient_open st.chans c _ hcc hadm.2
    have hlt : c < st.chans.length := by rw [hlen]; exact hadm.1
    refine ⟨{ clients := st.clients.delete c,
              chans := st.chans.set c { cap := 0, sent := (views c).delivered, closed := true } },
      ?_, ?_, ?_, ?_, ?_⟩
    · simp only [Loop.step, hclose]
    · simp only [List.length_set]; exact hlen
    · intro a
      have hk : (st.clients.delete c).keys = st.clients.keys.filter (fun x => decide (x ≠ c)) :=
        GoMap.keys_deleteEntry c st.clients.entries
      rw [hk, List.mem_filter, hcl a]
      by_cases hac : c = a
      · subst hac; simp [specStep]
      · have hca : ¬ a = c := fun e => hac e.symm
        simp [specStep, hac, hca]
    · intro a ha
      by_cases hac : c = a
      · subst hac
        simp only [specStep, if_true]
        rw [List.getElem?_set_self hlt]
      · simp only [specStep, hac, if_false]
        rw [List.getElem?_set_ne hac]
        exact hch a ha
    · intro a hs
      by_cases hac : c = a
      · subst hac
        simp [specStep] at hs
      · simp only [specStep, hac, if_false] at hs ⊢
        exact hop a hs
  | broadcast v =>
    have hnd : ((st.clients.range ro).map Prod.fst).Nodup := GoMap.range_keys_nodup ro _
    have hmem : ∀ a, a ∈ (st.clients.range ro).map Prod.fst ↔ (views a).subscribed = true := by
      intro a
      rw [(GoMap.range_keys_perm ro st.clients).mem_iff]
      exact hcl a
    have hopen : ∀ c ∈ (st.clients.range ro).map Prod.fst,
        ∃ ch, st.chans[c]? = some ch ∧ ch.closed = false := by
      intro c hc
      have hs := (hmem c).mp hc
      exact ⟨_, hch c (hop c hs).1, (hop c hs).2⟩
    obtain ⟨chans', h1, h2, h3⟩ := deliver_spec v _ st.chans hnd hopen
    refine ⟨{ st with chans := chans' }, ?_, ?_, ?_, ?_, ?_⟩
    · simp only [Loop.step, h1]
    · exact h2.trans hlen
    · intro a
      rw [hcl a]
      by_cases hs : (views a).subscribed = true
      · simp [specStep, hs]
      · simp [specStep, hs]
    · intro a ha
      show chans'[a]? = _
      rw [h3 a, hch a ha]
      by_cases hs : (views a).subscribed = true
      · rw [if_pos ((hmem a).mpr hs)]
        simp [specStep, hs]
      · rw [if_neg (fun h => hs ((hmem a).mp h))]
        simp [specStep, hs]
    · intro a hs
      by_cases hs' : (views a).subscribed = true
      · simp only [specStep, hs', if_true]
        exact hop a hs'
      · simp only [specStep, hs', Bool.false_eq_true, if_false] at hs

/-- The rounds of the loop on a state that agrees with the views, for a valid sequence of
events: the loop goes through all of them without fault, and the state agrees with the
views after the events. -/
theorem run_matches (n : Nat) (trace : List (RangeOrder × Event T)) :
    ∀ (st : Loop T) (views : Nat → ClientView T), Matches n st views →
      validEvents n views (trace.map Prod.snd) = true →
      ∃ st', st.run trace = .ok st' ∧
        Matches n st' (fun c => specClient c (views c) (trace.map Prod.snd)) := by
  induction trace with
  | nil =>
    intro st views hm _
    exact ⟨st, rfl, hm⟩
  | cons p rest ih =>
    intro st views hm hv
    obtain ⟨ro, e⟩ := p
    simp only [List.map_cons, validEvents, Bool.and_eq_true] at hv
    obtain ⟨st1, h1, hm1⟩ := step_matches n ro st views e hm hv.1
    obtain ⟨st', h2, hm2⟩ := ih st1 _ hm1 hv.2
    refine ⟨st', ?_, ?_⟩
    · simp only [Loop.run, h1]
      exact h2
    · exact hm2

theorem start_matches (n : Nat) :
    Matches n (Loop.start n : Loop T) (fun _ => ClientView.fresh) := by
  refine ⟨by simp [Loop.start], ?_, ?_, ?_⟩
  · intro c
    simp [Loop.start, GoMap.keys, GoMap.empty, ClientView.fresh]
  · intro c hc
    simp [Loop.start, List.getElem?_replicate, hc, Chan.make, ClientView.fresh]
  · intro c hs
    simp [ClientView.fresh] at hs

end channel

/-- C26: the control loop of the Hub, client by client. Start from the loop of a new Hub
and `n` client channels as `Register` makes them, and let the loop receive any sequence of
events in which a client is registered or unregistered only if it is one of the `n`
clients and has not been unregistered before. Then the loop goes through the whole
sequence without fault (no send on a closed channel, no second close), and at the end, for
each client: it is in the subscriber set exactly when its last register or unregister was a
register; its channel has received exactly the values broadcast while it was in the
subscriber set, each once and in order; its channel is closed exactly when it was
unregistered; and every client in the subscriber set has an open channel. Processing
`register(c)` puts `c` in the subscriber set, a second `unregister` of a client panics, and
`Broadcast(v)` on a Hub whose subscriber set is empty sends nothing. -/
theorem Hub_loop_delivers {T : Type} (n : Nat) (trace : List (RangeOrder × channel.Event T))
    (hvalid : channel.validEvents n (fun _ => channel.ClientView.fresh)
      (trace.map Prod.snd) = true) :
    (∃ st, (channel.Loop.start n).run trace = .ok st ∧ st.chans.length = n ∧
      (∀ c, c ∈ st.clients.keys ↔
        (channel.specClient c channel.ClientView.fresh (trace.map Prod.snd)).subscribed
          = true) ∧
      (∀ c, c < n → st.chans[c]? = some
        { cap := 0,
          sent := (channel.specClient c channel.ClientView.fresh
            (trace.map Prod.snd)).delivered,
          closed := (channel.specClient c channel.ClientView.fresh
            (trace.map Prod.snd)).closed }) ∧
      (∀ c, c ∈ st.clients.keys → c < n ∧
        (channel.specClient c channel.ClientView.fresh (trace.map Prod.snd)).closed
          = false)) ∧
    (∀ (ro : RangeOrder) (st : channel.Loop T) (c : Nat),
      ∃ st', st.step ro (.register c) = .ok st' ∧ st'.chans = st.chans ∧
        ∀ a, a ∈ st'.clients.keys ↔ a = c ∨ a ∈ st.clients.keys) ∧
    (∀ (ro : RangeOrder) (st : channel.Loop T) (c : Nat) (ch : Chan T),
      st.chans[c]? = some ch → ch.closed = true →
        st.step ro (.unregister c) = .error Fault.panic) ∧
    (∀ (st : channel.Loop T) (sent : List T) (v : T), st.clients.keys = [] →
      (st.hub sent).Broadcast v = st.hub sent) := by
  refine ⟨?_, ?_, ?_, ?_⟩
  · obtain ⟨st, h1, hlen, hcl, hch, hop⟩ :=
      channel.run_matches n trace _ _ (channel.start_matches n) hvalid
    exact ⟨st, h1, hlen, hcl, hch, fun c hc => hop c ((hcl c).mp hc)⟩
  · intro ro st c
    exact ⟨_, rfl, rfl, fun a => GoMap.mem_keys_setEntry c () st.clients.entries a⟩
  · intro ro st c ch hch hclosed
    simp only [channel.Loop.step, channel.closeClient_closed st.chans c ch hch hclosed]
  · intro st sent v hempty
    simp [channel.Loop.hub, channel.Hub.Broadcast, hempty]

/-- Witness of C26: two clients; the loop receives register(0), register(1),
broadcast("v"), unregister(0), broadcast("w"). Client 0 has got `v` and is closed; client
1 has got `v, w` and is open. -/
theorem Hub_loop_delivers_witness :
    channel.validEvents 2 (fun _ => channel.ClientView.fresh)
        ([(RangeOrder.asStored, channel.Event.register 0),
          (RangeOrder.backwards, channel.Event.register 1),
          (RangeOrder.backwards, channel.Event.broadcast "v"),
          (RangeOrder.asStored, channel.Event.unregister 0),
          (RangeOrder.asStored, channel.Event.broadcast "w")].map Prod.snd) = true ∧
      ∃ st, (channel.Loop.start 2).run
          [(RangeOrder.asStored, channel.Event.register 0),
            (RangeOrder.backwards, channel.Event.register 1),
            (RangeOrder.backwards, channel.Event.broadcast "v"),
            (RangeOrder.asStored, channel.Event.unregister 0),
            (RangeOrder.asStored, channel.Event.broadcast "w")] = .ok st ∧
        st.chans[0]? = some { cap := 0, sent := ["v"], closed := true } ∧
        st.chans[1]? = some { cap := 0, sent := ["v", "w"], closed := false } :=
  have h := (Hub_loop_delivers 2
    [(RangeOrder.asStored, channel.Event.register 0),
      (RangeOrder.backwards, channel.Event.register 1),
      (RangeOrder.backwards, channel.Event.broadcast "v"),
      (RangeOrder.asStored, channel.Event.unregister 0),
      (RangeOrder.asStored, channel.Event.broadcast "w")] (by decide)).1
  ⟨by decide, h.elim (fun st hst =>
    ⟨st, hst.1, (hst.2.2.2.1 0 (by decide)).trans rfl, (hst.2.2.2.1 1 (by decide)).trans rfl⟩)⟩

/-! ## Decoding and the sort cache -/

namespace GoMap

variable {K V : Type} [DecidableEq K]

/-- Two maps that answer every lookup alike have the same keys, up to their order. -/
theorem keys_perm_of_get?_eq (a b : GoMap K V) (h : ∀ k, a.get? k = b.get? k) :
    a.keys.Perm b.keys := by
  apply (List.perm_ext_iff_of_nodup a.nodup_keys b.nodup_keys).mpr
  intro k
  rw [mem_keys, mem_keys, h k]

end GoMap

namespace maps

open types

namespace OrderedMap

variable {K V : Type} [LinearOrder K]

/-- The decode of an `OrderedMap` leaves the sorted flag, the cached keys and the comparator
as they are, whatever the codec does. -/
theorem unmarshal_cache [Inhabited V] {E B : Type} (m : OrderedMap K V)
    (unmarsh : UnmarshalInto E B (Option (GoMap K V))) (data : B) :
    (m.unmarshal unmarsh data).2.sorted = m.sorted ∧
      (m.unmarshal unmarsh data).2.sortedKeys = m.sortedKeys ∧
      (m.unmarshal unmarsh data).2.lessFunc = m.lessFunc :=
  ⟨rfl, rfl, rfl⟩

/-- After a read and a decode, `Keys()` returns what the read before the decode returned. -/
theorem Keys_after_unmarshal [Inhabited V] {E B : Type} (ro ro' : RangeOrder) (m : OrderedMap K V)
    (unmarsh : UnmarshalInto E B (Option (GoMap K V))) (data : B) :
    (((m.Keys ro).2.unmarshal unmarsh data).2.Keys ro').1 = (m.Keys ro).1 := by
  have h : ((m.sort ro).unmarshal unmarsh data).2.sorted = true := sort_sorted ro m
  show (sort ro' ((m.sort ro).unmarshal unmarsh data).2).sortedKeys = (m.sort ro).sortedKeys
  rw [sort_of_sorted ro' _ h]
  rfl

/-- After a read and a decode, `Values()` returns one value per key the read before the
decode returned. -/
theorem Values_after_unmarshal [Inhabited V] {E B : Type} (ro ro' : RangeOrder) (m : OrderedMap K V)
    (unmarsh : UnmarshalInto E B (Option (GoMap K V))) (data : B) :
    (((m.Keys ro).2.unmarshal unmarsh data).2.Values ro').1.length = (m.Keys ro).1.length := by
  have h : ((m.sort ro).unmarshal unmarsh data).2.sorted = true := sort_sorted ro m
  show ((sort ro' ((m.sort ro).unmarshal unmarsh data).2).sortedKeys.map _).length =
    (m.sort ro).sortedKeys.length
  rw [sort_of_sorted ro' _ h, List.length_map]
  rfl

/-- The copy is made by `NewOrdered(*copy, nil)`: it has no comparator of its own. -/
theorem Copy_eq {E B : Type} (jsonMarshal : Option (GoMap K V) → Except E B)
    (jsonUnmarshal : B → Option (GoMap K V) → Except E (Option (GoMap K V)))
    (m : OrderedMap K V) :
    m.Copy jsonMarshal jsonUnmarshal =
      (utils.DeepCopy jsonMarshal jsonUnmarshal none m.data).map
        (fun copy => NewOrdered copy none) := by
  unfold Copy
  cases utils.DeepCopy jsonMarshal jsonUnmarshal none m.data <;> rfl

/-- Where the comparator in force arranges the keys in ascending order (the default one
does), the cache is coherent and the content survives the round trip of `DeepCopy`, the
copy has the keys of the map, in the same order. -/
theorem Copy_Keys_of_ascending {E B : Type} (ro ro' : RangeOrder) (m : OrderedMap K V)
    (jsonMarshal : Option (GoMap K V) → Except E B)
    (jsonUnmarshal : B → Option (GoMap K V) → Except E (Option (GoMap K V)))
    (decoded : Option (GoMap K V))
    (hless : ArrangesBy m.less (fun a b => a < b))
    (hcache : m.sorted = true →
      m.sortedKeys.Pairwise (fun a b => a < b) ∧ m.sortedKeys.Perm (GoMap.orEmpty m.data).keys)
    (hcopy : utils.DeepCopy jsonMarshal jsonUnmarshal none m.data = some decoded)
    (hsame : ∀ k, (GoMap.orEmpty decoded).get? k = (GoMap.orEmpty m.data).get? k) :
    ∃ c, m.Copy jsonMarshal jsonUnmarshal = some c ∧ (c.Keys ro').1 = (m.Keys ro).1 := by
  refine ⟨NewOrdered decoded none, ?_, ?_⟩
  · rw [Copy_eq, hcopy]
    rfl
  · have hc := sort_coherent ro' (NewOrdered decoded none) (fun a b => a < b)
      (arranges_of_comparesBy (V := V) none (fun a b => a < b) (fun _ _ => Iff.rfl))
      (fun h => by simp [NewOrdered] at h)
    have hm := sort_coherent ro m (fun a b => a < b) hless hcache
    rw [sort_data] at hc hm
    have hperm : ((NewOrdered decoded none).sort ro').sortedKeys.Perm (m.sort ro).sortedKeys :=
      (hc.2.trans (GoMap.keys_perm_of_get?_eq _ _ hsame)).trans hm.2.symm
    exact List.eq_of_perm_of_sorted hperm hc.1 hm.1

end OrderedMap

namespace WeightedMap

variable {K V : Type} [DecidableEq K] [Inhabited V]

/-- The decode of a `WeightedMap` leaves the sorted flag and the cached keys as they are,
whatever the codec returns. -/
theorem weighted_unmarshal_cache {E B : Type} (ro : RangeOrder) (m : WeightedMap K V)
    (unmarsh : UnmarshalFunc E B (Option (GoMap K V))) (data : B) :
    (m.unmarshal ro unmarsh data).2.sorted = m.sorted ∧
      (m.unmarshal ro unmarsh data).2.sortedKeys = m.sortedKeys := by
  have hs : m.init.sorted = m.sorted ∧ m.init.sortedKeys = m.sortedKeys := by
    obtain ⟨⟨d, r, lk, hb⟩, s, sk, wc⟩ := m
    cases d <;> exact ⟨rfl, rfl⟩
  unfold unmarshal
  simp only
  split
  · exact hs
  · split
    · exact hs
    · exact hs

theorem weighted_sort_sorted (ro : RangeOrder) (m : WeightedMap K V) :
    (m.sort ro).sorted = true := by
  unfold sort
  cases h : m.sorted
  · rfl
  · simp only [if_true]
    exact h

/-- After a read and a decode, `Keys()` returns what the read before the decode returned. -/
theorem weighted_Keys_after_unmarshal {E B : Type} (ro ro1 ro2 : RangeOrder)
    (m : WeightedMap K V) (unmarsh : UnmarshalFunc E B (Option (GoMap K V))) (data : B) :
    (((m.Keys ro).2.unmarshal ro1 unmarsh data).2.Keys ro2).1 = (m.Keys ro).1 := by
  obtain ⟨h1, h2⟩ := weighted_unmarshal_cache ro1 (m.sort ro) unmarsh data
  have h : ((m.sort ro).unmarshal ro1 unmarsh data).2.sorted = true := by
    rw [h1]
    exact weighted_sort_sorted ro m
  show (sort ro2 ((m.sort ro).unmarshal ro1 unmarsh data).2).sortedKeys = (m.sort ro).sortedKeys
  rw [weighted_sort_of_sorted ro2 _ h]
  exact h2

/-- With the flag set and more cached keys than entries, `Values()` writes past the end of
its result and panics. -/
theorem Values_of_long_cache (ro : RangeOrder) (m : WeightedMap K V) (h : m.sorted = true)
    (hlen : (GoMap.orEmpty m.data).len < m.sortedKeys.length) : (m.Values ro).1 = none := by
  unfold Values
  rw [weighted_sort_of_sorted ro m h]
  simp only
  rw [if_neg (by omega)]

end WeightedMap

end maps

/-- C31 (fails on the code): a decode leaves the sort cache in force. For every
`OrderedMap` and every `WeightedMap`, whatever the codec and the payload, `Keys()` after
`Keys()` and a decode returns the keys from before the decode. On the `OrderedMap` with
the keys 1 and 2, read by `Keys()`, a decode that stores the pair `3: "c"` returns nil and
leaves the keys 1, 2, 3, and the next `Keys()` is `[1, 2]` and the next `Values()` has two
values. On the `WeightedMap` with the keys `a` and `b`, read by `Keys()`, a decode of a
payload with the one pair `c: "z"` returns nil and leaves the key `c` alone, and the next
`Keys()` is `["a", "b"]` and the next `Values()` panics. -/
theorem unmarshal_keeps_sort_cache {K K' V E B : Type} [LinearOrder K] [DecidableEq K']
    [Inhabited V] (o : maps.OrderedMap K V) (w : maps.WeightedMap K' V)
    (ro ro1 ro2 : RangeOrder) (uo : types.UnmarshalInto E B (Option (GoMap K V)))
    (uw : types.UnmarshalFunc E B (Option (GoMap K' V))) (data : B) :
    (((o.Keys ro).2.unmarshal uo data).2.Keys ro2).1 = (o.Keys ro).1 ∧
    (((w.Keys ro).2.unmarshal ro1 uw data).2.Keys ro2).1 = (w.Keys ro).1 ∧
    ((((maps.NewOrdered (none : Option (GoMap Nat String)) none).setAll
        [(1, "a"), (2, "b")]).Keys RangeOrder.asStored).1 = [1, 2] ∧
      ((((maps.NewOrdered (none : Option (GoMap Nat String)) none).setAll
        [(1, "a"), (2, "b")]).Keys RangeOrder.asStored).2.unmarshal
          (fun (payload : List (Nat × String)) dst =>
            ((none : Option Unit),
              some (payload.foldl (fun d p => d.set p.1 p.2) (GoMap.orEmpty dst))))
          [(3, "c")]).1 = none ∧
      (GoMap.orEmpty
        ((((maps.NewOrdered (none : Option (GoMap Nat String)) none).setAll
          [(1, "a"), (2, "b")]).Keys RangeOrder.asStored).2.unmarshal
            (fun (payload : List (Nat × String)) dst =>
              ((none : Option Unit),
                some (payload.foldl (fun d p => d.set p.1 p.2) (GoMap.orEmpty dst))))
            [(3, "c")]).2.data).keys = [1, 2, 3] ∧
      (((((maps.NewOrdered (none : Option (GoMap Nat String)) none).setAll
        [(1, "a"), (2, "b")]).Keys RangeOrder.asStored).2.unmarshal
          (fun (payload : List (Nat × String)) dst =>
            ((none : Option Unit),
              some (payload.foldl (fun d p => d.set p.1 p.2) (GoMap.orEmpty dst))))
          [(3, "c")]).2.Keys RangeOrder.asStored).1 = [1, 2] ∧
      (((((maps.NewOrdered (none : Option (GoMap Nat String)) none).setAll
        [(1, "a"), (2, "b")]).Keys RangeOrder.asStored).2.unmarshal
          (fun (payload : List (Nat × String)) dst =>
            ((none : Option Unit),
              some (payload.foldl (fun d p => d.set p.1 p.2) (GoMap.orEmpty dst))))
          [(3, "c")]).2.Values RangeOrder.asStored).1 = ["a", "b"]) ∧
    (((maps.NewWeighted (some (GoMap.ofList
        [("a", (⟨"x", 5⟩ : types.Weighted String)), ("b", ⟨"y", 3⟩)]))).Keys
          RangeOrder.asStored).1 = ["a", "b"] ∧
      (((maps.NewWeighted (some (GoMap.ofList
        [("a", (⟨"x", 5⟩ : types.Weighted String)), ("b", ⟨"y", 3⟩)]))).Keys
          RangeOrder.asStored).2.unmarshal RangeOrder.asStored
            (fun (_ : Unit) _ => (.ok (some (GoMap.ofList [("c", "z")])) :
              Except Unit (Option (GoMap String String)))) ()).1 = none ∧
      (GoMap.orEmpty
        (((maps.NewWeighted (some (GoMap.ofList
          [("a", (⟨"x", 5⟩ : types.Weighted String)), ("b", ⟨"y", 3⟩)]))).Keys
            RangeOrder.asStored).2.unmarshal RangeOrder.asStored
              (fun (_ : Unit) _ => (.ok (some (GoMap.ofList [("c", "z")])) :
                Except Unit (Option (GoMap String String)))) ()).2.data).keys = ["c"] ∧
      ((((maps.NewWeighted (some (GoMap.ofList
        [("a", (⟨"x", 5⟩ : types.Weighted String)), ("b", ⟨"y", 3⟩)]))).Keys
          RangeOrder.asStored).2.unmarshal RangeOrder.asStored
            (fun (_ : Unit) _ => (.ok (some (GoMap.ofList [("c", "z")])) :
              Except Unit (Option (GoMap String String)))) ()).2.Keys
                RangeOrder.asStored).1 = ["a", "b"] ∧
      ((((maps.NewWeighted (some (GoMap.ofList
        [("a", (⟨"x", 5⟩ : types.Weighted String)), ("b", ⟨"y", 3⟩)]))).Keys
          RangeOrder.asStored).2.unmarshal RangeOrder.asStored
            (fun (_ : Unit) _ => (.ok (some (GoMap.ofList [("c", "z")])) :
              Except Unit (Option (GoMap String String)))) ()).2.Values
                RangeOrder.asStored).1 = none) := by
  refine ⟨maps.OrderedMap.Keys_after_unmarshal ro ro2 o uo data,
    maps.WeightedMap.weighted_Keys_after_unmarshal ro ro1 ro2 w uw data, ?_, ?_⟩
  · decide
  · decide

/-- C32 (fails on the code): the copy of an `OrderedMap` has no comparator of its own. For
every `OrderedMap`, `Copy()` is `NewOrdered` of the deep copy of the backing map with a nil
comparator. The map made from `1: "a", 2: "b", 3: "c"` with a comparator for the
descending order has `Keys()` equal to `[3, 2, 1]`; its copy, through a round trip that
gives back the same content, holds the same three pairs and has `Keys()` equal to
`[1, 2, 3]`. -/
theorem OrderedMap_Copy_drops_comparator {K V E B : Type} [LinearOrder K]
    (m : maps.OrderedMap K V) (jsonMarshal : Option (GoMap K V) → Except E B)
    (jsonUnmarshal : B → Option (GoMap K V) → Except E (Option (GoMap K V))) :
    m.Copy jsonMarshal jsonUnmarshal =
        (utils.DeepCopy jsonMarshal jsonUnmarshal none m.data).map
          (fun copy => maps.NewOrdered copy none) ∧
      ((maps.NewOrdered (some (GoMap.ofList [(1, "a"), (2, "b"), (3, "c")]))
        (some (fun (xs : List Nat) i j => decide (xs.getD j 0 < xs.getD i 0)))).Keys
          RangeOrder.asStored).1 = [3, 2, 1] ∧
      ((maps.NewOrdered (some (GoMap.ofList [(1, "a"), (2, "b"), (3, "c")]))
        (some (fun (xs : List Nat) i j => decide (xs.getD j 0 < xs.getD i 0)))).Copy
          (fun d => (.ok d : Except Unit (Option (GoMap Nat String))))
          (fun bytes _ => (.ok bytes : Except Unit (Option (GoMap Nat String))))).map
        (fun c => ((GoMap.orEmpty c.data).entries, (c.Keys RangeOrder.asStored).1)) =
        some ([(1, "a"), (2, "b"), (3, "c")], [1, 2, 3]) := by
  refine ⟨maps.OrderedMap.Copy_eq jsonMarshal jsonUnmarshal m, ?_, ?_⟩
  · decide
  · decide

/-- C33 (fails on the code): `unmarshal` on a set made by `NewSafe` waits for the lock it
holds. For all values `data` and `values`: `NewSafe(data...)` returns a set whose lock is
free; taking the write lock of a free lock marks it held, and taking the write lock of a
held lock waits; `unmarshal` of a payload that the codec decodes to `values` takes the
write lock and then waits for it in `Add`, so it does not return, with the lock held; on
the set made by `New(data...)`, which has no lock, the same call returns nil and leaves
exactly `values`. -/
theorem Set_unmarshal_waits_for_own_lock {T : Type} [DecidableEq T] (data values : List T) :
    (set.NewSafe data).map (fun t => t.lock) = .ok (some utils.Lock.new) ∧
      utils.LockPtr.Lock (some utils.Lock.new) =
        .ok (some { lock := { readers := 0, writer := true } }) ∧
      utils.LockPtr.Lock (some { lock := { readers := 0, writer := true } }) =
        .error Fault.blocked ∧
      (set.NewSafe data).bind (fun t => t.unmarshal
        (fun (bytes : List T) _ => (.ok bytes : Except Unit (List T))) values) =
        .error Fault.blocked ∧
      (set.New data).unmarshal
        (fun (bytes : List T) _ => (.ok bytes : Except Unit (List T))) values =
        .ok (none, set.New values) := by
  refine ⟨?_, rfl, rfl, ?_, ?_⟩
  · rw [set.NewSafe_eq]
    rfl
  · rw [set.NewSafe_eq]
    exact set.unmarshal_of_synchronized
      ({ data := (set.New data).data, lock := some utils.Lock.new } : set.Set T)
      (fun (bytes : List T) _ => (.ok bytes : Except Unit (List T))) values values rfl rfl
  · exact set.unmarshal_of_unsynchronized (set.New data)
      (fun (bytes : List T) _ => (.ok bytes : Except Unit (List T))) values values
      (by unfold set.New set.Set.Add set.Set.init; rfl) rfl
